import Mathlib

/-!
# eth-affinity (`aff.c`): a shallow embedding and its properties

The C program is embedded as pure Lean functions.

* C strings are `List Char`.
* `int` values are `Int`.  Where the width of a machine integer decides the
  outcome it is explicit: `1 << i` on `int` (`shl_int`), the values parsed by
  `atoi` / `sscanf("%d")` (`int_ok`), `unsigned long long` arithmetic
  (`% 2 ^ 64`).  A computation whose behaviour C leaves undefined yields `none`.
* `snprintf(buf, size, ...)` keeps at most `size - 1` characters.
* The list container (`jl_*`) is an ordinary `List`.
-/

namespace EthAffinity

/-! ## C library pieces used by the program -/

/-- The constant `#define MAXCPU 64`. -/
def MAXCPU : Nat := 64

/-- The range of a 32-bit `int`. -/
def int_ok (v : Int) : Bool := decide (-(2 : Int) ^ 31 ≤ v) && decide (v < (2 : Int) ^ 31)

/-- The expression `1 << i` with `int` operands: defined when `0 ≤ i` and `2 ^ i` is
representable in `int`, undefined otherwise. -/
def shl_int (i : Int) : Option Int :=
  if 0 ≤ i ∧ i < 31 then some ((2 : Int) ^ i.toNat) else none

/-- Conversion of an `int` to `unsigned long long`. -/
def to_ull (v : Int) : Nat := (v % (2 : Int) ^ 64).toNat

/-- Conversion of an `int` to `unsigned int` (what `%x` prints). -/
def to_uint (v : Int) : Nat := (v % (2 : Int) ^ 32).toNat

/-- One lower-case hexadecimal digit. -/
def hexdigit (d : Nat) : Char :=
  if d < 10 then Char.ofNat (48 + d) else Char.ofNat (87 + d)

/-- Digits of `n` in base `b`, most significant first, prepended to `acc`. -/
def fmt_digits (b : Nat) : Nat → Nat → List Char → List Char
  | 0, _, acc => acc
  | fuel + 1, n, acc =>
    if n < b then hexdigit n :: acc
    else fmt_digits b fuel (n / b) (hexdigit (n % b) :: acc)

/-- The conversion `%llx` of an `unsigned long long`. -/
def fmt_llx (n : Nat) : List Char := fmt_digits 16 16 (n % 2 ^ 64) []

/-- The conversion `%x` of an `unsigned int`. -/
def fmt_x (n : Nat) : List Char := fmt_digits 16 8 (n % 2 ^ 32) []

/-- The conversions `%d` / `%lld` of a signed value. -/
def fmt_d (v : Int) : List Char :=
  if v < 0 then '-' :: fmt_digits 10 20 v.natAbs [] else fmt_digits 10 20 v.toNat []

/-- The text `snprintf` leaves in a buffer of `bufsize` bytes: at most `bufsize - 1`
characters of the formatted text. -/
def snprintf (bufsize : Nat) (text : List Char) : List Char := text.take (bufsize - 1)

/-- The C `isspace` in the "C" locale. -/
def isspace (c : Char) : Bool :=
  c.toNat = 32 || (decide (9 ≤ c.toNat) && decide (c.toNat ≤ 13))

/-- Value of a hexadecimal digit, `none` for any other character. -/
def hexval (c : Char) : Option Nat :=
  if 48 ≤ c.toNat ∧ c.toNat ≤ 57 then some (c.toNat - 48)
  else if 97 ≤ c.toNat ∧ c.toNat ≤ 102 then some (c.toNat - 87)
  else if 65 ≤ c.toNat ∧ c.toNat ≤ 70 then some (c.toNat - 55)
  else none

/-- Accumulates the longest prefix of hexadecimal digits. -/
def hex_accum : List Char → Nat → Nat
  | [], acc => acc
  | c :: cs, acc =>
    match hexval c with
    | some d => hex_accum cs (acc * 16 + d)
    | none => acc

/-- The call `strtoull(s, NULL, 16)`: leading white space, an optional sign, an optional
`0x` prefix, then hexadecimal digits; `ULLONG_MAX` on overflow; a negated value wraps. -/
def strtoull16 (s : List Char) : Nat :=
  let s1 := s.dropWhile isspace
  let neg := s1.head? = some '-'
  let s2 := if s1.head? = some '-' ∨ s1.head? = some '+' then s1.tail else s1
  let s3 :=
    match s2 with
    | z :: x :: h :: r =>
      if z = '0' ∧ (x = 'x' ∨ x = 'X') ∧ (hexval h).isSome then h :: r else s2
    | _ => s2
  let v := hex_accum s3 0
  if 2 ^ 64 ≤ v then 2 ^ 64 - 1
  else if neg then (2 ^ 64 - v) % 2 ^ 64
  else v

/-! ## Data model -/

/-- The C `struct cpunode`: node number and the vector `int cpu[MAXCPU]`. -/
structure cpunode where
  n : Int
  cpu : List Int
deriving DecidableEq, Repr

/-- The element `node->cpu[i]`; reads outside the vector are not modelled and give 0. -/
def cpunode.at (node : cpunode) (i : Nat) : Int := node.cpu.getD i 0

/-! ## Bitmask codec -/

/-- The decimal strings collected by the loop of `demask`:
`for(i=0;i<MAXCPU;i++) if(n & ((unsigned long long)1<<i)) { snprintf(buf, 8, "%lld", i); ... }`. -/
def demask_bits (n : Nat) : List (List Char) :=
  (List.range MAXCPU).filterMap fun i =>
    if n &&& ((1 <<< i) % 2 ^ 64) ≠ 0 then some (snprintf 8 (fmt_d (i : Int))) else none

/-- The concatenation loop of `demask`:
`jl_foreach(l, p) { strcat(out, p); if(jl_next(p)) strcat(out, ","); }`. -/
def demask_join : List (List Char) → List Char
  | [] => []
  | p :: rest => p ++ ((if rest.isEmpty then [] else [',']) ++ demask_join rest)

/-- The function `demask`; `none` is the `NULL` pointer. -/
def demask (s : Option (List Char)) : List Char :=
  match s with
  | none => ['?']
  | some s =>
    if s.head? = some '?' then s
    else
      let l := demask_bits (strtoull16 s)
      if l.length = 0 then ['n', 'a'] else demask_join l

/-- The loop `for(i=0;i<var.nr_cpu;i++) cpu |= (1 << i);` of the reset pass. -/
def reset_bitmask (nr_cpu : Int) : Option Nat :=
  (List.range nr_cpu.toNat).foldlM
    (fun cpu i => (shl_int (i : Int)).map fun b => cpu ||| to_ull b) 0

/-- The mask buffer of the reset pass: `char buf[8]; snprintf(buf, sizeof(buf), "%llx", cpu)`. -/
def reset_mask (nr_cpu : Int) : Option (List Char) :=
  (reset_bitmask nr_cpu).map fun cpu => snprintf 8 (fmt_llx cpu)

/-- The function `node_cpu_mask`, given `conf.cpunodes` and `var.cpu_offset`.  The result
is the return code, the bit mask and the content of `buf` (unchanged on `-1`).  A read
outside `cpu[MAXCPU]` or an undefined shift gives `none`. -/
def node_cpu_mask (cpunodes : List cpunode) (cpu_offset : Int) (buf : List Char)
    (bufsize : Nat) (cpu : Int) : Option (Int × Nat × List Char) :=
  if cpunodes ≠ [] ∧ (cpu < 0 ∨ (MAXCPU : Int) ≤ cpu) then none
  else
    match cpunodes.find? (fun node => node.at cpu.toNat ≠ 0) with
    | none => some (-1, 0, buf)
    | some usenode =>
      if cpu_offset < 0 then none
      else
        ((List.range MAXCPU).drop cpu_offset.toNat).foldlM
            (fun bitmask i =>
              if usenode.at i ≠ 0 then (shl_int (i : Int)).map fun b => bitmask ||| to_ull b
              else some bitmask) 0
          |>.map fun bitmask => (0, bitmask, snprintf bufsize (fmt_llx bitmask))

/-- The node vector with exactly the members of `S` marked. -/
def cpu_vector (S : List Nat) : List Int :=
  (List.range MAXCPU).map fun i => if i ∈ S then 1 else 0

/-! ## Devices, queues, configuration and the observable effects -/

/-- The C `struct queue`. -/
structure queue where
  name : List Char
  fn : List Char
  old_affinity : Option (List Char)
  assigned_cpu : Int
  n : Int
deriving DecidableEq, Repr

/-- The C `struct dev`. -/
structure dev where
  name : List Char
  fn : List Char
  old_affinity : Option (List Char)
  numa_node : Int
  single : Int
  rr_multi : Int
  use_rps : Int
  rps : Int
  rx : Int
  tx : Int
  txrx : Int
  assigned_cpu : Int
  rxq : List queue
  txq : List queue
  txrxq : List queue
  rpsq : List queue
deriving DecidableEq, Repr

/-- The fields of the global `conf` that the passes read or write. -/
structure conf_t where
  quiet : Int
  silent : Int
  dryrun : Int
  verbose : Int
  heuristics : Int
  rr_single : Int
  reserve_mq : Int
  num_mq : Int
  max_rx : Int
  max_tx : Int
  max_txrx : Int
  cpunodes : List cpunode
deriving DecidableEq, Repr

/-- The global `var`. -/
structure var_t where
  cur_cpu : Int
  cur_mq_cpu : Int
  nr_cpu : Int
  nr_use_cpu : Int
  cpu_offset : Int
  rps_detected : Int
  multinode : Int
deriving DecidableEq, Repr

/-- What a pass does to the outside world, in program order. -/
inductive event where
  | out (line : List Char)
  | err (line : List Char)
  | fopen (path : List Char)
  | fwrite (path : List Char) (data : List Char)
deriving DecidableEq, Repr

/-- The control files as the program meets them: whether `open(path, O_WRONLY)` succeeds
and what `write(fd, data, n)` returns. -/
structure fsys where
  can_open : List Char → Bool
  write_ret : List Char → List Char → Int

/-- The single quote character. -/
def quote : Char := Char.ofNat 39

/-- The newline character. -/
def nl : Char := Char.ofNat 10

/-- The block
`fd = open(fn, O_WRONLY); if(fd == -1) { if(!conf.silent) fprintf(stderr, ...); return -1; }`
`n = strlen(buf); if(write(fd, buf, n)!=n) { close(fd); return -1; } close(fd);`.
The Boolean tells whether the block fell through (no `return -1`). -/
def write_file (c : conf_t) (fs : fsys) (fn buf : List Char) (t : List event) :
    Bool × List event :=
  if fs.can_open fn then
    (decide (fs.write_ret fn buf = (buf.length : Int)), t ++ [event.fopen fn, event.fwrite fn buf])
  else
    (false, t ++ event.fopen fn ::
      (if c.silent = 0 then
        [event.err ("Failed to open ".toList ++ quote :: fn ++ [quote, nl])] else []))

/-- The text of `printf("irq: cpu %s [mask 0x%s] -> %s %s\n", cpus, buf, name, fn)`. -/
def line_irq_verbose (cpus buf name fn : List Char) : List Char :=
  "irq: cpu ".toList ++ cpus ++ " [mask 0x".toList ++ buf ++ "] -> ".toList ++ name ++
    ' ' :: fn ++ [nl]

/-- The text of `printf("irq %s -> %s\n", cpus, name)`. -/
def line_irq (cpus name : List Char) : List Char :=
  "irq ".toList ++ cpus ++ " -> ".toList ++ name ++ [nl]

/-- The text of `printf("irq: cpu %d [mask 0x%s] -> %s@%d %s\n", cpu, buf, name, node, fn)`. -/
def line_irq_node_verbose (cpu : Int) (buf name : List Char) (node : Int) (fn : List Char) :
    List Char :=
  "irq: cpu ".toList ++ fmt_d cpu ++ " [mask 0x".toList ++ buf ++ "] -> ".toList ++ name ++
    '@' :: fmt_d node ++ ' ' :: fn ++ [nl]

/-- The text of `printf("rps: cpu %s [mask 0x%s] -> %s@%d %s\n", cpus, buf, name, node, fn)`. -/
def line_rps_verbose (cpus buf name : List Char) (node : Int) (fn : List Char) : List Char :=
  "rps: cpu ".toList ++ cpus ++ " [mask 0x".toList ++ buf ++ "] -> ".toList ++ name ++
    '@' :: fmt_d node ++ ' ' :: fn ++ [nl]

/-- The text of `printf("rps %s -> %s\n", cpus, name)`. -/
def line_rps (cpus name : List Char) : List Char :=
  "rps ".toList ++ cpus ++ " -> ".toList ++ name ++ [nl]

/-! ## Reset pass -/

/-- One of the three queue loops of `reset_multiq`, run over the queues it visits. -/
def reset_irq_loop (c : conf_t) (fs : fsys) (buf : List Char) :
    List queue → List event → Int × List event
  | [], t => (0, t)
  | q :: rest, t =>
    let fn := snprintf 256 (q.fn ++ "/smp_affinity".toList)
    let t1 :=
      if c.quiet = 0 then
        t ++ [event.out (if c.verbose ≠ 0 then line_irq_verbose (demask (some buf)) buf q.name fn
                         else line_irq (demask (some buf)) q.name)]
      else t
    if c.dryrun = 0 then
      match write_file c fs fn buf t1 with
      | (true, t2) => reset_irq_loop c fs buf rest t2
      | (false, t2) => (-1, t2)
    else reset_irq_loop c fs buf rest t1

/-- The packet-steering loop of the reset pass: `00` is written, the result of `write`
is not looked at. -/
def reset_rps_loop (c : conf_t) (fs : fsys) (dname : List Char) :
    List queue → List event → Int × List event
  | [], t => (0, t)
  | q :: rest, t =>
    let t1 :=
      if c.quiet = 0 then
        t ++ [event.out (if c.verbose ≠ 0 then
                           "rps: 00 -> ".toList ++ dname ++ ' ' :: q.fn ++ [nl]
                         else "rps 00 -> ".toList ++ dname ++ [nl])]
      else t
    if c.dryrun = 0 then
      if fs.can_open q.fn then
        reset_rps_loop c fs dname rest (t1 ++ [event.fopen q.fn, event.fwrite q.fn ['0', '0', nl]])
      else
        (-1, t1 ++ event.fopen q.fn ::
          (if c.silent = 0 then
            [event.err ("Failed to open ".toList ++ quote :: q.fn ++ [quote, nl])] else []))
    else reset_rps_loop c fs dname rest t1

/-- The queues visited by `for(i=0,q=jl_head_first(l);i<count;i++,q=jl_next(q))`: the first
`count` ones; running past the end of the list dereferences `NULL`. -/
def first_queues (l : List queue) (count : Int) : Option (List queue) :=
  if (l.length : Int) < count then none else some (l.take count.toNat)

/-- The function `reset_multiq`: return code and effects. -/
def reset_multiq (c : conf_t) (v : var_t) (fs : fsys) (d : dev) (t : List event) :
    Option (Int × List event) := do
  let cpu ← reset_bitmask v.nr_cpu
  let buf := snprintf 8 (fmt_llx cpu)
  let rxq ← first_queues d.rxq d.rx
  let (rc1, t1) := reset_irq_loop c fs buf rxq t
  if rc1 ≠ 0 then return (rc1, t1)
  let txq ← first_queues d.txq d.tx
  let (rc2, t2) := reset_irq_loop c fs buf txq t1
  if rc2 ≠ 0 then return (rc2, t2)
  let txrxq ← first_queues d.txrxq d.txrx
  let (rc3, t3) := reset_irq_loop c fs buf txrxq t2
  if rc3 ≠ 0 then return (rc3, t3)
  let rpsq ← first_queues d.rpsq d.rps
  return reset_rps_loop c fs d.name rpsq t3

/-- The function `reset_singleq`: return code and effects. -/
def reset_singleq (c : conf_t) (v : var_t) (fs : fsys) (d : dev) (t : List event) :
    Option (Int × List event) := do
  let fn := snprintf 256 (d.fn ++ "/smp_affinity".toList)
  let cpu ← reset_bitmask v.nr_cpu
  let buf := snprintf 8 (fmt_llx cpu)
  let t1 :=
    if c.quiet = 0 then
      t ++ [event.out (if c.verbose ≠ 0 then line_irq_verbose (demask (some buf)) buf d.name fn
                       else line_irq (demask (some buf)) d.name)]
    else t
  let (ok, t2) := if c.dryrun = 0 then write_file c fs fn buf t1 else (true, t1)
  if !ok then return (-1, t2)
  let rpsq ← first_queues d.rpsq d.rps
  return reset_rps_loop c fs d.name rpsq t2

/-! ## Assign pass -/

/-- The C expression `a % b` on `int`: the remainder of the division truncated towards
zero; undefined for `b = 0`. -/
def c_mod (a b : Int) : Option Int := if b = 0 then none else some (Int.tmod a b)

/-- The mask of one CPU: `snprintf(buf, sizeof(buf), "%x", 1 << cpu)` with `char buf[8]`. -/
def cpu_mask (cpu : Int) : Option (List Char) :=
  (shl_int cpu).map fun m => snprintf 8 (fmt_x (to_uint m))

/-- The variables a queue loop of `aff_multiq` carries along: the cursor `var.cur_mq_cpu`,
the local `rps_cpu`, the local `buf` (`none` while it is uninitialised) and the effects. -/
structure mq_state where
  cur_mq_cpu : Int
  rps_cpu : Int
  buf : Option (List Char)
  trace : List event
deriving DecidableEq, Repr

/-- The report and write of one interrupt queue in `aff_multiq`:
`if(!conf.quiet) printf(...); if(!conf.dryrun) { open; write; close }`. -/
def aff_irq_io (c : conf_t) (fs : fsys) (cpu : Int) (buf name : List Char) (node : Int)
    (fn : List Char) (t : List event) : Bool × List event :=
  let t1 :=
    if c.quiet = 0 then
      t ++ [event.out (if c.verbose ≠ 0 then line_irq_node_verbose cpu buf name node fn
                       else line_irq (fmt_d cpu) name)]
    else t
  if c.dryrun = 0 then write_file c fs fn buf t1 else (true, t1)

/-- The receive-queue loop of `aff_multiq`; `i` is the loop counter.  The result is the
return code (`-1` when the function returned inside the loop), the queues and the
carried variables. -/
def aff_rx_loop (c : conf_t) (fs : fsys) (d : dev) (nr_use_cpu cpu_offset : Int) :
    List queue → Int → mq_state → Option (Int × List queue × mq_state)
  | [], _, st => some (0, [], st)
  | q :: rest, i, st => do
    let fn := snprintf 256 (q.fn ++ "/smp_affinity".toList)
    let r ← if d.rr_multi ≠ 0 then c_mod st.cur_mq_cpu nr_use_cpu else c_mod i nr_use_cpu
    let cur := if d.rr_multi ≠ 0 then st.cur_mq_cpu + 1 else st.cur_mq_cpu
    let cpu := r + cpu_offset
    let q1 := { q with assigned_cpu := cpu }
    let buf ← cpu_mask cpu
    let (ok, t1) := aff_irq_io c fs cpu buf q.name d.numa_node fn st.trace
    let st1 : mq_state := { cur_mq_cpu := cur, rps_cpu := cpu, buf := some buf, trace := t1 }
    if !ok then return (-1, q1 :: rest, st1)
    let (rc, rest1, st2) ← aff_rx_loop c fs d nr_use_cpu cpu_offset rest (i + 1) st1
    return (rc, q1 :: rest1, st2)

/-- The transmit-queue loop of `aff_multiq`. -/
def aff_tx_loop (c : conf_t) (fs : fsys) (d : dev) (nr_use_cpu cpu_offset : Int) :
    List queue → Int → mq_state → Option (Int × List queue × mq_state)
  | [], _, st => some (0, [], st)
  | q :: rest, i, st => do
    let fn := snprintf 256 (q.fn ++ "/smp_affinity".toList)
    let r ← c_mod i nr_use_cpu
    let cpu := if d.tx = 1 ∧ d.rx = 1 then st.rps_cpu else r + cpu_offset
    let buf ← cpu_mask cpu
    let (ok, t1) := aff_irq_io c fs cpu buf q.name d.numa_node fn st.trace
    let st1 : mq_state := { st with buf := some buf, trace := t1 }
    if !ok then return (-1, q :: rest, st1)
    let (rc, rest1, st2) ← aff_tx_loop c fs d nr_use_cpu cpu_offset rest (i + 1) st1
    return (rc, q :: rest1, st2)

/-- The combined-queue loop of `aff_multiq`. -/
def aff_txrx_loop (c : conf_t) (fs : fsys) (d : dev) (nr_use_cpu cpu_offset : Int) :
    List queue → Int → mq_state → Option (Int × List queue × mq_state)
  | [], _, st => some (0, [], st)
  | q :: rest, i, st => do
    let fn := snprintf 256 (q.fn ++ "/smp_affinity".toList)
    let r ← c_mod i nr_use_cpu
    let cpu := r + cpu_offset
    let buf ← cpu_mask cpu
    let q1 := { q with assigned_cpu := cpu }
    let (ok, t1) := aff_irq_io c fs cpu buf q.name d.numa_node fn st.trace
    let st1 : mq_state := { st with rps_cpu := cpu, buf := some buf, trace := t1 }
    if !ok then return (-1, q1 :: rest, st1)
    let (rc, rest1, st2) ← aff_txrx_loop c fs d nr_use_cpu cpu_offset rest (i + 1) st1
    return (rc, q1 :: rest1, st2)

/-- The packet-steering loop shared by `aff_multiq` (which prints `q->name`) and
`aff_singleq` (which prints `dev->name`): `pick q` is the printed name. -/
def aff_rps_loop (c : conf_t) (fs : fsys) (pick : queue → List Char) (node : Int)
    (buf : List Char) : List queue → List event → Int × List event
  | [], t => (0, t)
  | q :: rest, t =>
    let t1 :=
      if c.quiet = 0 then
        t ++ [event.out (if c.verbose ≠ 0 then
                           line_rps_verbose (demask (some buf)) buf (pick q) node q.fn
                         else line_rps (demask (some buf)) (pick q))]
      else t
    if c.dryrun = 0 then
      match write_file c fs q.fn buf t1 with
      | (true, t2) => aff_rps_loop c fs pick node buf rest t2
      | (false, t2) => (-1, t2)
    else aff_rps_loop c fs pick node buf rest t1

/-- The content of `buf` after the call `node_cpu_mask(NULL, buf, sizeof(buf), cpu)` whose
return value the callers drop: on `-1` the buffer keeps what it held. -/
def steer_buf (c : conf_t) (v : var_t) (buf : Option (List Char)) (cpu : Int) :
    Option (Option (List Char)) :=
  match node_cpu_mask c.cpunodes v.cpu_offset (buf.getD []) 8 cpu with
  | none => none
  | some (rc, _, b) => if rc = 0 then some (some b) else some buf

/-- The function `aff_multiq`: return code, the device with the `assigned_cpu` of its
queues, the global `var` and the effects. -/
def aff_multiq (c : conf_t) (fs : fsys) (d : dev) (v : var_t) (t : List event) :
    Option (Int × dev × var_t × List event) := do
  let widen := c.reserve_mq = 0 ∧ d.rx + d.txrx > 1
  let nr_use_cpu := if widen then v.nr_cpu else v.nr_use_cpu
  let cpu_offset := if widen then 0 else v.cpu_offset
  let st0 : mq_state := { cur_mq_cpu := v.cur_mq_cpu, rps_cpu := -1, buf := none, trace := t }
  let (rc1, rxq, st1) ← aff_rx_loop c fs d nr_use_cpu cpu_offset d.rxq (nr_use_cpu - cpu_offset) st0
  let d1 := { d with rxq := rxq }
  if rc1 ≠ 0 then return (rc1, d1, { v with cur_mq_cpu := st1.cur_mq_cpu }, st1.trace)
  let (rc2, txq, st2) ← aff_tx_loop c fs d nr_use_cpu cpu_offset d.txq (nr_use_cpu - cpu_offset) st1
  let d2 := { d1 with txq := txq }
  if rc2 ≠ 0 then return (rc2, d2, { v with cur_mq_cpu := st2.cur_mq_cpu }, st2.trace)
  let (rc3, txrxq, st3) ←
    aff_txrx_loop c fs d nr_use_cpu cpu_offset d.txrxq (nr_use_cpu - cpu_offset) st2
  let d3 := { d2 with txrxq := txrxq }
  let v3 := { v with cur_mq_cpu := st3.cur_mq_cpu }
  if rc3 ≠ 0 then return (rc3, d3, v3, st3.trace)
  if d.use_rps ≠ 0 then
    let b ← steer_buf c v st3.buf st3.rps_cpu
    match d.rpsq, b with
    | [], _ => return (0, d3, v3, st3.trace)
    | _ :: _, none => none
    | _ :: _, some buf =>
      let (rc4, t4) := aff_rps_loop c fs (fun q => q.name) d.numa_node buf d.rpsq st3.trace
      return (rc4, d3, v3, t4)
  else return (0, d3, v3, st3.trace)

/-- The function `aff_singleq`: return code, the device with its `assigned_cpu`, the
global `var` and the effects. -/
def aff_singleq (c : conf_t) (fs : fsys) (d : dev) (v : var_t) (t : List event) :
    Option (Int × dev × var_t × List event) := do
  let fn := snprintf 256 (d.fn ++ "/smp_affinity".toList)
  let r ← if c.rr_single ≠ 0 then c_mod v.cur_cpu v.nr_use_cpu else some 0
  let cpu := if c.rr_single ≠ 0 then r + v.cpu_offset else v.cpu_offset
  let v1 := if c.rr_single ≠ 0 then { v with cur_cpu := v.cur_cpu + 1 } else v
  let d1 := { d with assigned_cpu := cpu }
  let buf ← cpu_mask cpu
  let (ok, t1) := aff_irq_io c fs cpu buf d.name d.numa_node fn t
  if !ok then return (-1, d1, v1, t1)
  let b ← steer_buf c v (some buf) d1.assigned_cpu
  if d.use_rps ≠ 0 then
    let (rc, t2) := aff_rps_loop c fs (fun _ => d.name) d.numa_node (b.getD []) d.rpsq t1
    return (rc, d1, v1, t2)
  else return (0, d1, v1, t1)

/-! ## Topology discovery -/

/-- A decimal digit. -/
def is_digit (c : Char) : Bool := decide (48 ≤ c.toNat) && decide (c.toNat ≤ 57)

/-- Accumulates the longest prefix of decimal digits. -/
def dec_accum : List Char → Nat → Nat
  | [], acc => acc
  | c :: cs, acc => if is_digit c then dec_accum cs (acc * 10 + (c.toNat - 48)) else acc

/-- The number read by `atoi` and by the conversion `%d` of `sscanf`: white space, an
optional sign, decimal digits.  `none` when no digit is there. -/
def parse_int (s : List Char) : Option Int :=
  let s1 := s.dropWhile isspace
  let neg := s1.head? = some '-'
  let s2 := if s1.head? = some '-' ∨ s1.head? = some '+' then s1.tail else s1
  match s2 with
  | [] => none
  | c :: _ =>
    if is_digit c then some (if neg then -((dec_accum s2 0 : Nat) : Int) else (dec_accum s2 0 : Nat))
    else none

/-- The function `atoi`: 0 when there is no number, undefined when the number does not fit
an `int`. -/
def atoi (s : List Char) : Option Int :=
  match parse_int s with
  | none => some 0
  | some v => if int_ok v then some v else none

/-- The C string held by bytes a zero byte has been put behind. -/
def cstr (bytes : List Char) : List Char := bytes.takeWhile fun c => c.toNat ≠ 0

/-- The function `strchr`: the rest of the string from the first `c` on. -/
def strchr (s : List Char) (c : Char) : Option (List Char) :=
  match s.dropWhile (fun x => x ≠ c) with
  | [] => none
  | r => some r

/-- The function `cpu_online`, given the content of `<sysdir>/devices/system/cpu/online`
(`none`: the file cannot be opened).  The result is the return code and `var`. -/
def cpu_online (online : Option (List Char)) (v : var_t) : Option (Int × var_t) :=
  match online with
  | none => some (-1, v)
  | some content =>
    let n := min content.length 15
    if n < 1 then some (-1, v)
    else
      let buf := cstr (content.take n)
      match strchr buf '-' with
      | none => some (0, { v with nr_cpu := 1 })
      | some p =>
        match atoi p.tail with
        | none => none
        | some a => if int_ok (a + 1) then some (0, { v with nr_cpu := a + 1 }) else none

/-- The loop of `jl_splitstr`, with the length of the string as the bound on the number
of its rounds (each round consumes a character). -/
def jl_splitstr_loop (delim : Char) : Nat → List Char → List (List Char)
  | 0, _ => []
  | fuel + 1, s =>
    if s.isEmpty then []
    else
      s.takeWhile (fun x => x ≠ delim) ::
        jl_splitstr_loop delim fuel (s.dropWhile (fun x => x ≠ delim)).tail

/-- The function `jl_splitstr` on a fresh list. -/
def jl_splitstr (s : List Char) (delim : Char) : List (List Char) :=
  jl_splitstr_loop delim s.length s

/-- The function `cpunode_get`: the node list (with a zeroed node appended when `n` is
new) and the position of the node numbered `n`. -/
def cpunode_get (cpunodes : List cpunode) (n : Int) : List cpunode × Nat :=
  match cpunodes.findIdx? (fun node => node.n = n) with
  | some i => (cpunodes, i)
  | none => (cpunodes ++ [{ n := n, cpu := List.replicate MAXCPU 0 }], cpunodes.length)

/-- The loop `for(i=first;i<=last;i++) cpunode->cpu[i] = 1;`; a store outside
`cpu[MAXCPU]` is undefined. -/
def mark_cpus (node : cpunode) (first last : Int) : Option cpunode :=
  if last < first then some node
  else if first < 0 ∨ (MAXCPU : Int) ≤ last then none
  else
    some { node with
      cpu := (List.range' first.toNat (last - first + 1).toNat).foldl
        (fun cpu i => cpu.set i 1) node.cpu }

/-- The body of `jl_foreach(intervals, interval)` in `cpu_nodemap`. -/
def mark_interval (node : cpunode) (interval : List Char) : Option cpunode :=
  let cpus := jl_splitstr interval '-'
  match cpus with
  | [] => none
  | f :: more =>
    match atoi f with
    | none => none
    | some first =>
      match (match more with
             | [] => some first
             | l :: _ => atoi l) with
      | none => none
      | some last => mark_cpus node first last

/-- The handling of one `cpulist` file in `cpu_nodemap`:
`n = read(fd, buf, sizeof(buf)); if(n > 0) { buf[n] = 0; ... }` with `char buf[64]`.
With 64 bytes read the store `buf[n] = 0` is outside the buffer. -/
def parse_cpulist (content : List Char) (node : cpunode) : Option cpunode :=
  let n := min content.length 64
  if n = 0 then some node
  else if n = 64 then none
  else (jl_splitstr (cstr (content.take n)) ',').foldlM mark_interval node

/-- One round of the `readdir` loop of `cpu_nodemap`: the entry name and the content of
its `cpulist` file (`none`: it cannot be opened). -/
def nodemap_entry (cpunodes : List cpunode) (ent : List Char × Option (List Char)) :
    Option (List cpunode) :=
  if "node".toList.isPrefixOf ent.1 then
    match ent.2 with
    | none => some cpunodes
    | some content =>
      match atoi (ent.1.drop 4) with
      | none => none
      | some n =>
        let (nodes, i) := cpunode_get cpunodes n
        match nodes.get? i with
        | none => none
        | some node => (parse_cpulist content node).map fun node1 => nodes.set i node1
  else some cpunodes

/-- The function `cpu_nodemap`, given what is under `<sysdir>/devices/system/node`
(`none`: `stat` fails; else the entries in `readdir` order).  The result is
`conf.cpunodes` and `var`. -/
def cpu_nodemap (root : Option (List (List Char × Option (List Char))))
    (cpunodes : List cpunode) (v : var_t) : Option (List cpunode × var_t) :=
  match root with
  | none =>
    let (nodes, i) := cpunode_get cpunodes 0
    match nodes.get? i with
    | none => none
    | some node =>
      (mark_cpus node 0 (v.nr_cpu - 1)).map fun node1 =>
        (nodes.set i node1, { v with multinode := 0 })
  | some entries =>
    (entries.foldlM nodemap_entry cpunodes).map fun nodes => (nodes, { v with multinode := 1 })

/-! ## Device and queue scanner -/

/-- The function `strstr`: the rest of the string from the first occurrence of `needle`. -/
def strstr : List Char → List Char → Option (List Char)
  | [], needle => if needle.isEmpty then some [] else none
  | c :: cs, needle =>
    if needle.isPrefixOf (c :: cs) then some (c :: cs) else strstr cs needle

/-- The tail shared by `dev_rx`, `dev_tx` and `dev_txrx`:
`if(sscanf(p+k, "%d", &q)==1) return q+1; ... return 0;`.  A number that does not fit
an `int`, or whose successor does not, is undefined. -/
def queue_number (rest : List Char) : Option Int :=
  match parse_int rest with
  | none => some 0
  | some q => if int_ok q && int_ok (q + 1) then some (q + 1) else none

/-- The function `dev_rx`. -/
def dev_rx (name : List Char) : Option Int :=
  match strstr name "-rx-".toList with
  | some p => queue_number (p.drop 4)
  | none => some 0

/-- The function `dev_txrx`. -/
def dev_txrx (name : List Char) : Option Int :=
  let p := (strstr name "-txrx-".toList).orElse fun _ =>
    (strstr name "-rxtx-".toList).orElse fun _ => strstr name "-TxRx-".toList
  match p with
  | some p => queue_number (p.drop 6)
  | none => some 0

/-- The function `dev_tx`. -/
def dev_tx (name : List Char) : Option Int :=
  match strstr name "-tx-".toList with
  | some p => queue_number (p.drop 4)
  | none => some 0

/-- The function `queue_new`; the field `old_affinity` is not set by it. -/
def queue_new (name : List Char) (n : Int) (fn : List Char) : queue :=
  { name := name, fn := fn, old_affinity := none, assigned_cpu := -1, n := n }

/-- The call `jl_ins` on a list sorted with `qcmp` (by `n`): the queue goes behind the
queues whose `n` is not larger. -/
def jl_ins (l : List queue) (q : queue) : List queue :=
  l.takeWhile (fun x => decide (x.n ≤ q.n)) ++ q :: l.dropWhile (fun x => decide (x.n ≤ q.n))

/-- The classification of one directory entry for its device in `scan`: the chain
`dev_rx`, `dev_tx`, `dev_txrx`, then the plain entry.  The result is the device and the
queue made, if any. -/
def scan_entry (d : dev) (d_name fn : List Char) : Option (dev × Option queue) :=
  match dev_rx d_name with
  | none => none
  | some q1 =>
    if q1 ≠ 0 then
      let queue := queue_new d_name (q1 - 1) fn
      some ({ d with rx := d.rx + 1, rxq := jl_ins d.rxq queue }, some queue)
    else
      match dev_tx d_name with
      | none => none
      | some q2 =>
        if q2 ≠ 0 then
          let queue := queue_new d_name (q2 - 1) fn
          some ({ d with tx := d.tx + 1, txq := jl_ins d.txq queue }, some queue)
        else
          match dev_txrx d_name with
          | none => none
          | some q3 =>
            if q3 ≠ 0 then
              let queue := queue_new d_name (q3 - 1) fn
              some ({ d with txrx := d.txrx + 1, txrxq := jl_ins d.txrxq queue }, some queue)
            else some ({ d with fn := fn }, none)

/-- The body of the loop of `detect_singleq` for one device. -/
def detect_singleq_dev (d : dev) : dev :=
  if d.rx + d.tx + d.txrx = 0 then
    let d1 := { d with single := d.single + 1 }
    let d2 := if d1.rx = 0 then { d1 with rx := 1 } else d1
    if d2.tx = 0 then { d2 with tx := 1 } else d2
  else d

/-- The function `detect_singleq`. -/
def detect_singleq (l : List dev) : List dev := l.map detect_singleq_dev

/-! ## Sample inputs -/

/-- Control files that can all be opened and written in full. -/
def fs_ok : fsys := { can_open := fun _ => true, write_ret := fun _ data => data.length }

/-- The data of the `write` calls in a sequence of effects. -/
def written (t : List event) : List (List Char × List Char) :=
  t.filterMap fun e =>
    match e with
    | event.fwrite path data => some (path, data)
    | _ => none

/-- The configuration `main` starts from (no option given); the topology is the single
node of an 8-CPU machine. -/
def conf_default : conf_t :=
  { quiet := 0, silent := 0, dryrun := 0, verbose := 0, heuristics := 1, rr_single := 0,
    reserve_mq := 1, num_mq := 0, max_rx := 0, max_tx := 0, max_txrx := 0,
    cpunodes := [{ n := 0, cpu := cpu_vector (List.range 8) }] }

/-- The state `var` of an 8-CPU machine after `main` has handled `-m 2 -r 5`: two usable
CPUs behind five reserved ones. -/
def var_m2_r5 : var_t :=
  { cur_cpu := 0, cur_mq_cpu := 3, nr_cpu := 8, nr_use_cpu := 2, cpu_offset := 5,
    rps_detected := 0, multinode := 0 }

/-- A device `eth0` with the single receive queue `eth0-rx-0` on interrupt 40. -/
def dev_one_rx : dev :=
  { name := "eth0".toList, fn := [], old_affinity := none, numa_node := 0, single := 0,
    rr_multi := 0, use_rps := 0, rps := 0, rx := 1, tx := 0, txrx := 0, assigned_cpu := -1,
    rxq := [queue_new "eth0-rx-0".toList 0 "/proc/irq/40".toList],
    txq := [], txrxq := [], rpsq := [] }

/-- A single-queue device `eth1` on interrupt 41, after `detect_singleq`. -/
def dev_plain : dev :=
  { name := "eth1".toList, fn := "/proc/irq/41".toList, old_affinity := none, numa_node := 0,
    single := 1, rr_multi := 0, use_rps := 0, rps := 0, rx := 1, tx := 1, txrx := 0,
    assigned_cpu := -1, rxq := [], txq := [], txrxq := [], rpsq := [] }

/-- The state `var` of a machine with `nr_cpu` online CPUs, nothing reserved. -/
def var_of_cpus (nr_cpu : Int) : var_t :=
  { cur_cpu := 0, cur_mq_cpu := nr_cpu, nr_cpu := nr_cpu, nr_use_cpu := nr_cpu, cpu_offset := 0,
    rps_detected := 0, multinode := 0 }

/-! ## Notions the properties are stated with -/

/-- A hexadecimal string: at least one character, all of them hexadecimal digits. -/
def is_hex (s : List Char) : Prop := s ≠ [] ∧ ∀ c ∈ s, (hexval c).isSome = true

instance (s : List Char) : Decidable (is_hex s) := by unfold is_hex; infer_instance

/-- The number a string of hexadecimal digits denotes. -/
def hex_value (s : List Char) : Nat := s.foldl (fun acc c => acc * 16 + (hexval c).getD 0) 0

/-- The positions below 64 of the set bits of `n`, in ascending order. -/
def set_bits (n : Nat) : List Nat := (List.range 64).filter fun i => n.testBit i

/-- A decimal number as text: at least one character, all of them decimal digits. -/
def is_decimal (s : List Char) : Prop := s ≠ [] ∧ ∀ c ∈ s, is_digit c = true

instance (s : List Char) : Decidable (is_decimal s) := by unfold is_decimal; infer_instance

/-- The number a string of decimal digits denotes. -/
def dec_value (s : List Char) : Nat := s.foldl (fun acc c => acc * 10 + (c.toNat - 48)) 0

/-- One term of a cpulist: a bare number `k` (`(k, none)`) or a range `low-high`
(`(low, some high)`), the numbers as decimal text. -/
abbrev cpu_term := List Char × Option (List Char)

/-- The text of a term. -/
def term_text (t : cpu_term) : List Char :=
  match t.2 with
  | none => t.1
  | some hi => t.1 ++ '-' :: hi

/-- A term of decimal numbers below 64, with `low ≤ high` for a range. -/
def term_ok (t : cpu_term) : Prop :=
  is_decimal t.1 ∧ dec_value t.1 < 64 ∧
    match t.2 with
    | none => True
    | some hi => is_decimal hi ∧ dec_value t.1 ≤ dec_value hi ∧ dec_value hi < 64

instance (t : cpu_term) : Decidable (term_ok t) :=
  match t with
  | (lo, none) => inferInstanceAs (Decidable (is_decimal lo ∧ dec_value lo < 64 ∧ True))
  | (lo, some hi) =>
    inferInstanceAs (Decidable (is_decimal lo ∧ dec_value lo < 64 ∧
      (is_decimal hi ∧ dec_value lo ≤ dec_value hi ∧ dec_value hi < 64)))

/-- The CPU `i` is covered by the term: it is `k`, or lies in `{low, ..., high}`. -/
def term_covers (t : cpu_term) (i : Nat) : Prop :=
  match t.2 with
  | none => i = dec_value t.1
  | some hi => dec_value t.1 ≤ i ∧ i ≤ dec_value hi

/-- The comma-separated text of a list of terms. -/
def cpulist_text (terms : List cpu_term) : List Char :=
  [','].intercalate (terms.map term_text)

/-- The CPUs marked in a node. -/
def marked (node : cpunode) : List Nat := (List.range MAXCPU).filter fun i => node.at i ≠ 0

/-- The even CPUs of a 64-CPU machine, `0,2,4,...,62`, as cpulist terms. -/
def even_cpus : List cpu_term :=
  (List.range 32).map fun k => ((Nat.repr (2 * k)).toList, none)

/-- The lines a pass printed on standard output, in order: the reported values. -/
def outs (t : List event) : List (List Char) :=
  t.filterMap fun e =>
    match e with
    | event.out line => some line
    | _ => none

/-- The accesses to control files among the effects: every `open` and every `write`. -/
def touched (t : List event) : List event :=
  t.filter fun e =>
    match e with
    | event.fopen _ => true
    | event.fwrite _ _ => true
    | _ => false

/-- What is compared of a run of `aff_multiq` or `aff_singleq`: the return code,
the device with the `assigned_cpu` values, `var` with the cursors, the reported lines. -/
def run_view (r : Int × dev × var_t × List event) : Int × dev × var_t × List (List Char) :=
  (r.1, r.2.1, r.2.2.1, outs r.2.2.2)

/-- Control files of which the one at `bad` cannot be opened. -/
def fs_without (bad : List Char) : fsys :=
  { can_open := fun p => decide (p ≠ bad), write_ret := fun _ data => data.length }

/-- A device `eth0` with the receive queues `eth0-rx-0` and `eth0-rx-1`. -/
def dev_two_rx : dev :=
  { dev_one_rx with
    rx := 2,
    rxq := [queue_new "eth0-rx-0".toList 0 "/proc/irq/40".toList,
            queue_new "eth0-rx-1".toList 1 "/proc/irq/41".toList] }

/-- What is compared of a queue loop of `aff_multiq`: return code, queues, cursor,
steering reference CPU, mask buffer, reported lines. -/
def loop_view (r : Int × List queue × mq_state) :
    Int × List queue × Int × Int × Option (List Char) × List (List Char) :=
  (r.1, r.2.1, r.2.2.cur_mq_cpu, r.2.2.rps_cpu, r.2.2.buf, outs r.2.2.trace)

/-! ## Heuristics, window and the two passes of `main` -/

/-- One round of the first loop of `set_heuristics`: the aggregates in `conf` and the
locals `exists_mq` and `exists_sq` (`only_sq` and `only_mq` are never read). -/
def heur_count (acc : conf_t × Int × Int) (d : dev) : conf_t × Int × Int :=
  let c := acc.1
  let acc1 : conf_t × Int :=
    if d.rx > 1 ∨ d.tx > 1 ∨ d.txrx > 1 then
      ({ c with
          num_mq := c.num_mq + 1
          max_rx := if d.rx > c.max_rx then d.rx else c.max_rx
          max_tx := if d.tx > c.max_tx then d.tx else c.max_tx
          max_txrx := if d.txrx > c.max_txrx then d.txrx else c.max_txrx }, 1)
    else (c, acc.2.1)
  (acc1.1, acc1.2, if d.single ≠ 0 then 1 else acc.2.2)

/-- The body of the packet-steering loop of `set_heuristics` for one device. -/
def heur_rps (d : dev) : dev :=
  if d.rps = 0 then d else if d.rx = 1 then { d with use_rps := 1 } else d

/-- What the packet-steering loop prints for one device. -/
def heur_rps_out (c : conf_t) (d : dev) : List event :=
  if d.rps = 0 then [] else
    if d.rx = 1 ∧ c.verbose ≠ 0 then
      [event.out ("Heuristic: RPS enabled for ".toList ++ d.name ++ ".\n".toList)]
    else []

/-- The two tests of the last loop of `set_heuristics` on one device. -/
def heur_rr_multi (c : conf_t) (v : var_t) (d : dev) : dev :=
  if d.single = 0 then
    let d1 :=
      if d.txrx ≤ 1 ∧ d.rx < v.nr_use_cpu ∧ c.num_mq > 1 ∧ d.rx < c.max_tx then
        { d with rr_multi := 1 } else d
    if d.txrx > 1 ∧ d.txrx < v.nr_use_cpu ∧ c.num_mq > 1 ∧ d.txrx < c.max_tx then
      { d1 with rr_multi := 1 } else d1
  else d

/-- What the last loop of `set_heuristics` prints for one device. -/
def heur_rr_multi_out (c : conf_t) (v : var_t) (d : dev) : List event :=
  let line := event.out ("Heuristic: round-robin affinity enabled for multi-queue device ".toList
    ++ d.name ++ ".\n".toList)
  if d.single = 0 ∧ c.verbose ≠ 0 then
    (if d.txrx ≤ 1 ∧ d.rx < v.nr_use_cpu ∧ c.num_mq > 1 ∧ d.rx < c.max_tx then [line] else []) ++
    (if d.txrx > 1 ∧ d.txrx < v.nr_use_cpu ∧ c.num_mq > 1 ∧ d.txrx < c.max_tx then [line] else [])
  else []

/-- The statement `if(conf.max_txrx > conf.max_tx) conf.max_tx = conf.max_txrx;` of
`set_heuristics`. -/
def heur_max (c : conf_t) : conf_t :=
  if c.max_txrx > c.max_tx then { c with max_tx := c.max_txrx } else c

/-- The decision of `set_heuristics` on `conf.rr_single`; `len` is `l->len`. -/
def heur_rr_single (c : conf_t) (v : var_t) (exists_mq : Int) (len : Nat) : conf_t :=
  if exists_mq ≠ 0 then { c with rr_single := 1 }
  else if v.nr_use_cpu > 1 ∧ (len : Int) > 2 then { c with rr_single := 1 } else c

/-- What `set_heuristics` prints with its decision on `conf.rr_single`. -/
def heur_rr_single_out (c : conf_t) (v : var_t) (exists_mq exists_sq : Int) (len : Nat) :
    List event :=
  let all_single :=
    event.out "Heuristic: round-robin affinity enabled for all single-queue devices.\n".toList
  if exists_mq ≠ 0 then
    (if exists_sq ≠ 0 ∧ c.verbose ≠ 0 then [all_single] else [])
  else if v.nr_use_cpu > 1 ∧ (len : Int) > 2 then
    (if c.verbose ≠ 0 then [all_single] else [])
  else
    (if c.verbose ≠ 0 then
      [event.out "Heuristic: CPU 0 affinity for all single-queue devices.\n".toList]
     else [])

/-- The function `set_heuristics`: the configuration, the devices and the effects it leaves
(it always returns 0). -/
def set_heuristics (c : conf_t) (v : var_t) (l : List dev) (t : List event) :
    conf_t × List dev × List event :=
  let acc := l.foldl heur_count (c, 0, 0)
  let exists_mq := acc.2.1
  let exists_sq := acc.2.2
  let c1 := heur_max acc.1
  if c1.heuristics = 0 then (c1, l, t)
  else
    let steer := exists_mq ≠ 0 ∨ (l.length : Int) = 1
    let l1 := if steer then l.map heur_rps else l
    let t1 := if steer then t ++ (l.map (heur_rps_out c1)).flatten else t
    let c2 := heur_rr_single c1 v exists_mq l.length
    let t2 := t1 ++ heur_rr_single_out c1 v exists_mq exists_sq l.length
    (c2, l1.map (heur_rr_multi c2 v), t2 ++ (l1.map (heur_rr_multi_out c2 v)).flatten)

/-- The loop `while(var.cpu_offset+var.nr_use_cpu > var.nr_cpu) var.nr_use_cpu--;` of `main`,
run for at most `fuel` rounds: the value of `nr_use_cpu` it leaves. -/
def shrink_use (cpu_offset nr_cpu : Int) : Nat → Int → Int
  | 0, nr_use_cpu => nr_use_cpu
  | fuel + 1, nr_use_cpu =>
    if cpu_offset + nr_use_cpu > nr_cpu then shrink_use cpu_offset nr_cpu fuel (nr_use_cpu - 1)
    else nr_use_cpu

/-- The loop `while(var.nr_use_cpu < 1)` of `main`, whose body is
`var.cpu_offset--; var.nr_use_cpu++;`, run for at most `fuel` rounds: the pair
`(cpu_offset, nr_use_cpu)` it leaves. -/
def grow_use : Nat → Int × Int → Int × Int
  | 0, s => s
  | fuel + 1, s => if s.2 < 1 then grow_use fuel (s.1 - 1, s.2 + 1) else s

/-- The window computation of `main` (from `var.nr_use_cpu = var.nr_cpu` to the
initialisation of `var.cur_mq_cpu`), with the values of `conf.maxcpu` and
`conf.reservedcpus`; `0` is the value of an option that was not given.  The two loops
get the number of rounds after which their test is false. -/
def main_window (maxcpu reservedcpus : Int) (v : var_t) : var_t :=
  let use0 := v.nr_cpu
  let use1 := if maxcpu ≠ 0 then (if use0 > maxcpu then maxcpu else use0) else use0
  let off0 := reservedcpus
  let w : Int × Int :=
    if reservedcpus ≠ 0 then
      let use2 := shrink_use off0 v.nr_cpu (off0 + use1 - v.nr_cpu).toNat use1
      let s := grow_use (1 - use2).toNat (off0, use2)
      (if s.1 < 0 then 0 else s.1, s.2)
    else (off0, use1)
  { v with nr_use_cpu := w.2, cpu_offset := w.1, cur_mq_cpu := v.nr_cpu - w.1 }

/-- The reset loop of `main` over the devices; the return values of `reset_singleq` and
`reset_multiq` are dropped. -/
def reset_pass (c : conf_t) (v : var_t) (fs : fsys) : List dev → List event → Option (List event)
  | [], t => some t
  | d :: rest, t =>
    match (if d.single ≠ 0 then reset_singleq c v fs d t else reset_multiq c v fs d t) with
    | none => none
    | some r => reset_pass c v fs rest r.2

/-- The assign loop of `main` over the devices; the return values of `aff_singleq` and
`aff_multiq` are dropped. -/
def assign_pass (c : conf_t) (fs : fsys) :
    List dev → var_t → List event → Option (List dev × var_t × List event)
  | [], v, t => some ([], v, t)
  | d :: rest, v, t =>
    match (if d.single ≠ 0 then aff_singleq c fs d v t else aff_multiq c fs d v t) with
    | none => none
    | some r => (assign_pass c fs rest r.2.2.1 r.2.2.2).map fun x => (r.2.1 :: x.1, x.2)

/-- A multi-queue device with `k` combined queues `name-TxRx-0` .. on interrupts `irq`,
`irq + 1`, .. , as `scan` leaves it. -/
def dev_combined (name : List Char) (irq k : Nat) : dev :=
  { name := name, fn := [], old_affinity := none, numa_node := 0, single := 0,
    rr_multi := 0, use_rps := 0, rps := 0, rx := 0, tx := 0, txrx := k, assigned_cpu := -1,
    rxq := [], txq := [],
    txrxq := (List.range k).map fun i =>
      queue_new (name ++ "-TxRx-".toList ++ fmt_d i) i ("/proc/irq/".toList ++ fmt_d (irq + i)),
    rpsq := [] }

/-- Three devices with combined queues only: `eth0` and `eth1` with two each, `eth2` with
four. -/
def devs_combined : List dev :=
  [dev_combined "eth0".toList 40 2, dev_combined "eth1".toList 50 2,
   dev_combined "eth2".toList 60 4]

/-- A device `eth0` with two receive and four transmit queues, and the packet-steering file
of each receive queue. -/
def dev_rx2_tx4 : dev :=
  { dev_two_rx with
    tx := 4, rps := 2,
    txq := (List.range 4).map fun i =>
      queue_new ("eth0-tx-".toList ++ fmt_d i) i ("/proc/irq/".toList ++ fmt_d (42 + i)),
    rpsq := (List.range 2).map fun i =>
      queue_new "eth0".toList i
        ("/sys/class/net/eth0/queues/rx-".toList ++ fmt_d i ++ "/rps_cpus".toList) }

/-- The single-queue device `eth1` with its packet-steering file. -/
def dev_plain_rps : dev :=
  { dev_plain with
    rps := 1,
    rpsq := [queue_new "eth1".toList 0 "/sys/class/net/eth1/queues/rx-0/rps_cpus".toList] }

/-- The flags the heuristics decide: `conf.rr_single` and, for each device, `use_rps` and
`rr_multi`. -/
def heur_flags (r : conf_t × List dev × List event) : Int × List (Int × Int) :=
  (r.1.rr_single, r.2.1.map fun d => (d.use_rps, d.rr_multi))

/-- The `use_rps` flag of a device after `set_heuristics` on the list `l`, in closed
form. -/
def flag_use_rps (c : conf_t) (l : List dev) (d : dev) : Int :=
  if c.heuristics ≠ 0 ∧ ((∃ x ∈ l, x.rx > 1 ∨ x.tx > 1 ∨ x.txrx > 1) ∨ l.length = 1) ∧
      d.rps ≠ 0 ∧ d.rx = 1 then 1 else d.use_rps

/-- The `rr_multi` flag of a device after `set_heuristics`, in closed form; `c` is the
configuration `set_heuristics` leaves. -/
def flag_rr_multi (c : conf_t) (v : var_t) (d : dev) : Int :=
  if c.heuristics ≠ 0 ∧ d.single = 0 ∧ c.num_mq > 1 ∧
      ((d.txrx ≤ 1 ∧ d.rx < v.nr_use_cpu ∧ d.rx < c.max_tx) ∨
       (d.txrx > 1 ∧ d.txrx < v.nr_use_cpu ∧ d.txrx < c.max_tx)) then 1
  else d.rr_multi

/-- The heuristics applied a second time, to what the first application left. -/
def heur_twice (c : conf_t) (v : var_t) (l : List dev) (t : List event) :
    conf_t × List dev × List event :=
  set_heuristics (set_heuristics c v l t).1 v (set_heuristics c v l t).2.1
    (set_heuristics c v l t).2.2

/-- Six single-queue devices, copies of `eth1`. -/
def devs_six_plain : List dev := List.replicate 6 dev_plain

/-- The configuration of `main` with `rr_single` set, as the heuristics set it. -/
def conf_rr_single : conf_t := { conf_default with rr_single := 1 }

/-- The local `nr_use_cpu` of `aff_multiq`: the usable count of the window the device is
given. -/
def mq_nr_use_cpu (c : conf_t) (d : dev) (v : var_t) : Int :=
  if c.reserve_mq = 0 ∧ d.rx + d.txrx > 1 then v.nr_cpu else v.nr_use_cpu

/-- The local `cpu_offset` of `aff_multiq`: the offset of the window the device is given. -/
def mq_cpu_offset (c : conf_t) (d : dev) (v : var_t) : Int :=
  if c.reserve_mq = 0 ∧ d.rx + d.txrx > 1 then 0 else v.cpu_offset

/-- The first `m` queues of a list given the CPUs `f i`, `f (i + 1)`, .. in turn, the
others left as they are. -/
def assign_first (f : Int → Int) : Nat → Int → List queue → List queue
  | 0, _, qs => qs
  | _ + 1, _, [] => []
  | m + 1, i, q :: qs => { q with assigned_cpu := f i } :: assign_first f m (i + 1) qs

/-- A device `eth0` with the receive queue `eth0-rx-0` and the transmit queue `eth0-tx-0`,
which takes its CPUs from the cursor. -/
def dev_rx1_tx1 : dev :=
  { dev_one_rx with
    rr_multi := 1, tx := 1,
    txq := [queue_new "eth0-tx-0".toList 0 "/proc/irq/41".toList] }

/-- The CPU the first round of a queue loop of `aff_multiq` computes with
`i = nr_use_cpu - cpu_offset` and `cpu = (i % nr_use_cpu) + cpu_offset`. -/
def mq_first_cpu (c : conf_t) (d : dev) (v : var_t) : Int :=
  Int.tmod (mq_nr_use_cpu c d v - mq_cpu_offset c d v) (mq_nr_use_cpu c d v)
    + mq_cpu_offset c d v

/-- A device `eth0` with two transmit queues only. -/
def dev_two_tx : dev :=
  { dev_one_rx with
    rx := 0, tx := 2, rxq := [],
    txq := [queue_new "eth0-tx-0".toList 0 "/proc/irq/40".toList,
            queue_new "eth0-tx-1".toList 1 "/proc/irq/41".toList] }

/-- The device `eth0` with one receive queue, taking its CPUs from the cursor. -/
def dev_one_rx_rr : dev := { dev_one_rx with rr_multi := 1 }

/-- The single-queue device `eth2` on interrupt 50. -/
def dev_eth2_plain : dev :=
  { dev_plain with name := "eth2".toList, fn := "/proc/irq/50".toList }

/-- The control files of a device can be opened, and the mask `buf` can be written to its
interrupt files in full: the file of the device when it is single, else the files of its
queues; and its packet-steering files can be opened. -/
def dev_files_ok (fs : fsys) (buf : List Char) (d : dev) : Prop :=
  (d.single ≠ 0 →
    fs.can_open (snprintf 256 (d.fn ++ "/smp_affinity".toList)) = true ∧
    fs.write_ret (snprintf 256 (d.fn ++ "/smp_affinity".toList)) buf = (buf.length : Int)) ∧
  (d.single = 0 → ∀ q ∈ d.rxq ++ d.txq ++ d.txrxq,
    fs.can_open (snprintf 256 (q.fn ++ "/smp_affinity".toList)) = true ∧
    fs.write_ret (snprintf 256 (q.fn ++ "/smp_affinity".toList)) buf = (buf.length : Int)) ∧
  (∀ q ∈ d.rpsq, fs.can_open q.fn = true)

/-- The counts of a device are the lengths of its queue lists, as `scan` and `scan_rps`
leave them (a single-queue device has no queue lists for its interrupt). -/
def dev_counts_ok (d : dev) : Prop :=
  (d.single = 0 →
    d.rx = (d.rxq.length : Int) ∧ d.tx = (d.txq.length : Int) ∧
    d.txrx = (d.txrxq.length : Int)) ∧
  d.rps = (d.rpsq.length : Int)

/-- The configuration of `main` on a topology whose only node holds the CPUs 4 to 7: the
CPUs 0 to 3 belong to no node. -/
def conf_upper_node : conf_t :=
  { conf_default with cpunodes := [{ n := 0, cpu := cpu_vector [4, 5, 6, 7] }] }

/-- The device `eth0` with one receive queue and its packet-steering file, packet steering
switched on. -/
def dev_one_rx_rps : dev :=
  { dev_one_rx with
    use_rps := 1, rps := 1,
    rpsq := [queue_new "eth0".toList 0 "/sys/class/net/eth0/queues/rx-0/rps_cpus".toList] }

/-- The single-queue device `eth1` with its packet-steering file, packet steering switched
on. -/
def dev_plain_rps_on : dev := { dev_plain_rps with use_rps := 1 }

/-- The configuration of `main` on a 29-CPU machine with one node. -/
def conf_29_cpus : conf_t :=
  { conf_default with cpunodes := [{ n := 0, cpu := cpu_vector (List.range 29) }] }

/-- A device has more than one queue in some role: the test of the first loop of
`set_heuristics`. -/
def many_queues (d : dev) : Prop := d.rx > 1 ∨ d.tx > 1 ∨ d.txrx > 1

instance (d : dev) : Decidable (many_queues d) := by unfold many_queues; infer_instance

/-- The maximum over the devices with several queues of a count `f`, 0 when there is no
such device (counts are not negative). -/
def max_count (f : dev → Int) (l : List dev) : Int :=
  ((l.filter fun d => decide (many_queues d)).map f).foldl max 0

/-- The largest transmit count of the devices with several queues, raised to their largest
combined count when that is larger: `max_transmit_queues` in the words of the
specification. -/
def max_transmit_queues (l : List dev) : Int :=
  max (max_count dev.tx l) (max_count dev.txrx l)

/-! ## Properties -/

/-- C1 (defect in the code): the round trip of the codec breaks at the set `{28}`.
`node_cpu_mask` builds the mask `1 << 28`, eight hexadecimal digits, and prints it into
the eight-byte buffer of its callers, which keeps seven of them: `1000000`.  `demask`
reads that back as CPU 24, not 28.  For the set `{31}` the shift `1 << 31` on `int` is
not defined at all. -/
theorem C1_roundtrip_breaks_at_cpu_28 :
    node_cpu_mask [{ n := 0, cpu := cpu_vector [28] }] 0 [] 8 28
        = some (0, 2 ^ 28, "1000000".toList) ∧
      demask (some "1000000".toList) = "24".toList ∧
      node_cpu_mask [{ n := 0, cpu := cpu_vector [31] }] 0 [] 8 31 = none := by
  refine ⟨by decide, by decide, by decide⟩

set_option maxRecDepth 100000 in
/-- C2 (defect in the code): with multiqueue reservation in force and the window
`cpu_offset = 5`, `usable_cpu_count = 2` of an 8-CPU machine, `aff_multiq` gives the
receive queue of a device CPU 4, a reserved CPU below the window `[5, 7)`: the loop
counter starts at `2 - 5 = -3` and the C remainder `-3 % 2` is `-1`. -/
theorem C2_reserved_cpu_assigned :
    (aff_multiq conf_default fs_ok dev_one_rx var_m2_r5 []).map
        (fun r => (r.1, r.2.1.rxq.map queue.assigned_cpu, written r.2.2.2))
      = some (0, [4], [("/proc/irq/40/smp_affinity".toList, "10".toList)]) ∧
      conf_default.reserve_mq = 1 ∧
      0 ≤ var_m2_r5.cpu_offset ∧ 1 ≤ var_m2_r5.nr_use_cpu ∧
      var_m2_r5.cpu_offset + var_m2_r5.nr_use_cpu ≤ var_m2_r5.nr_cpu ∧
      (4 : Int) < var_m2_r5.cpu_offset := by
  refine ⟨by decide, by decide, by decide, by decide, by decide, by decide⟩

set_option maxRecDepth 100000 in
/-- C3 (defect in the code): on a machine with 29 online CPUs the reset pass writes
`1ffffff` (CPUs 0 to 24), both for a plain device and for a queue, while the encoding of
`{0, ..., 28}` is `1fffffff`: the buffer `char buf[8]` keeps seven digits.  With 32 CPUs
the shift `1 << 31` on `int` is not defined. -/
theorem C3_reset_mask_truncated_at_29_cpus :
    (reset_singleq conf_default (var_of_cpus 29) fs_ok dev_plain []).map
        (fun r => (r.1, written r.2))
      = some (0, [("/proc/irq/41/smp_affinity".toList, "1ffffff".toList)]) ∧
      (reset_multiq conf_default (var_of_cpus 29) fs_ok dev_one_rx []).map
        (fun r => (r.1, written r.2))
      = some (0, [("/proc/irq/40/smp_affinity".toList, "1ffffff".toList)]) ∧
      fmt_llx (2 ^ 29 - 1) = "1fffffff".toList ∧
      demask (some "1ffffff".toList)
        = "0,1,2,3,4,5,6,7,8,9,10,11,12,13,14,15,16,17,18,19,20,21,22,23,24".toList ∧
      reset_singleq conf_default (var_of_cpus 32) fs_ok dev_plain [] = none := by
  refine ⟨by decide, by decide, by decide, by decide, by decide⟩

theorem foldl_set_length (k : Nat) : ∀ (a : Nat) (l : List Int),
    ((List.range' a k).foldl (fun cpu j => cpu.set j 1) l).length = l.length := by
  induction k with
  | zero => intro a l; rfl
  | succ k ih =>
    intro a l
    simp only [List.range'_succ, List.foldl_cons]
    rw [ih]; simp

theorem foldl_set_getD (k : Nat) : ∀ (a : Nat) (l : List Int) (i : Nat),
    ((List.range' a k).foldl (fun cpu j => cpu.set j 1) l).getD i 0
      = if a ≤ i ∧ i < a + k ∧ i < l.length then 1 else l.getD i 0 := by
  induction k with
  | zero => intro a l i; rw [if_neg (by omega)]; rfl
  | succ k ih =>
    intro a l i
    simp only [List.range'_succ, List.foldl_cons]
    rw [ih]
    simp only [List.length_set]
    by_cases h1 : a + 1 ≤ i ∧ i < a + 1 + k ∧ i < l.length
    · rw [if_pos h1, if_pos (by omega)]
    · rw [if_neg h1]
      by_cases h2 : a = i
      · subst h2
        by_cases h3 : a < l.length
        · rw [if_pos (by omega)]
          simp [List.getD_eq_getElem?_getD, List.getElem?_set, h3]
        · rw [if_neg (by omega)]
          have h4 : l.length ≤ a := by omega
          simp [List.getD_eq_getElem?_getD, List.getElem?_set, List.getElem?_eq_none h4, h3]
      · rw [if_neg (by omega)]
        simp [List.getD_eq_getElem?_getD, List.getElem?_set, h2]

theorem replicate_zero_getD (n i : Nat) : (List.replicate n (0 : Int)).getD i 0 = 0 := by
  rw [List.getD_eq_getElem?_getD, List.getElem?_replicate]
  split <;> rfl

/-- C8: without a NUMA root directory and with `1 ≤ total_cpus ≤ 64`, `cpu_nodemap` turns
the empty node list into exactly one node, numbered 0, whose vector marks exactly the
CPUs `0, ..., total_cpus - 1`. -/
theorem C8_single_node_fallback (v : var_t) (h1 : 1 ≤ v.nr_cpu) (h64 : v.nr_cpu ≤ 64) :
    ∃ node : cpunode,
      cpu_nodemap none [] v = some ([node], { v with multinode := 0 }) ∧
      node.n = 0 ∧ node.cpu.length = MAXCPU ∧
      ∀ i : Nat, node.at i ≠ 0 ↔ (i : Int) < v.nr_cpu := by
  have hm : mark_cpus { n := 0, cpu := List.replicate MAXCPU 0 } 0 (v.nr_cpu - 1)
      = some (cpunode.mk 0 (List.foldl (fun cpu i => cpu.set i 1) (List.replicate MAXCPU 0)
          (List.range' 0 v.nr_cpu.toNat))) := by
    unfold mark_cpus
    rw [if_neg (by omega), if_neg (by simp [MAXCPU]; omega)]
    simp
  refine ⟨cpunode.mk 0 (List.foldl (fun cpu i => cpu.set i 1) (List.replicate MAXCPU 0)
          (List.range' 0 v.nr_cpu.toNat)), ?_, rfl, ?_, ?_⟩
  · simp only [cpu_nodemap, cpunode_get, List.findIdx?_nil, List.nil_append, List.length_nil,
      List.get?_cons_zero, hm, Option.map_some', List.set_cons_zero]
  · simp [foldl_set_length]
  · intro i
    simp only [cpunode.at]
    rw [foldl_set_getD, replicate_zero_getD, List.length_replicate]
    by_cases h : (i : Int) < v.nr_cpu
    · rw [if_pos (by simp only [MAXCPU]; omega)]; simp [h]
    · rw [if_neg (by omega)]; simp [h]

theorem C8_single_node_fallback_witness :
    ∃ node : cpunode,
      cpu_nodemap none [] (var_of_cpus 8) = some ([node], { var_of_cpus 8 with multinode := 0 }) ∧
      node.n = 0 ∧ node.cpu.length = MAXCPU ∧
      ∀ i : Nat, node.at i ≠ 0 ↔ (i : Int) < (var_of_cpus 8).nr_cpu :=
  C8_single_node_fallback (var_of_cpus 8) (by decide) (by decide)


/-- What `detect_singleq` does to one device with non-negative role counts and a clear
`single` flag. -/
theorem detect_singleq_dev_spec (d : dev) (hs : d.single = 0) (hrx : 0 ≤ d.rx)
    (htx : 0 ≤ d.tx) (htxrx : 0 ≤ d.txrx) :
    ((detect_singleq_dev d).single ≠ 0 ↔ (d.rx = 0 ∧ d.tx = 0 ∧ d.txrx = 0)) ∧
      ((d.rx = 0 ∧ d.tx = 0 ∧ d.txrx = 0) →
        detect_singleq_dev d = { d with single := 1, rx := 1, tx := 1 } ∧
          (detect_singleq_dev d).txrx = 0) ∧
      (¬(d.rx = 0 ∧ d.tx = 0 ∧ d.txrx = 0) → detect_singleq_dev d = d) := by
  by_cases h : d.rx = 0 ∧ d.tx = 0 ∧ d.txrx = 0
  · obtain ⟨h1, h2, h3⟩ := h
    have hsum : d.rx + d.tx + d.txrx = 0 := by omega
    simp [detect_singleq_dev, hsum, h1, h2, h3, hs]
  · have hsum : ¬ (d.rx + d.tx + d.txrx = 0) := by omega
    simp [detect_singleq_dev, hsum, h, hs]

/-- C10: on a device list whose devices all start with `single = 0` and non-negative role
counts, `detect_singleq` keeps the devices in place, marks a device single-queue exactly
when its receive, transmit and combined counts were all zero, leaves such a device with
receive = 1, transmit = 1, combined = 0 (and nothing else changed), and leaves every
other device as it was. -/
theorem C10_detect_singleq_fixup (l : List dev)
    (h : ∀ d ∈ l, d.single = 0 ∧ 0 ≤ d.rx ∧ 0 ≤ d.tx ∧ 0 ≤ d.txrx) :
    List.Forall₂
      (fun d d1 =>
        (d1.single ≠ 0 ↔ (d.rx = 0 ∧ d.tx = 0 ∧ d.txrx = 0)) ∧
          ((d.rx = 0 ∧ d.tx = 0 ∧ d.txrx = 0) →
            d1 = { d with single := 1, rx := 1, tx := 1 } ∧ d1.txrx = 0) ∧
          (¬(d.rx = 0 ∧ d.tx = 0 ∧ d.txrx = 0) → d1 = d))
      l (detect_singleq l) := by
  induction l with
  | nil => exact List.Forall₂.nil
  | cons d rest ih =>
    have hd := h d (List.mem_cons_self d rest)
    exact List.Forall₂.cons (detect_singleq_dev_spec d hd.1 hd.2.1 hd.2.2.1 hd.2.2.2)
      (ih fun x hx => h x (List.mem_cons_of_mem d hx))

/-- C10 at a device list with one bare device and one device with a receive queue. -/
theorem C10_detect_singleq_fixup_witness :
    List.Forall₂
      (fun d d1 =>
        (d1.single ≠ 0 ↔ (d.rx = 0 ∧ d.tx = 0 ∧ d.txrx = 0)) ∧
          ((d.rx = 0 ∧ d.tx = 0 ∧ d.txrx = 0) →
            d1 = { d with single := 1, rx := 1, tx := 1 } ∧ d1.txrx = 0) ∧
          (¬(d.rx = 0 ∧ d.tx = 0 ∧ d.txrx = 0) → d1 = d))
      [{ dev_plain with single := 0, rx := 0, tx := 0 }, dev_one_rx]
      (detect_singleq [{ dev_plain with single := 0, rx := 0, tx := 0 }, dev_one_rx]) :=
  C10_detect_singleq_fixup [{ dev_plain with single := 0, rx := 0, tx := 0 }, dev_one_rx]
    (by decide)

/-- For positions below 64 the decimal text `demask` prints is the usual one. -/
theorem fmt_position (i : Nat) (h : i < 64) :
    snprintf 8 (fmt_d (i : Int)) = (Nat.repr i).toList := by
  revert i
  decide

/-- A hexadecimal digit is not white space, not a sign and not the `x` of a prefix. -/
theorem hexval_some_char (c : Char) (h : (hexval c).isSome = true) :
    isspace c = false ∧ c ≠ '-' ∧ c ≠ '+' ∧ c ≠ 'x' ∧ c ≠ 'X' ∧ c ≠ '?' := by
  have hr : (48 ≤ c.toNat ∧ c.toNat ≤ 57) ∨ (97 ≤ c.toNat ∧ c.toNat ≤ 102) ∨
      (65 ≤ c.toNat ∧ c.toNat ≤ 70) := by
    unfold hexval at h
    by_cases h1 : 48 ≤ c.toNat ∧ c.toNat ≤ 57
    · exact Or.inl h1
    · by_cases h2 : 97 ≤ c.toNat ∧ c.toNat ≤ 102
      · exact Or.inr (Or.inl h2)
      · by_cases h3 : 65 ≤ c.toNat ∧ c.toNat ≤ 70
        · exact Or.inr (Or.inr h3)
        · simp [h1, h2, h3] at h
  refine ⟨?_, ?_, ?_, ?_, ?_, ?_⟩
  · simp only [isspace, Bool.or_eq_false_iff, Bool.and_eq_false_iff, decide_eq_false_iff_not]
    constructor
    · omega
    · omega
  all_goals
    intro hc
    subst hc
    revert hr
    decide

/-- On hexadecimal digits `hex_accum` is the positional value. -/
theorem hex_accum_eq (s : List Char) : ∀ acc : Nat, (∀ c ∈ s, (hexval c).isSome = true) →
    hex_accum s acc = s.foldl (fun acc c => acc * 16 + (hexval c).getD 0) acc := by
  induction s with
  | nil => intro acc _; rfl
  | cons c cs ih =>
    intro acc h
    have hc := h c (List.mem_cons_self c cs)
    obtain ⟨d, hd⟩ := Option.isSome_iff_exists.mp hc
    simp only [hex_accum, hd, List.foldl_cons, Option.getD_some]
    exact ih _ fun x hx => h x (List.mem_cons_of_mem c hx)

/-- On a hexadecimal string that denotes a value below `2 ^ 64`, `strtoull` returns
that value. -/
theorem strtoull16_hex (s : List Char) (hs : is_hex s) (hlt : hex_value s < 2 ^ 64) :
    strtoull16 s = hex_value s := by
  obtain ⟨hne, hall⟩ := hs
  match s, hne, hall, hlt with
  | c :: cs, _, hall, hlt =>
    have hc := hexval_some_char c (hall c (List.mem_cons_self c cs))
    have h1 : (c :: cs).dropWhile isspace = c :: cs := by
      simp [List.dropWhile_cons, hc.1]
    have h3 : (match c :: cs with
        | z :: x :: h :: r =>
          if z = '0' ∧ (x = 'x' ∨ x = 'X') ∧ (hexval h).isSome then h :: r else c :: cs
        | _ => c :: cs) = c :: cs := by
      match cs, hall with
      | [], _ => rfl
      | [_], _ => rfl
      | x :: h :: r, hall =>
        have hx := hexval_some_char x (hall x (by simp))
        simp [hx.2.2.2.1, hx.2.2.2.2.1]
    unfold strtoull16
    simp only [h1, List.head?_cons, Option.some.injEq, hc.2.1, hc.2.2.1, or_self, if_false, h3]
    rw [hex_accum_eq _ _ hall]
    unfold hex_value at hlt
    rw [if_neg (by omega)]
    rfl

/-- The test `n & ((unsigned long long)1 << i)` of `demask` is the bit test. -/
theorem demask_test_iff (n i : Nat) (h : i < 64) :
    n &&& ((1 <<< i) % 2 ^ 64) ≠ 0 ↔ n.testBit i = true := by
  have hp : (2 : Nat) ^ i < 2 ^ 64 := Nat.pow_lt_pow_right (by decide) h
  rw [Nat.one_shiftLeft, Nat.mod_eq_of_lt hp, Nat.and_two_pow]
  cases hb : n.testBit i
  · simp
  · simp

/-- A `filterMap` that keeps `g i` where `p i` holds is a `map` behind a `filter`. -/
theorem filterMap_if_eq_map_filter {α β : Type} (p : α → Bool) (g : α → β) (l : List α) :
    l.filterMap (fun i => if p i = true then some (g i) else none) = (l.filter p).map g := by
  induction l with
  | nil => rfl
  | cons a l ih =>
    cases h : p a <;> simp [List.filterMap_cons, List.filter_cons, h, ih]

/-- The list `demask` collects holds the decimal texts of the set bits. -/
theorem demask_bits_eq (n : Nat) :
    demask_bits n = (set_bits n).map fun i => (Nat.repr i).toList := by
  unfold demask_bits set_bits
  rw [← filterMap_if_eq_map_filter]
  apply List.filterMap_congr
  intro i hi
  have hi64 : i < 64 := by simpa [MAXCPU] using hi
  by_cases hb : n.testBit i = true
  · rw [if_pos ((demask_test_iff n i hi64).mpr hb), if_pos hb, fmt_position i hi64]
  · rw [if_neg (fun hc => hb ((demask_test_iff n i hi64).mp hc)), if_neg hb]

/-- The concatenation loop of `demask` joins with single commas. -/
theorem demask_join_eq (l : List (List Char)) : demask_join l = [','].intercalate l := by
  induction l with
  | nil => rfl
  | cons p rest ih =>
    cases rest with
    | nil => simp [demask_join, List.intercalate, List.intersperse]
    | cons q rest =>
      rw [demask_join, ih]
      simp [List.intercalate, List.intersperse_cons_cons]

/-- A value below `2 ^ 64` is zero exactly when it has no set bit below 64. -/
theorem set_bits_eq_nil_iff (n : Nat) (h : n < 2 ^ 64) : set_bits n = [] ↔ n = 0 := by
  constructor
  · intro he
    by_contra hn
    obtain ⟨i, hi⟩ := Nat.ne_zero_implies_bit_true hn
    have hge := Nat.testBit_implies_ge hi
    have hi64 : i < 64 := by
      by_contra hc
      have : (2 : Nat) ^ 64 ≤ 2 ^ i := Nat.pow_le_pow_right (by decide) (by omega)
      omega
    have hmem : i ∈ set_bits n := by
      simp only [set_bits, List.mem_filter, List.mem_range]
      exact ⟨hi64, hi⟩
    rw [he] at hmem
    exact List.not_mem_nil i hmem
  · intro h0
    subst h0
    simp [set_bits]

/-- C5: `demask` leaves the not-available marker `?` unchanged; for a hexadecimal string
that denotes `n < 2 ^ 64`, `n ≠ 0`, it returns the decimal positions of the set bits of `n`
joined by single commas (no trailing comma), the positions being exactly the bits of `n`
below 64 in strictly ascending order; for a hexadecimal string that denotes 0 it returns
`na`. -/
theorem C5_demask_spec (s : List Char) (hs : is_hex s) (hlt : hex_value s < 2 ^ 64) :
    demask (some ['?']) = ['?'] ∧
      (hex_value s ≠ 0 →
        demask (some s)
            = [','].intercalate ((set_bits (hex_value s)).map fun i => (Nat.repr i).toList) ∧
          set_bits (hex_value s) ≠ [] ∧
          List.Pairwise (fun a b => a < b) (set_bits (hex_value s)) ∧
          ∀ i, i ∈ set_bits (hex_value s) ↔ i < 64 ∧ (hex_value s).testBit i = true) ∧
      (hex_value s = 0 → demask (some s) = ['n', 'a']) := by
  have hq : s.head? ≠ some '?' := by
    obtain ⟨hne, hall⟩ := hs
    match s, hne, hall with
    | c :: cs, _, hall =>
      have hc := hexval_some_char c (hall c (List.mem_cons_self c cs))
      simpa using hc.2.2.2.2.2
  have hd : demask (some s) =
      if (set_bits (hex_value s)).length = 0 then ['n', 'a']
      else [','].intercalate ((set_bits (hex_value s)).map fun i => (Nat.repr i).toList) := by
    simp only [demask, if_neg hq, strtoull16_hex s hs hlt, demask_bits_eq, demask_join_eq,
      List.length_map]
  refine ⟨rfl, ?_, ?_⟩
  · intro hn
    have hne : set_bits (hex_value s) ≠ [] := fun he => hn ((set_bits_eq_nil_iff _ hlt).mp he)
    refine ⟨?_, hne, ?_, ?_⟩
    · rw [hd, if_neg (by simpa [List.length_eq_zero] using hne)]
    · exact List.Pairwise.filter _ (List.pairwise_lt_range 64)
    · intro i
      simp [set_bits, List.mem_filter, List.mem_range]
  · intro h0
    have he := (set_bits_eq_nil_iff _ hlt).mpr h0
    rw [hd, he]
    rfl

/-- C5 at the strings `ff0A` (bits 1, 3, 8, ..., 15) and `0`. -/
theorem C5_demask_spec_witness :
    demask (some "ff0A".toList) = "1,3,8,9,10,11,12,13,14,15".toList ∧
      demask (some "0".toList) = "na".toList :=
  ⟨((C5_demask_spec "ff0A".toList (by decide) (by decide)).2.1 (by decide)).1.trans (by decide),
    (C5_demask_spec "0".toList (by decide) (by decide)).2.2 (by decide)⟩

/-- A decimal digit is not white space, not a sign, not a separator and not the zero byte. -/
theorem is_digit_char (c : Char) (h : is_digit c = true) :
    isspace c = false ∧ c ≠ '-' ∧ c ≠ '+' ∧ c ≠ ',' ∧ c.toNat ≠ 0 := by
  simp only [is_digit, Bool.and_eq_true, decide_eq_true_eq] at h
  refine ⟨?_, ?_, ?_, ?_, by omega⟩
  · simp only [isspace, Bool.or_eq_false_iff, Bool.and_eq_false_iff, decide_eq_false_iff_not]
    constructor
    · omega
    · omega
  all_goals
    intro hc
    subst hc
    revert h
    decide

/-- On decimal digits `dec_accum` is the positional value. -/
theorem dec_accum_eq (s : List Char) : ∀ acc : Nat, (∀ c ∈ s, is_digit c = true) →
    dec_accum s acc = s.foldl (fun acc c => acc * 10 + (c.toNat - 48)) acc := by
  induction s with
  | nil => intro acc _; rfl
  | cons c cs ih =>
    intro acc h
    simp only [dec_accum, h c (List.mem_cons_self c cs), if_true, List.foldl_cons]
    exact ih _ fun x hx => h x (List.mem_cons_of_mem c hx)

/-- The digits of a number followed by a character that is no digit are read as the
number. -/
theorem dec_accum_append (s : List Char) (r : List Char)
    (hr : ∀ c, r.head? = some c → is_digit c = false) :
    ∀ acc : Nat, (∀ c ∈ s, is_digit c = true) →
    dec_accum (s ++ r) acc = s.foldl (fun acc c => acc * 10 + (c.toNat - 48)) acc := by
  induction s with
  | nil =>
    intro acc _
    cases r with
    | nil => rfl
    | cons c cs => simp [dec_accum, hr c rfl]
  | cons c cs ih =>
    intro acc h
    simp only [List.cons_append, dec_accum, h c (List.mem_cons_self c cs), if_true,
      List.foldl_cons]
    exact ih _ fun x hx => h x (List.mem_cons_of_mem c hx)

/-- What `parse_int` reads from a decimal number followed by text that starts with no
digit. -/
theorem parse_int_decimal (s r : List Char) (hs : is_decimal s)
    (hr : ∀ c, r.head? = some c → is_digit c = false) :
    parse_int (s ++ r) = some (dec_value s : Int) := by
  obtain ⟨hne, hall⟩ := hs
  match s, hne, hall with
  | c :: cs, _, hall =>
    have hd := hall c (List.mem_cons_self c cs)
    have hc := is_digit_char c hd
    have h1 : (c :: cs ++ r).dropWhile isspace = c :: (cs ++ r) := by
      simp [List.dropWhile_cons, hc.1]
    unfold parse_int
    simp only [h1, List.head?_cons, Option.some.injEq, hc.2.1, hc.2.2.1, or_self, if_false, hd,
      if_true]
    have := dec_accum_append (c :: cs) r hr 0 hall
    simp only [List.cons_append] at this
    rw [this]
    rfl

/-- The function `atoi` on a decimal number that fits an `int`, followed by text that
starts with no digit. -/
theorem atoi_decimal (s r : List Char) (hs : is_decimal s)
    (hr : ∀ c, r.head? = some c → is_digit c = false) (hfit : dec_value s < 2 ^ 31) :
    atoi (s ++ r) = some (dec_value s : Int) := by
  unfold atoi
  rw [parse_int_decimal s r hs hr]
  have : int_ok (dec_value s : Int) = true := by
    simp only [int_ok, Bool.and_eq_true, decide_eq_true_eq]
    constructor <;> omega
  simp [this]

/-- Text without a zero byte is the C string it holds. -/
theorem cstr_eq_self (s : List Char) (h : ∀ c ∈ s, c.toNat ≠ 0) : cstr s = s := by
  unfold cstr
  rw [List.takeWhile_eq_self_iff]
  intro c hc
  simpa using h c hc

/-- In text without the character, `strchr` finds nothing. -/
theorem strchr_none (s : List Char) (x : Char) (h : ∀ c ∈ s, c ≠ x) : strchr s x = none := by
  have : s.dropWhile (fun c => c ≠ x) = [] := by
    rw [List.dropWhile_eq_nil_iff]
    intro c hc
    simpa using h c hc
  unfold strchr
  rw [this]

/-- After text without the character, `strchr` finds its first occurrence. -/
theorem strchr_append (s r : List Char) (x : Char) (h : ∀ c ∈ s, c ≠ x) :
    strchr (s ++ x :: r) x = some (x :: r) := by
  have : (s ++ x :: r).dropWhile (fun c => c ≠ x) = x :: r := by
    induction s with
    | nil => simp [List.dropWhile_cons]
    | cons c cs ih =>
      have hc := h c (List.mem_cons_self c cs)
      simp only [List.cons_append, List.dropWhile_cons, hc, ne_eq, not_false_eq_true,
        decide_True, if_true]
      exact ih fun y hy => h y (List.mem_cons_of_mem c hy)
  unfold strchr
  rw [this]

/-- C6 as stated fails: the texts `0-2147483647` and
`100000000000000-100000000000007` have the form low-high with decimal low and high, yet
for the first the increment of `var.nr_cpu` leaves the range of `int` (no `total_cpus`
results, and an `int` cannot hold `high + 1`), and of the second only the first 15 bytes
are read, which hold no `-`, so that `total_cpus` is 1. -/
theorem C6_cpu_online_counterexample :
    is_decimal "0".toList ∧ is_decimal "2147483647".toList ∧
      cpu_online (some "0-2147483647".toList) (var_of_cpus 1) = none ∧
      is_decimal "100000000000000".toList ∧ is_decimal "100000000000007".toList ∧
      dec_value "100000000000007".toList = 100000000000007 ∧
      cpu_online (some "100000000000000-100000000000007".toList) (var_of_cpus 1)
        = some (0, { var_of_cpus 1 with nr_cpu := 1 }) := by
  refine ⟨by decide, by decide, by decide, by decide, by decide, by decide, by decide⟩

/-- C6, amended: for a text that is a bare decimal number `cpu_online` sets `total_cpus`
to 1; for a text `low-high` with decimal `low` and `high` that is at most 15 bytes long
(what `cpu_online` reads) and whose `high + 1` fits an `int`, it sets `total_cpus` to
`high + 1`.  In particular `0-7` gives 8 and `0` gives 1. -/
theorem C6_cpu_online_amended (v : var_t) (lo hi : List Char) (hlo : is_decimal lo)
    (hhi : is_decimal hi) :
    cpu_online (some lo) v = some (0, { v with nr_cpu := 1 }) ∧
      ((lo ++ '-' :: hi).length ≤ 15 → dec_value hi + 1 < 2 ^ 31 →
        cpu_online (some (lo ++ '-' :: hi)) v
          = some (0, { v with nr_cpu := (dec_value hi : Int) + 1 })) ∧
      cpu_online (some "0-7".toList) v = some (0, { v with nr_cpu := 8 }) ∧
      cpu_online (some "0".toList) v = some (0, { v with nr_cpu := 1 }) := by
  refine ⟨?_, ?_, by rfl, by rfl⟩
  · obtain ⟨hne, hall⟩ := hlo
    have hlen : ¬ min lo.length 15 < 1 := by
      have : 0 < lo.length := List.length_pos.mpr hne
      omega
    have hmem : ∀ c ∈ cstr (lo.take (min lo.length 15)), c ≠ '-' := by
      intro c hc
      have h1 : c ∈ lo.take (min lo.length 15) := (List.takeWhile_sublist _).subset hc
      exact (is_digit_char c (hall c (List.mem_of_mem_take h1))).2.1
    simp only [cpu_online, if_neg hlen, strchr_none _ _ hmem]
  · intro hlen hfit
    have hne : ¬ min (lo ++ '-' :: hi).length 15 < 1 := by
      simp only [List.length_append, List.length_cons]
      omega
    have htake : (lo ++ '-' :: hi).take (min (lo ++ '-' :: hi).length 15) = lo ++ '-' :: hi := by
      rw [List.take_of_length_le]
      omega
    have hnz : ∀ c ∈ lo ++ '-' :: hi, c.toNat ≠ 0 := by
      intro c hc
      rcases List.mem_append.mp hc with h | h
      · exact (is_digit_char c (hlo.2 c h)).2.2.2.2
      · rcases List.mem_cons.mp h with h | h
        · subst h; decide
        · exact (is_digit_char c (hhi.2 c h)).2.2.2.2
    have hchr : strchr (lo ++ '-' :: hi) '-' = some ('-' :: hi) :=
      strchr_append lo hi '-' fun c hc => (is_digit_char c (hlo.2 c hc)).2.1
    have hatoi : atoi hi = some (dec_value hi : Int) := by
      have := atoi_decimal hi [] hhi (by simp) (by omega)
      simpa using this
    have hok : int_ok ((dec_value hi : Int) + 1) = true := by
      simp only [int_ok, Bool.and_eq_true, decide_eq_true_eq]
      constructor <;> omega
    simp only [cpu_online, if_neg hne, htake, cstr_eq_self _ hnz, hchr, List.tail_cons, hatoi,
      hok, if_true]

/-- The amended C6 at the text `0-63`. -/
theorem C6_cpu_online_amended_witness :
    cpu_online (some "0-63".toList) (var_of_cpus 1)
      = some (0, { var_of_cpus 1 with nr_cpu := 64 }) :=
  ((C6_cpu_online_amended (var_of_cpus 1) "0".toList "63".toList (by decide) (by decide)).2.1
    (by decide) (by decide)).trans (by decide)

/-- The search `strstr` for a needle that starts with `-` passes over text without `-`. -/
theorem strstr_skip (s r needle : List Char) (h : ∀ c ∈ s, c ≠ '-') :
    strstr (s ++ r) ('-' :: needle) = strstr r ('-' :: needle) := by
  induction s with
  | nil => rfl
  | cons c cs ih =>
    have hc : ('-' == c) = false := by
      rw [beq_eq_false_iff_ne]
      exact fun e => h c (List.mem_cons_self c cs) e.symm
    simp only [List.cons_append, strstr, List.isPrefixOf, hc, Bool.false_and,
      Bool.false_eq_true, if_false]
    exact ih fun x hx => h x (List.mem_cons_of_mem c hx)

/-- In text without `-` a needle that starts with `-` does not occur. -/
theorem strstr_none (s needle : List Char) (h : ∀ c ∈ s, c ≠ '-') :
    strstr s ('-' :: needle) = none := by
  have := strstr_skip s [] needle h
  simpa [strstr] using this

/-- The queue number read behind a pattern: the decimal number plus one. -/
theorem queue_number_decimal (digits : List Char) (hd : is_decimal digits)
    (hfit : dec_value digits + 1 < 2 ^ 31) :
    queue_number digits = some ((dec_value digits : Int) + 1) := by
  have hp := parse_int_decimal digits [] hd (by simp)
  rw [List.append_nil] at hp
  have h1 : int_ok (dec_value digits : Int) = true := by
    simp only [int_ok, Bool.and_eq_true, decide_eq_true_eq]
    constructor <;> omega
  have h2 : int_ok ((dec_value digits : Int) + 1) = true := by
    simp only [int_ok, Bool.and_eq_true, decide_eq_true_eq]
    constructor <;> omega
  simp [queue_number, hp, h1, h2]

/-- A decimal digit is none of the letters of the queue patterns. -/
theorem is_digit_not_letter (c : Char) (h : is_digit c = true) :
    ('r' == c) = false ∧ ('t' == c) = false ∧ ('T' == c) = false ∧ ('x' == c) = false ∧
      ('-' == c) = false := by
  simp only [is_digit, Bool.and_eq_true, decide_eq_true_eq] at h
  refine ⟨?_, ?_, ?_, ?_, ?_⟩
  all_goals
    rw [beq_eq_false_iff_ne]
    intro hc
    subst hc
    revert h
    decide

/-- What the three matchers return on the queue names and on a bare name. -/
theorem dev_matchers (base digits : List Char) (hbase : ∀ c ∈ base, c ≠ '-')
    (hd : is_decimal digits) (hfit : dec_value digits + 1 < 2 ^ 31) :
    dev_rx (base ++ "-rx-".toList ++ digits) = some ((dec_value digits : Int) + 1) ∧
      (dev_rx (base ++ "-tx-".toList ++ digits) = some 0 ∧
        dev_tx (base ++ "-tx-".toList ++ digits) = some ((dec_value digits : Int) + 1)) ∧
      (dev_rx (base ++ "-txrx-".toList ++ digits) = some 0 ∧
        dev_tx (base ++ "-txrx-".toList ++ digits) = some 0 ∧
        dev_txrx (base ++ "-txrx-".toList ++ digits) = some ((dec_value digits : Int) + 1)) ∧
      (dev_rx (base ++ "-rxtx-".toList ++ digits) = some 0 ∧
        dev_tx (base ++ "-rxtx-".toList ++ digits) = some 0 ∧
        dev_txrx (base ++ "-rxtx-".toList ++ digits) = some ((dec_value digits : Int) + 1)) ∧
      (dev_rx (base ++ "-TxRx-".toList ++ digits) = some 0 ∧
        dev_tx (base ++ "-TxRx-".toList ++ digits) = some 0 ∧
        dev_txrx (base ++ "-TxRx-".toList ++ digits) = some ((dec_value digits : Int) + 1)) ∧
      (dev_rx base = some 0 ∧ dev_tx base = some 0 ∧ dev_txrx base = some 0) := by
  have hq := queue_number_decimal digits hd hfit
  obtain ⟨hne, hall⟩ := hd
  match digits, hne, hall, hq with
  | c :: cs, _, hall, hq =>
    have hc := is_digit_not_letter c (hall c (List.mem_cons_self c cs))
    have hnd : ∀ x ∈ cs, x ≠ '-' := fun x hx =>
      (is_digit_char x (hall x (List.mem_cons_of_mem c hx))).2.1
    have hs := fun needle => strstr_none cs needle hnd
    have hb := fun needle => strstr_none base needle hbase
    have e1 : "-rx-".toList = ['-', 'r', 'x', '-'] := rfl
    have e2 : "-tx-".toList = ['-', 't', 'x', '-'] := rfl
    have e3 : "-txrx-".toList = ['-', 't', 'x', 'r', 'x', '-'] := rfl
    have e4 : "-rxtx-".toList = ['-', 'r', 'x', 't', 'x', '-'] := rfl
    have e5 : "-TxRx-".toList = ['-', 'T', 'x', 'R', 'x', '-'] := rfl
    simp only [dev_rx, dev_tx, dev_txrx, e1, e2, e3, e4, e5, List.append_assoc,
      strstr_skip base _ _ hbase, hb]
    simp [strstr, List.isPrefixOf, hc, hs, hq]

/-- The call `jl_ins` puts the queue into the list and keeps the others. -/
theorem jl_ins_spec (l : List queue) (q : queue) :
    q ∈ jl_ins l q ∧ (jl_ins l q).length = l.length + 1 ∧ ∀ x ∈ l, x ∈ jl_ins l q := by
  have hsplit := List.takeWhile_append_dropWhile (fun x => decide (x.n ≤ q.n)) l
  refine ⟨by simp [jl_ins], ?_, ?_⟩
  · have hl := congrArg List.length hsplit
    simp only [List.length_append] at hl
    simp only [jl_ins, List.length_append, List.length_cons]
    omega
  · intro x hx
    rw [← hsplit] at hx
    simp only [jl_ins, List.mem_append, List.mem_cons]
    rcases List.mem_append.mp hx with h | h
    · exact Or.inl h
    · exact Or.inr (Or.inr h)

/-- C9 as stated fails: for the index `N = 2147483648` the entry `eth0-rx-2147483648` is not
classified as a receive queue with `sequence_index = N`: the conversion `%d` of `sscanf`
into an `int` is not defined for it, and an `int` cannot hold `N`.  The same holds for the
other roles. -/
theorem C9_classification_counterexample :
    (∀ c ∈ "eth0".toList, c ≠ '-') ∧ is_decimal "2147483648".toList ∧
      dec_value "2147483648".toList = 2147483648 ∧
      scan_entry dev_plain "eth0-rx-2147483648".toList "/proc/irq/40".toList = none ∧
      scan_entry dev_plain "eth0-tx-2147483648".toList "/proc/irq/40".toList = none ∧
      scan_entry dev_plain "eth0-TxRx-2147483648".toList "/proc/irq/40".toList = none := by
  refine ⟨by decide, by decide, by decide, by decide, by decide, by decide⟩

/-- C9, amended: for a base name without `-` and an index `N ≥ 0` such that `N + 1` fits an
`int` (written with decimal digits), the chain `dev_rx`, `dev_tx`, `dev_txrx` of `scan`
makes `base-rx-N` a receive queue, `base-tx-N` a transmit queue and each of `base-txrx-N`,
`base-rxtx-N`, `base-TxRx-N` a combined queue, with `sequence_index = N`, adds one to
exactly the matching role count and inserts the queue into the matching queue list; the
bare name `base` matches no pattern and becomes the plain entry of the device.  In
particular `eth0-rx-2` gives a receive queue with `sequence_index = 2`. -/
theorem C9_classification_amended (d : dev) (base digits fn : List Char)
    (hbase : ∀ c ∈ base, c ≠ '-') (hd : is_decimal digits)
    (hfit : dec_value digits + 1 < 2 ^ 31) :
    (let name := base ++ "-rx-".toList ++ digits
     let q := queue_new name (dec_value digits : Int) fn
     scan_entry d name fn = some ({ d with rx := d.rx + 1, rxq := jl_ins d.rxq q }, some q) ∧
       q ∈ jl_ins d.rxq q ∧ q.n = dec_value digits) ∧
    (let name := base ++ "-tx-".toList ++ digits
     let q := queue_new name (dec_value digits : Int) fn
     scan_entry d name fn = some ({ d with tx := d.tx + 1, txq := jl_ins d.txq q }, some q) ∧
       q ∈ jl_ins d.txq q ∧ q.n = dec_value digits) ∧
    (∀ mid ∈ ["-txrx-".toList, "-rxtx-".toList, "-TxRx-".toList],
      let name := base ++ mid ++ digits
      let q := queue_new name (dec_value digits : Int) fn
      scan_entry d name fn
          = some ({ d with txrx := d.txrx + 1, txrxq := jl_ins d.txrxq q }, some q) ∧
        q ∈ jl_ins d.txrxq q ∧ q.n = dec_value digits) ∧
    scan_entry d base fn = some ({ d with fn := fn }, none) ∧
    (scan_entry d "eth0-rx-2".toList fn).map (fun r => (r.1.rx, r.2.map queue.n))
      = some (d.rx + 1, some 2) := by
  obtain ⟨h1, h2, h3, h4, h5, h6⟩ := dev_matchers base digits hbase hd hfit
  have hN : ((dec_value digits : Int) + 1 = 0) = False := by
    apply eq_false; omega
  refine ⟨?_, ?_, ?_, ?_, ?_⟩
  · refine ⟨?_, (jl_ins_spec _ _).1, rfl⟩
    simp only [scan_entry, h1]
    simp [hN]
  · refine ⟨?_, (jl_ins_spec _ _).1, rfl⟩
    simp only [scan_entry, h2.1, h2.2]
    simp [hN]
  · intro mid hmid
    refine ⟨?_, (jl_ins_spec _ _).1, rfl⟩
    simp only [List.mem_cons, List.mem_singleton, List.not_mem_nil, or_false] at hmid
    rcases hmid with h | h | h <;> subst h
    · simp only [scan_entry, h3.1, h3.2.1, h3.2.2]
      simp [hN]
    · simp only [scan_entry, h4.1, h4.2.1, h4.2.2]
      simp [hN]
    · simp only [scan_entry, h5.1, h5.2.1, h5.2.2]
      simp [hN]
  · simp only [scan_entry, h6.1, h6.2.1, h6.2.2]
    simp
  · have e := dev_matchers "eth0".toList "2".toList (by decide) (by decide) (by decide)
    have e1 : dev_rx "eth0-rx-2".toList = some 3 := e.1
    simp only [scan_entry, e1]
    simp [queue_new]

/-- The amended C9 at the entry `eth2-TxRx-5`. -/
theorem C9_classification_amended_witness :
    (scan_entry dev_plain "eth2-TxRx-5".toList "/proc/irq/50".toList).map
        (fun r => (r.1.rx, r.1.tx, r.1.txrx, r.1.txrxq.map queue.n, r.2.map queue.n))
      = some (1, 1, 1, [5], some 5) :=
  (congrArg (Option.map fun r => (r.1.rx, r.1.tx, r.1.txrx, r.1.txrxq.map queue.n,
      r.2.map queue.n))
    (((C9_classification_amended dev_plain "eth2".toList "5".toList "/proc/irq/50".toList
      (by decide) (by decide) (by decide)).2.2.1 "-TxRx-".toList (by decide)).1)).trans
    (by decide)

/-- Splitting text without the delimiter in front of a delimiter. -/
theorem takeWhile_dropWhile_delim (delim : Char) (p r : List Char) (h : ∀ c ∈ p, c ≠ delim) :
    (p ++ delim :: r).takeWhile (fun x => x ≠ delim) = p ∧
      (p ++ delim :: r).dropWhile (fun x => x ≠ delim) = delim :: r := by
  induction p with
  | nil => simp [List.takeWhile_cons, List.dropWhile_cons]
  | cons c cs ih =>
    have hc := h c (List.mem_cons_self c cs)
    have ih1 := ih fun y hy => h y (List.mem_cons_of_mem c hy)
    simp only [List.cons_append, List.takeWhile_cons, List.dropWhile_cons, hc, ne_eq,
      not_false_eq_true, decide_True, if_true, ih1.1, ih1.2, and_self]

/-- Splitting text without the delimiter. -/
theorem takeWhile_dropWhile_free (delim : Char) (p : List Char) (h : ∀ c ∈ p, c ≠ delim) :
    p.takeWhile (fun x => x ≠ delim) = p ∧ p.dropWhile (fun x => x ≠ delim) = [] := by
  induction p with
  | nil => simp
  | cons c cs ih =>
    have hc := h c (List.mem_cons_self c cs)
    have ih1 := ih fun y hy => h y (List.mem_cons_of_mem c hy)
    simp only [List.takeWhile_cons, List.dropWhile_cons, hc, ne_eq, not_false_eq_true,
      decide_True, if_true, ih1.1, ih1.2, and_self]

/-- The loop of `jl_splitstr` on no text. -/
theorem jl_splitstr_loop_nil (delim : Char) (fuel : Nat) :
    jl_splitstr_loop delim fuel [] = [] := by
  cases fuel <;> simp [jl_splitstr_loop]

/-- The text joined from two or more pieces. -/
theorem intercalate_cons_cons (delim : Char) (p q : List Char) (rest : List (List Char)) :
    [delim].intercalate (p :: q :: rest) = p ++ delim :: [delim].intercalate (q :: rest) := by
  simp [List.intercalate, List.intersperse_cons_cons]

/-- Non-empty pieces free of the delimiter, joined with it, are what `jl_splitstr` returns. -/
theorem jl_splitstr_loop_intercalate (delim : Char) (pieces : List (List Char))
    (hp : ∀ p ∈ pieces, p ≠ [] ∧ ∀ c ∈ p, c ≠ delim) :
    ∀ fuel, ([delim].intercalate pieces).length ≤ fuel →
      jl_splitstr_loop delim fuel ([delim].intercalate pieces) = pieces := by
  induction pieces with
  | nil => intro fuel _; exact jl_splitstr_loop_nil delim fuel
  | cons p rest ih =>
    obtain ⟨hne, hfree⟩ := hp p (List.mem_cons_self p rest)
    have hrest := fun x hx => hp x (List.mem_cons_of_mem p hx)
    intro fuel hfuel
    cases rest with
    | nil =>
      have e : [delim].intercalate [p] = p := by simp [List.intercalate, List.intersperse]
      rw [e] at hfuel ⊢
      have hlen : 0 < p.length := List.length_pos.mpr hne
      obtain ⟨f, rfl⟩ : ∃ f, fuel = f + 1 := ⟨fuel - 1, by omega⟩
      have hs := takeWhile_dropWhile_free delim p hfree
      have hemp : p.isEmpty = false := by
        cases p with
        | nil => exact absurd rfl hne
        | cons _ _ => rfl
      simp only [jl_splitstr_loop, hemp, Bool.false_eq_true, if_false, hs.1, hs.2,
        List.tail_nil, jl_splitstr_loop_nil]
    | cons q rest =>
      rw [intercalate_cons_cons] at hfuel ⊢
      simp only [List.length_append, List.length_cons] at hfuel
      obtain ⟨f, rfl⟩ : ∃ f, fuel = f + 1 := ⟨fuel - 1, by omega⟩
      have hs := takeWhile_dropWhile_delim delim p ([delim].intercalate (q :: rest)) hfree
      have hemp : (p ++ delim :: [delim].intercalate (q :: rest)).isEmpty = false := by
        cases p <;> rfl
      simp only [jl_splitstr_loop, hemp, Bool.false_eq_true, if_false, hs.1, hs.2,
        List.tail_cons]
      rw [ih hrest f (by omega)]

/-- The function `jl_splitstr` undoes the joining of non-empty delimiter-free pieces. -/
theorem jl_splitstr_intercalate (delim : Char) (pieces : List (List Char))
    (hp : ∀ p ∈ pieces, p ≠ [] ∧ ∀ c ∈ p, c ≠ delim) :
    jl_splitstr ([delim].intercalate pieces) delim = pieces :=
  jl_splitstr_loop_intercalate delim pieces hp _ (Nat.le_refl _)

/-- The loop `for(i=first;i<=last;i++) cpunode->cpu[i] = 1;` inside the vector: the node
keeps its number, and a CPU is marked afterwards exactly when it was marked before or lies
in `{first, ..., last}`. -/
theorem mark_cpus_spec (node : cpunode) (first last : Nat) (hlen : node.cpu.length = MAXCPU)
    (hle : first ≤ last) (hlast : last < 64) :
    ∃ node1, mark_cpus node first last = some node1 ∧ node1.n = node.n ∧
      node1.cpu.length = MAXCPU ∧
      ∀ i, node1.at i ≠ 0 ↔ (node.at i ≠ 0 ∨ (first ≤ i ∧ i ≤ last)) := by
  refine ⟨cpunode.mk node.n (List.foldl (fun cpu i => cpu.set i 1) node.cpu
    (List.range' first (last + 1 - first))), ?_, rfl, ?_, ?_⟩
  · unfold mark_cpus
    rw [if_neg (by omega), if_neg (by simp only [MAXCPU]; omega)]
    have e1 : ((first : Int)).toNat = first := by omega
    have e2 : ((last : Int) - (first : Int) + 1).toNat = last + 1 - first := by omega
    rw [e1, e2]
  · simp [foldl_set_length, hlen]
  · intro i
    simp only [cpunode.at]
    rw [foldl_set_getD, hlen]
    by_cases h : first ≤ i ∧ i ≤ last
    · rw [if_pos (by simp only [MAXCPU]; omega)]
      simp [h]
    · rw [if_neg (by omega)]
      simp [h]

/-- The body of the interval loop on the text of a term. -/
theorem mark_interval_term (node : cpunode) (t : cpu_term) (ht : term_ok t)
    (hlen : node.cpu.length = MAXCPU) :
    ∃ node1, mark_interval node (term_text t) = some node1 ∧ node1.n = node.n ∧
      node1.cpu.length = MAXCPU ∧
      ∀ i, node1.at i ≠ 0 ↔ (node.at i ≠ 0 ∨ term_covers t i) := by
  obtain ⟨lo, hi?⟩ := t
  obtain ⟨hlo, hlo64, hhi⟩ := ht
  have hfree : ∀ s, is_decimal s → s ≠ [] ∧ ∀ c ∈ s, c ≠ '-' :=
    fun s hs => ⟨hs.1, fun c hc => (is_digit_char c (hs.2 c hc)).2.1⟩
  have hatoi : ∀ s, is_decimal s → dec_value s < 64 → atoi s = some (dec_value s : Int) := by
    intro s hs h64
    have := atoi_decimal s [] hs (by simp) (by omega)
    simpa using this
  cases hi? with
  | none =>
    have hsplit : jl_splitstr lo '-' = [lo] := by
      have := jl_splitstr_intercalate '-' [lo] (by simpa using hfree lo hlo)
      simpa [List.intercalate, List.intersperse] using this
    obtain ⟨node1, h1, h2, h3, h4⟩ :=
      mark_cpus_spec node (dec_value lo) (dec_value lo) hlen (Nat.le_refl _) hlo64
    refine ⟨node1, ?_, h2, h3, ?_⟩
    · simp only [mark_interval, term_text, hsplit, hatoi lo hlo hlo64, h1]
    · intro i
      rw [h4 i]
      simp only [term_covers]
      constructor
      · rintro (h | h)
        · exact Or.inl h
        · exact Or.inr (by omega)
      · rintro (h | h)
        · exact Or.inl h
        · exact Or.inr (by omega)
  | some hi =>
    obtain ⟨hhid, hle, hhi64⟩ := hhi
    have hsplit : jl_splitstr (lo ++ '-' :: hi) '-' = [lo, hi] := by
      have := jl_splitstr_intercalate '-' [lo, hi] (by
        intro p hp
        simp only [List.mem_cons, List.mem_singleton, List.not_mem_nil, or_false] at hp
        rcases hp with h | h <;> subst h
        · exact hfree _ hlo
        · exact hfree _ hhid)
      rw [intercalate_cons_cons] at this
      simpa [List.intercalate, List.intersperse] using this
    obtain ⟨node1, h1, h2, h3, h4⟩ :=
      mark_cpus_spec node (dec_value lo) (dec_value hi) hlen hle hhi64
    refine ⟨node1, ?_, h2, h3, ?_⟩
    · simp only [mark_interval, term_text, hsplit, hatoi lo hlo hlo64, hatoi hi hhid hhi64, h1]
    · intro i
      rw [h4 i]
      simp only [term_covers]

/-- The interval loop over the texts of a list of terms. -/
theorem mark_intervals_terms (terms : List cpu_term) :
    ∀ node : cpunode, node.cpu.length = MAXCPU → (∀ t ∈ terms, term_ok t) →
    ∃ node1, (terms.map term_text).foldlM mark_interval node = some node1 ∧
      node1.n = node.n ∧ node1.cpu.length = MAXCPU ∧
      ∀ i, node1.at i ≠ 0 ↔ (node.at i ≠ 0 ∨ ∃ t ∈ terms, term_covers t i) := by
  induction terms with
  | nil =>
    intro node hlen _
    exact ⟨node, rfl, rfl, hlen, fun i => by simp⟩
  | cons t rest ih =>
    intro node hlen hok
    obtain ⟨n1, h1, h2, h3, h4⟩ :=
      mark_interval_term node t (hok t (List.mem_cons_self t rest)) hlen
    obtain ⟨n2, g1, g2, g3, g4⟩ := ih n1 h3 fun x hx => hok x (List.mem_cons_of_mem t hx)
    refine ⟨n2, ?_, g2.trans h2, g3, ?_⟩
    · simp only [List.map_cons, List.foldlM_cons, h1, Option.bind_eq_bind, Option.some_bind]
      exact g1
    · intro i
      rw [g4 i, h4 i]
      simp only [List.mem_cons, exists_eq_or_imp]
      tauto

/-- A character of joined text is the delimiter or comes from a piece. -/
theorem mem_intercalate (delim : Char) (pieces : List (List Char)) :
    ∀ c ∈ [delim].intercalate pieces, c = delim ∨ ∃ p ∈ pieces, c ∈ p := by
  induction pieces with
  | nil => intro c hc; simp [List.intercalate] at hc
  | cons p rest ih =>
    cases rest with
    | nil =>
      intro c hc
      have e : [delim].intercalate [p] = p := by simp [List.intercalate, List.intersperse]
      rw [e] at hc
      exact Or.inr ⟨p, List.mem_cons_self p [], hc⟩
    | cons q rest =>
      intro c hc
      rw [intercalate_cons_cons] at hc
      rcases List.mem_append.mp hc with h | h
      · exact Or.inr ⟨p, List.mem_cons_self p _, h⟩
      · rcases List.mem_cons.mp h with h | h
        · exact Or.inl h
        · rcases ih c h with h1 | ⟨x, hx, hcx⟩
          · exact Or.inl h1
          · exact Or.inr ⟨x, List.mem_cons_of_mem p hx, hcx⟩

/-- The text of a term is not empty and holds neither a comma nor a zero byte. -/
theorem term_text_chars (t : cpu_term) (ht : term_ok t) :
    term_text t ≠ [] ∧ ∀ c ∈ term_text t, c ≠ ',' ∧ c.toNat ≠ 0 := by
  obtain ⟨lo, hi?⟩ := t
  obtain ⟨hlo, _, hhi⟩ := ht
  have hd : ∀ s, is_decimal s → ∀ c ∈ s, c ≠ ',' ∧ c.toNat ≠ 0 := fun s hs c hc =>
    ⟨(is_digit_char c (hs.2 c hc)).2.2.2.1, (is_digit_char c (hs.2 c hc)).2.2.2.2⟩
  cases hi? with
  | none => exact ⟨hlo.1, hd lo hlo⟩
  | some hi =>
    obtain ⟨hhid, _, _⟩ := hhi
    refine ⟨by simp [term_text], ?_⟩
    intro c hc
    simp only [term_text] at hc
    rcases List.mem_append.mp hc with h | h
    · exact hd lo hlo c h
    · rcases List.mem_cons.mp h with h | h
      · subst h; exact ⟨by decide, by decide⟩
      · exact hd hi hhid c h

/-- C7 as stated fails: the text `0,2,4,...,62` (the even CPUs of a 64-CPU machine, 90
bytes) is a comma-separated list of bare numbers below 64, but `cpu_nodemap` reads 64
bytes of it into `char buf[64]` and stores the terminating zero at `buf[64]`, outside
the buffer: no set of marked CPUs is defined, and the terms behind byte 64 are never
read. -/
theorem C7_parse_cpulist_counterexample :
    (∀ t ∈ even_cpus, term_ok t) ∧
      (cpulist_text even_cpus).length = 90 ∧
      cpulist_text even_cpus = ("0,2,4,6,8,10,12,14,16,18,20,22,24,26,28,30,32,34,36,38,40," ++
        "42,44,46,48,50,52,54,56,58,60,62").toList ∧
      parse_cpulist (cpulist_text even_cpus) { n := 0, cpu := List.replicate MAXCPU 0 }
        = none := by
  refine ⟨by decide, by decide, by decide, by decide⟩

/-- C7, amended: for a text of at most 63 bytes that is a comma-separated list of terms,
each a bare number `k` or a range `low-high` with `low ≤ high`, all indices below 64, the
parsing loop of `cpu_nodemap` marks in a fresh node exactly the CPUs covered by some
term; in particular `0-3,8-11` yields `{0,1,2,3,8,9,10,11}`. -/
theorem C7_parse_cpulist_amended (terms : List cpu_term) (n : Int)
    (hok : ∀ t ∈ terms, term_ok t) (hlen : (cpulist_text terms).length ≤ 63) :
    (∃ node1, parse_cpulist (cpulist_text terms) { n := n, cpu := List.replicate MAXCPU 0 }
          = some node1 ∧
        node1.n = n ∧ ∀ i, node1.at i ≠ 0 ↔ ∃ t ∈ terms, term_covers t i) ∧
      (parse_cpulist "0-3,8-11".toList { n := 0, cpu := List.replicate MAXCPU 0 }).map marked
        = some [0, 1, 2, 3, 8, 9, 10, 11] := by
  refine ⟨?_, by decide⟩
  have hzero : ∀ i, ¬ ((cpunode.mk n (List.replicate MAXCPU 0)).at i ≠ 0) := by
    intro i
    simp [cpunode.at, replicate_zero_getD]
  obtain ⟨node1, h1, h2, _, h4⟩ := mark_intervals_terms terms
    { n := n, cpu := List.replicate MAXCPU 0 } (by simp) hok
  refine ⟨node1, ?_, h2, fun i => by rw [h4 i]; simp [hzero i]⟩
  cases hterms : terms with
  | nil =>
    subst hterms
    simp only [List.map_nil, List.foldlM_nil] at h1
    rw [← Option.some.inj h1]
    rfl
  | cons t rest =>
    rw [← hterms]
    have hpieces : ∀ p ∈ terms.map term_text, p ≠ [] ∧ ∀ c ∈ p, c ≠ ',' := by
      intro p hp
      obtain ⟨x, hx, rfl⟩ := List.mem_map.mp hp
      exact ⟨(term_text_chars x (hok x hx)).1, fun c hc => ((term_text_chars x (hok x hx)).2 c hc).1⟩
    have hnz : ∀ c ∈ cpulist_text terms, c.toNat ≠ 0 := by
      intro c hc
      rcases mem_intercalate ',' _ c hc with h | ⟨p, hp, hcp⟩
      · subst h; decide
      · obtain ⟨x, hx, rfl⟩ := List.mem_map.mp hp
        exact ((term_text_chars x (hok x hx)).2 c hcp).2
    have hpos : 0 < (cpulist_text terms).length := by
      have hne := (term_text_chars t (hok t (by rw [hterms]; exact List.mem_cons_self t rest))).1
      have hl : 0 < (term_text t).length := List.length_pos.mpr hne
      rw [hterms]
      cases rest with
      | nil =>
        have e : cpulist_text [t] = term_text t := by
          simp [cpulist_text, List.intercalate, List.intersperse]
        rw [e]; exact hl
      | cons u rest =>
        simp only [cpulist_text, List.map_cons, intercalate_cons_cons, List.length_append,
          List.length_cons]
        omega
    have hmin : min (cpulist_text terms).length 64 = (cpulist_text terms).length := by omega
    have htake : (cpulist_text terms).take (cpulist_text terms).length = cpulist_text terms :=
      List.take_length _
    have hsplit : jl_splitstr (cpulist_text terms) ',' = terms.map term_text :=
      jl_splitstr_intercalate ',' _ hpieces
    unfold parse_cpulist
    simp only [hmin]
    rw [if_neg (by omega), if_neg (by omega), htake, cstr_eq_self _ hnz, hsplit]
    exact h1

/-- The amended C7 at the text `0-3,8-11`. -/
theorem C7_parse_cpulist_amended_witness :
    ∃ node1, parse_cpulist "0-3,8-11".toList { n := 1, cpu := List.replicate MAXCPU 0 }
          = some node1 ∧
        node1.n = 1 ∧
        ∀ i, node1.at i ≠ 0 ↔
          ∃ t ∈ [("0".toList, some "3".toList), ("8".toList, some "11".toList)],
            term_covers t i :=
  (C7_parse_cpulist_amended [("0".toList, some "3".toList), ("8".toList, some "11".toList)] 1
    (by decide) (by decide)).1


/-- The printed lines of effects put one behind the other. -/
theorem outs_append (t u : List event) : outs (t ++ u) = outs t ++ outs u := by
  simp [outs, List.filterMap_append]

/-- No effects, no printed lines. -/
theorem outs_nil : outs [] = [] := rfl

/-- How `outs` goes through a sequence of effects. -/
theorem outs_cons (e : event) (t : List event) :
    outs (e :: t) = (match e with
      | event.out line => [line]
      | _ => []) ++ outs t := by
  cases e <;> rfl

/-- The file accesses of effects put one behind the other. -/
theorem touched_append (t u : List event) : touched (t ++ u) = touched t ++ touched u := by
  simp [touched, List.filter_append]

/-- The report and write of one interrupt under a clear and under a set dry-run flag,
when the file can be opened and written: both fall through and print the same. -/
theorem aff_irq_io_dry_wet (c : conf_t) (k : Int) (hk : k ≠ 0) (hc : c.dryrun = 0) (fs : fsys)
    (hopen : ∀ p, fs.can_open p = true)
    (hwrite : ∀ p data, fs.write_ret p data = (data.length : Int))
    (cpu : Int) (buf name : List Char) (node : Int) (fn : List Char) (tw td : List event)
    (ht : outs tw = outs td) :
    (aff_irq_io c fs cpu buf name node fn tw).1 = true ∧
      (aff_irq_io { c with dryrun := k } fs cpu buf name node fn td).1 = true ∧
      outs (aff_irq_io c fs cpu buf name node fn tw).2
        = outs (aff_irq_io { c with dryrun := k } fs cpu buf name node fn td).2 := by
  simp only [aff_irq_io, hc, hk, if_true, if_false, write_file, hopen, hwrite, decide_True]
  by_cases hq : c.quiet = 0
  · simp [hq, outs_append, ht, outs_cons, outs_nil]
  · simp [hq, outs_append, ht, outs_cons, outs_nil]

/-- Two optional loop results with the same view, taken apart. -/
theorem loop_view_cases (a b : Option (Int × List queue × mq_state))
    (h : a.map loop_view = b.map loop_view) :
    (a = none ∧ b = none) ∨
      ∃ rc qs sa sb, a = some (rc, qs, sa) ∧ b = some (rc, qs, sb) ∧
        sa.cur_mq_cpu = sb.cur_mq_cpu ∧ sa.rps_cpu = sb.rps_cpu ∧ sa.buf = sb.buf ∧
        outs sa.trace = outs sb.trace := by
  cases a with
  | none =>
    cases b with
    | none => exact Or.inl ⟨rfl, rfl⟩
    | some y => simp at h
  | some x =>
    cases b with
    | none => simp at h
    | some y =>
      obtain ⟨rc, qs, sa⟩ := x
      obtain ⟨rc2, qs2, sb⟩ := y
      simp only [Option.map_some', Option.some.injEq, loop_view, Prod.mk.injEq] at h
      obtain ⟨h1, h2, h3, h4, h5, h6⟩ := h
      subst h1 h2
      exact Or.inr ⟨rc, qs, sa, sb, rfl, rfl, h3, h4, h5, h6⟩

/-- Putting a queue in front of the queues of two loop results with the same view. -/
theorem loop_view_bind_cons (q1 : queue) (a b : Option (Int × List queue × mq_state))
    (h : a.map loop_view = b.map loop_view) :
    (a.bind fun x => some (x.1, q1 :: x.2.1, x.2.2)).map loop_view
      = (b.bind fun x => some (x.1, q1 :: x.2.1, x.2.2)).map loop_view := by
  rcases loop_view_cases a b h with ⟨e1, e2⟩ | ⟨rc, qs1, sa, sb, e1, e2, g1, g2, g3, g4⟩
  · simp [e1, e2]
  · simp [e1, e2, loop_view, g1, g2, g3, g4]

/-- The receive-queue loop under a clear and under a set dry-run flag, when every file can
be opened and written. -/
theorem aff_rx_loop_dry_wet (c : conf_t) (k : Int) (hk : k ≠ 0) (hc : c.dryrun = 0) (fs : fsys)
    (hopen : ∀ p, fs.can_open p = true)
    (hwrite : ∀ p data, fs.write_ret p data = (data.length : Int))
    (d : dev) (nr off : Int) :
    ∀ (qs : List queue) (i cur rps : Int) (b : Option (List Char)) (tw td : List event),
      outs tw = outs td →
      (aff_rx_loop c fs d nr off qs i ⟨cur, rps, b, tw⟩).map loop_view
        = (aff_rx_loop { c with dryrun := k } fs d nr off qs i ⟨cur, rps, b, td⟩).map
            loop_view := by
  intro qs
  induction qs with
  | nil =>
    intro i cur rps b tw td ht
    simp [aff_rx_loop, loop_view, ht]
  | cons q rest ih =>
    intro i cur rps b tw td ht
    have step : ∀ r buf,
        Option.map loop_view
          (if (!(aff_irq_io c fs (r + off) buf q.name d.numa_node
              (snprintf 256 (q.fn ++ "/smp_affinity".toList)) tw).1) = true then
            some (-1, { q with assigned_cpu := r + off } :: rest,
              (⟨if d.rr_multi ≠ 0 then cur + 1 else cur, r + off, some buf,
                (aff_irq_io c fs (r + off) buf q.name d.numa_node
                  (snprintf 256 (q.fn ++ "/smp_affinity".toList)) tw).2⟩ : mq_state))
          else
            (aff_rx_loop c fs d nr off rest (i + 1)
              ⟨if d.rr_multi ≠ 0 then cur + 1 else cur, r + off, some buf,
                (aff_irq_io c fs (r + off) buf q.name d.numa_node
                  (snprintf 256 (q.fn ++ "/smp_affinity".toList)) tw).2⟩).bind
              fun x => some (x.1, { q with assigned_cpu := r + off } :: x.2.1, x.2.2))
        = Option.map loop_view
          (if (!(aff_irq_io { c with dryrun := k } fs (r + off) buf q.name d.numa_node
              (snprintf 256 (q.fn ++ "/smp_affinity".toList)) td).1) = true then
            some (-1, { q with assigned_cpu := r + off } :: rest,
              (⟨if d.rr_multi ≠ 0 then cur + 1 else cur, r + off, some buf,
                (aff_irq_io { c with dryrun := k } fs (r + off) buf q.name d.numa_node
                  (snprintf 256 (q.fn ++ "/smp_affinity".toList)) td).2⟩ : mq_state))
          else
            (aff_rx_loop { c with dryrun := k } fs d nr off rest (i + 1)
              ⟨if d.rr_multi ≠ 0 then cur + 1 else cur, r + off, some buf,
                (aff_irq_io { c with dryrun := k } fs (r + off) buf q.name d.numa_node
                  (snprintf 256 (q.fn ++ "/smp_affinity".toList)) td).2⟩).bind
              fun x => some (x.1, { q with assigned_cpu := r + off } :: x.2.1, x.2.2)) := by
      intro r buf
      obtain ⟨h1, h2, h3⟩ := aff_irq_io_dry_wet c k hk hc fs hopen hwrite (r + off) buf
        q.name d.numa_node (snprintf 256 (q.fn ++ "/smp_affinity".toList)) tw td ht
      rw [h1, h2]
      simp only [Bool.not_true, Bool.false_eq_true, if_false]
      exact loop_view_bind_cons _ _ _ (ih _ _ _ _ _ _ h3)
    simp only [aff_rx_loop]
    by_cases hm : d.rr_multi ≠ 0
    · simp only [if_pos hm]
      cases hr : c_mod cur nr with
      | none => simp
      | some r =>
        simp only [Option.bind_eq_bind, Option.some_bind]
        cases hb : cpu_mask (r + off) with
        | none => simp
        | some buf => simpa [hm] using step r buf
    · simp only [if_neg hm]
      cases hr : c_mod i nr with
      | none => simp
      | some r =>
        simp only [Option.bind_eq_bind, Option.some_bind]
        cases hb : cpu_mask (r + off) with
        | none => simp
        | some buf => simpa [hm] using step r buf

/-- The transmit-queue loop under a clear and under a set dry-run flag, when every file
can be opened and written. -/
theorem aff_tx_loop_dry_wet (c : conf_t) (k : Int) (hk : k ≠ 0) (hc : c.dryrun = 0) (fs : fsys)
    (hopen : ∀ p, fs.can_open p = true)
    (hwrite : ∀ p data, fs.write_ret p data = (data.length : Int))
    (d : dev) (nr off : Int) :
    ∀ (qs : List queue) (i cur rps : Int) (b : Option (List Char)) (tw td : List event),
      outs tw = outs td →
      (aff_tx_loop c fs d nr off qs i ⟨cur, rps, b, tw⟩).map loop_view
        = (aff_tx_loop { c with dryrun := k } fs d nr off qs i ⟨cur, rps, b, td⟩).map
            loop_view := by
  intro qs
  induction qs with
  | nil =>
    intro i cur rps b tw td ht
    simp [aff_tx_loop, loop_view, ht]
  | cons q rest ih =>
    intro i cur rps b tw td ht
    have step : ∀ cpu buf,
        Option.map loop_view
          (if (!(aff_irq_io c fs cpu buf q.name d.numa_node
              (snprintf 256 (q.fn ++ "/smp_affinity".toList)) tw).1) = true then
            some (-1, q :: rest,
              (⟨cur, rps, some buf,
                (aff_irq_io c fs cpu buf q.name d.numa_node
                  (snprintf 256 (q.fn ++ "/smp_affinity".toList)) tw).2⟩ : mq_state))
          else
            (aff_tx_loop c fs d nr off rest (i + 1)
              ⟨cur, rps, some buf,
                (aff_irq_io c fs cpu buf q.name d.numa_node
                  (snprintf 256 (q.fn ++ "/smp_affinity".toList)) tw).2⟩).bind
              fun x => some (x.1, q :: x.2.1, x.2.2))
        = Option.map loop_view
          (if (!(aff_irq_io { c with dryrun := k } fs cpu buf q.name d.numa_node
              (snprintf 256 (q.fn ++ "/smp_affinity".toList)) td).1) = true then
            some (-1, q :: rest,
              (⟨cur, rps, some buf,
                (aff_irq_io { c with dryrun := k } fs cpu buf q.name d.numa_node
                  (snprintf 256 (q.fn ++ "/smp_affinity".toList)) td).2⟩ : mq_state))
          else
            (aff_tx_loop { c with dryrun := k } fs d nr off rest (i + 1)
              ⟨cur, rps, some buf,
                (aff_irq_io { c with dryrun := k } fs cpu buf q.name d.numa_node
                  (snprintf 256 (q.fn ++ "/smp_affinity".toList)) td).2⟩).bind
              fun x => some (x.1, q :: x.2.1, x.2.2)) := by
      intro cpu buf
      obtain ⟨h1, h2, h3⟩ := aff_irq_io_dry_wet c k hk hc fs hopen hwrite cpu buf
        q.name d.numa_node (snprintf 256 (q.fn ++ "/smp_affinity".toList)) tw td ht
      rw [h1, h2]
      simp only [Bool.not_true, Bool.false_eq_true, if_false]
      exact loop_view_bind_cons _ _ _ (ih _ _ _ _ _ _ h3)
    simp only [aff_tx_loop]
    cases hr : c_mod i nr with
    | none => simp
    | some r =>
      simp only [Option.bind_eq_bind, Option.some_bind]
      cases hb : cpu_mask (if d.tx = 1 ∧ d.rx = 1 then rps else r + off) with
      | none => simp
      | some buf => simpa using step (if d.tx = 1 ∧ d.rx = 1 then rps else r + off) buf

/-- The combined-queue loop under a clear and under a set dry-run flag, when every file
can be opened and written. -/
theorem aff_txrx_loop_dry_wet (c : conf_t) (k : Int) (hk : k ≠ 0) (hc : c.dryrun = 0)
    (fs : fsys) (hopen : ∀ p, fs.can_open p = true)
    (hwrite : ∀ p data, fs.write_ret p data = (data.length : Int))
    (d : dev) (nr off : Int) :
    ∀ (qs : List queue) (i cur rps : Int) (b : Option (List Char)) (tw td : List event),
      outs tw = outs td →
      (aff_txrx_loop c fs d nr off qs i ⟨cur, rps, b, tw⟩).map loop_view
        = (aff_txrx_loop { c with dryrun := k } fs d nr off qs i ⟨cur, rps, b, td⟩).map
            loop_view := by
  intro qs
  induction qs with
  | nil =>
    intro i cur rps b tw td ht
    simp [aff_txrx_loop, loop_view, ht]
  | cons q rest ih =>
    intro i cur rps b tw td ht
    have step : ∀ r buf,
        Option.map loop_view
          (if (!(aff_irq_io c fs (r + off) buf q.name d.numa_node
              (snprintf 256 (q.fn ++ "/smp_affinity".toList)) tw).1) = true then
            some (-1, { q with assigned_cpu := r + off } :: rest,
              (⟨cur, r + off, some buf,
                (aff_irq_io c fs (r + off) buf q.name d.numa_node
                  (snprintf 256 (q.fn ++ "/smp_affinity".toList)) tw).2⟩ : mq_state))
          else
            (aff_txrx_loop c fs d nr off rest (i + 1)
              ⟨cur, r + off, some buf,
                (aff_irq_io c fs (r + off) buf q.name d.numa_node
                  (snprintf 256 (q.fn ++ "/smp_affinity".toList)) tw).2⟩).bind
              fun x => some (x.1, { q with assigned_cpu := r + off } :: x.2.1, x.2.2))
        = Option.map loop_view
          (if (!(aff_irq_io { c with dryrun := k } fs (r + off) buf q.name d.numa_node
              (snprintf 256 (q.fn ++ "/smp_affinity".toList)) td).1) = true then
            some (-1, { q with assigned_cpu := r + off } :: rest,
              (⟨cur, r + off, some buf,
                (aff_irq_io { c with dryrun := k } fs (r + off) buf q.name d.numa_node
                  (snprintf 256 (q.fn ++ "/smp_affinity".toList)) td).2⟩ : mq_state))
          else
            (aff_txrx_loop { c with dryrun := k } fs d nr off rest (i + 1)
              ⟨cur, r + off, some buf,
                (aff_irq_io { c with dryrun := k } fs (r + off) buf q.name d.numa_node
                  (snprintf 256 (q.fn ++ "/smp_affinity".toList)) td).2⟩).bind
              fun x => some (x.1, { q with assigned_cpu := r + off } :: x.2.1, x.2.2)) := by
      intro r buf
      obtain ⟨h1, h2, h3⟩ := aff_irq_io_dry_wet c k hk hc fs hopen hwrite (r + off) buf
        q.name d.numa_node (snprintf 256 (q.fn ++ "/smp_affinity".toList)) tw td ht
      rw [h1, h2]
      simp only [Bool.not_true, Bool.false_eq_true, if_false]
      exact loop_view_bind_cons _ _ _ (ih _ _ _ _ _ _ h3)
    simp only [aff_txrx_loop]
    cases hr : c_mod i nr with
    | none => simp
    | some r =>
      simp only [Option.bind_eq_bind, Option.some_bind]
      cases hb : cpu_mask (r + off) with
      | none => simp
      | some buf => simpa using step r buf

/-- The packet-steering loop under a clear and under a set dry-run flag, when every file
can be opened and written: the same return code and the same printed lines. -/
theorem aff_rps_loop_dry_wet (c : conf_t) (k : Int) (hk : k ≠ 0) (hc : c.dryrun = 0) (fs : fsys)
    (hopen : ∀ p, fs.can_open p = true)
    (hwrite : ∀ p data, fs.write_ret p data = (data.length : Int))
    (pick : queue → List Char) (node : Int) (buf : List Char) :
    ∀ (qs : List queue) (tw td : List event), outs tw = outs td →
      (aff_rps_loop c fs pick node buf qs tw).1
          = (aff_rps_loop { c with dryrun := k } fs pick node buf qs td).1 ∧
        outs (aff_rps_loop c fs pick node buf qs tw).2
          = outs (aff_rps_loop { c with dryrun := k } fs pick node buf qs td).2 := by
  intro qs
  induction qs with
  | nil => intro tw td ht; exact ⟨rfl, ht⟩
  | cons q rest ih =>
    intro tw td ht
    simp only [aff_rps_loop, hc, hk, if_true, if_false, write_file, hopen, hwrite, decide_True]
    apply ih
    by_cases hq : c.quiet = 0
    · simp [hq, outs_append, ht, outs_cons, outs_nil]
    · simp [hq, outs_append, ht, outs_cons, outs_nil]

/-- The mask of the steering files does not depend on the dry-run flag. -/
theorem steer_buf_dryrun (c : conf_t) (k : Int) (v : var_t) (b : Option (List Char))
    (cpu : Int) : steer_buf { c with dryrun := k } v b cpu = steer_buf c v b cpu := rfl

/-- The function `aff_multiq` under a set and under a clear dry-run flag, when every file
can be opened and written: the same return code, `assigned_cpu` values, cursors and
reports. -/
theorem aff_multiq_dry_wet (c : conf_t) (k : Int) (hk : k ≠ 0) (hc : c.dryrun = 0) (fs : fsys)
    (hopen : ∀ p, fs.can_open p = true)
    (hwrite : ∀ p data, fs.write_ret p data = (data.length : Int))
    (d : dev) (v : var_t) (t : List event) :
    (aff_multiq { c with dryrun := k } fs d v t).map run_view
      = (aff_multiq c fs d v t).map run_view := by
  unfold aff_multiq
  dsimp only
  generalize (if c.reserve_mq = 0 ∧ d.rx + d.txrx > 1 then v.nr_cpu else v.nr_use_cpu) = nr
  generalize (if c.reserve_mq = 0 ∧ d.rx + d.txrx > 1 then 0 else v.cpu_offset) = off
  have h1 := aff_rx_loop_dry_wet c k hk hc fs hopen hwrite d nr off d.rxq (nr - off)
    v.cur_mq_cpu (-1) none t t rfl
  rcases loop_view_cases _ _ h1 with ⟨e1, e2⟩ | ⟨rc1, qs1, sa, sb, e1, e2, g1, g2, g3, g4⟩
  · rw [e1, e2]
    rfl
  · rw [e1, e2]
    obtain ⟨cur1, rps1, b1, ta1⟩ := sa
    obtain ⟨cur1b, rps1b, b1b, tb1⟩ := sb
    simp only at g1 g2 g3 g4
    subst g1 g2 g3
    by_cases hrc1 : rc1 = 0
    swap
    · simp [hrc1, run_view, g4]
    · subst hrc1
      have h2 := aff_tx_loop_dry_wet c k hk hc fs hopen hwrite d nr off d.txq (nr - off)
        cur1 rps1 b1 ta1 tb1 g4
      rcases loop_view_cases _ _ h2 with ⟨e3, e4⟩ | ⟨rc2, qs2, sa, sb, e3, e4, g1, g2, g3, g5⟩
      · simp [e3, e4]
      · obtain ⟨cur2, rps2, b2, ta2⟩ := sa
        obtain ⟨cur2b, rps2b, b2b, tb2⟩ := sb
        simp only at g1 g2 g3 g5
        subst g1 g2 g3
        by_cases hrc2 : rc2 = 0
        swap
        · simp [e3, e4, hrc2, run_view, g5]
        · subst hrc2
          have h3 := aff_txrx_loop_dry_wet c k hk hc fs hopen hwrite d nr off d.txrxq (nr - off)
            cur2 rps2 b2 ta2 tb2 g5
          rcases loop_view_cases _ _ h3 with ⟨e5, e6⟩ | ⟨rc3, qs3, sa, sb, e5, e6, g1, g2, g3, g6⟩
          · simp [e3, e4, e5, e6]
          · obtain ⟨cur3, rps3, b3, ta3⟩ := sa
            obtain ⟨cur3b, rps3b, b3b, tb3⟩ := sb
            simp only at g1 g2 g3 g6
            subst g1 g2 g3
            by_cases hrc3 : rc3 = 0
            swap
            · simp [e3, e4, e5, e6, hrc3, run_view, g6]
            · subst hrc3
              by_cases hu : d.use_rps = 0
              · simp [e3, e4, e5, e6, hu, run_view, g6]
              · simp only [ne_eq, not_true_eq_false, if_false, e3, e4, e5, e6, hu,
                  not_false_eq_true, if_true, steer_buf_dryrun, Option.bind_eq_bind,
                  Option.some_bind, Option.pure_def]
                cases hs : steer_buf c v b3 rps3 with
                | none => simp
                | some bb =>
                  cases hq : d.rpsq with
                  | nil => simp [run_view, g6]
                  | cons q0 rest0 =>
                    cases bb with
                    | none => simp
                    | some buf =>
                      have h4 := aff_rps_loop_dry_wet c k hk hc fs hopen hwrite
                        (fun q => q.name) d.numa_node buf (q0 :: rest0) ta3 tb3 g6
                      simp [run_view, h4.1, h4.2]

/-- The function `aff_singleq` under a set and under a clear dry-run flag, when every file
can be opened and written: the same return code, `assigned_cpu`, cursor and reports. -/
theorem aff_singleq_dry_wet (c : conf_t) (k : Int) (hk : k ≠ 0) (hc : c.dryrun = 0) (fs : fsys)
    (hopen : ∀ p, fs.can_open p = true)
    (hwrite : ∀ p data, fs.write_ret p data = (data.length : Int))
    (d : dev) (v : var_t) (t : List event) :
    (aff_singleq { c with dryrun := k } fs d v t).map run_view
      = (aff_singleq c fs d v t).map run_view := by
  unfold aff_singleq
  dsimp only
  generalize (snprintf 256 (d.fn ++ "/smp_affinity".toList)) = fnm
  have tail : ∀ cpu buf (v1 : var_t),
      Option.map run_view
        (if (!(aff_irq_io { c with dryrun := k } fs cpu buf d.name d.numa_node fnm t).1) = true
          then some (-1, { d with assigned_cpu := cpu }, v1,
            (aff_irq_io { c with dryrun := k } fs cpu buf d.name d.numa_node fnm t).2)
        else
          (steer_buf { c with dryrun := k } v (some buf) cpu).bind fun b =>
            if d.use_rps ≠ 0 then
              some ((aff_rps_loop { c with dryrun := k } fs (fun _ => d.name) d.numa_node
                  (b.getD []) d.rpsq
                  (aff_irq_io { c with dryrun := k } fs cpu buf d.name d.numa_node fnm t).2).1,
                { d with assigned_cpu := cpu }, v1,
                (aff_rps_loop { c with dryrun := k } fs (fun _ => d.name) d.numa_node
                  (b.getD []) d.rpsq
                  (aff_irq_io { c with dryrun := k } fs cpu buf d.name d.numa_node fnm t).2).2)
            else
              some (0, { d with assigned_cpu := cpu }, v1,
                (aff_irq_io { c with dryrun := k } fs cpu buf d.name d.numa_node fnm t).2))
      = Option.map run_view
        (if (!(aff_irq_io c fs cpu buf d.name d.numa_node fnm t).1) = true
          then some (-1, { d with assigned_cpu := cpu }, v1,
            (aff_irq_io c fs cpu buf d.name d.numa_node fnm t).2)
        else
          (steer_buf c v (some buf) cpu).bind fun b =>
            if d.use_rps ≠ 0 then
              some ((aff_rps_loop c fs (fun _ => d.name) d.numa_node (b.getD []) d.rpsq
                  (aff_irq_io c fs cpu buf d.name d.numa_node fnm t).2).1,
                { d with assigned_cpu := cpu }, v1,
                (aff_rps_loop c fs (fun _ => d.name) d.numa_node (b.getD []) d.rpsq
                  (aff_irq_io c fs cpu buf d.name d.numa_node fnm t).2).2)
            else
              some (0, { d with assigned_cpu := cpu }, v1,
                (aff_irq_io c fs cpu buf d.name d.numa_node fnm t).2)) := by
    intro cpu buf v1
    obtain ⟨h1, h2, h3⟩ := aff_irq_io_dry_wet c k hk hc fs hopen hwrite cpu buf
      d.name d.numa_node fnm t t rfl
    rw [h1, h2, steer_buf_dryrun c k v (some buf) cpu]
    simp only [Bool.not_true, Bool.false_eq_true, if_false]
    cases hs : steer_buf c v (some buf) cpu with
    | none => rfl
    | some b =>
      have h4 := aff_rps_loop_dry_wet c k hk hc fs hopen hwrite (fun _ => d.name) d.numa_node
        (b.getD []) d.rpsq _ _ h3
      by_cases hu : d.use_rps = 0
      · simp [hu, run_view, h3]
      · simp [hu, run_view, h4.1, h4.2]
  by_cases hrr : c.rr_single ≠ 0
  · simp only [if_pos hrr, Option.bind_eq_bind]
    cases hr : c_mod v.cur_cpu v.nr_use_cpu with
    | none => simp
    | some r =>
      simp only [Option.some_bind]
      cases hb : cpu_mask (r + v.cpu_offset) with
      | none => simp
      | some buf => simpa using tail (r + v.cpu_offset) buf { v with cur_cpu := v.cur_cpu + 1 }
  · simp only [if_neg hrr, Option.bind_eq_bind, Option.some_bind]
    cases hb : cpu_mask v.cpu_offset with
    | none => simp
    | some buf => simpa using tail v.cpu_offset buf v

/-- No effects, no file accesses. -/
theorem touched_nil : touched [] = [] := rfl

/-- A printed line is no file access. -/
theorem touched_out (line : List Char) : touched [event.out line] = [] := rfl

/-- Under a set dry-run flag the report and write of one interrupt falls through and
touches no file, whatever the files are like. -/
theorem aff_irq_io_dry (c : conf_t) (hc : c.dryrun ≠ 0) (fs : fsys) (cpu : Int)
    (buf name : List Char) (node : Int) (fn : List Char) (t : List event) :
    (aff_irq_io c fs cpu buf name node fn t).1 = true ∧
      touched (aff_irq_io c fs cpu buf name node fn t).2 = touched t := by
  simp only [aff_irq_io, if_neg hc]
  by_cases hq : c.quiet = 0
  · simp [hq, touched_append, touched_out]
  · simp [hq]

/-- Putting a queue in front keeps "the loop touched no file". -/
theorem touched_bind_cons (q1 : queue) (a : Option (Int × List queue × mq_state))
    (T : List event)
    (h : a.map (fun r => touched r.2.2.trace) = a.map (fun _ => T)) :
    (a.bind fun x => some (x.1, q1 :: x.2.1, x.2.2)).map (fun r => touched r.2.2.trace)
      = (a.bind fun x => some (x.1, q1 :: x.2.1, x.2.2)).map (fun _ => T) := by
  cases a with
  | none => rfl
  | some x => simpa using h

/-- Under a set dry-run flag the receive-queue loop touches no file. -/
theorem aff_rx_loop_dry (c : conf_t) (hc : c.dryrun ≠ 0) (fs : fsys) (d : dev) (nr off : Int) :
    ∀ (qs : List queue) (i cur rps : Int) (b : Option (List Char)) (t : List event),
      (aff_rx_loop c fs d nr off qs i ⟨cur, rps, b, t⟩).map (fun r => touched r.2.2.trace)
        = (aff_rx_loop c fs d nr off qs i ⟨cur, rps, b, t⟩).map (fun _ => touched t) := by
  intro qs
  induction qs with
  | nil => intro i cur rps b t; simp [aff_rx_loop]
  | cons q rest ih =>
    intro i cur rps b t
    simp only [aff_rx_loop]
    generalize (snprintf 256 (q.fn ++ "/smp_affinity".toList)) = fnm
    have step : ∀ r buf,
        Option.map (fun r => touched r.2.2.trace)
          (if (!(aff_irq_io c fs (r + off) buf q.name d.numa_node fnm t).1) = true then
            some (-1, { q with assigned_cpu := r + off } :: rest,
              (⟨if d.rr_multi ≠ 0 then cur + 1 else cur, r + off, some buf,
                (aff_irq_io c fs (r + off) buf q.name d.numa_node fnm t).2⟩ : mq_state))
          else
            (aff_rx_loop c fs d nr off rest (i + 1)
              ⟨if d.rr_multi ≠ 0 then cur + 1 else cur, r + off, some buf,
                (aff_irq_io c fs (r + off) buf q.name d.numa_node fnm t).2⟩).bind
              fun x => some (x.1, { q with assigned_cpu := r + off } :: x.2.1, x.2.2))
        = Option.map (fun _ => touched t)
          (if (!(aff_irq_io c fs (r + off) buf q.name d.numa_node fnm t).1) = true then
            some (-1, { q with assigned_cpu := r + off } :: rest,
              (⟨if d.rr_multi ≠ 0 then cur + 1 else cur, r + off, some buf,
                (aff_irq_io c fs (r + off) buf q.name d.numa_node fnm t).2⟩ : mq_state))
          else
            (aff_rx_loop c fs d nr off rest (i + 1)
              ⟨if d.rr_multi ≠ 0 then cur + 1 else cur, r + off, some buf,
                (aff_irq_io c fs (r + off) buf q.name d.numa_node fnm t).2⟩).bind
              fun x => some (x.1, { q with assigned_cpu := r + off } :: x.2.1, x.2.2)) := by
      intro r buf
      obtain ⟨h1, h2⟩ := aff_irq_io_dry c hc fs (r + off) buf q.name d.numa_node fnm t
      rw [h1]
      simp only [Bool.not_true, Bool.false_eq_true, if_false]
      rw [← h2]
      exact touched_bind_cons _ _ _ (ih _ _ _ _ _)
    by_cases hm : d.rr_multi ≠ 0
    · simp only [if_pos hm]
      cases hr : c_mod cur nr with
      | none => simp
      | some r =>
        simp only [Option.bind_eq_bind, Option.some_bind]
        cases hb : cpu_mask (r + off) with
        | none => simp
        | some buf => simpa [hm] using step r buf
    · simp only [if_neg hm]
      cases hr : c_mod i nr with
      | none => simp
      | some r =>
        simp only [Option.bind_eq_bind, Option.some_bind]
        cases hb : cpu_mask (r + off) with
        | none => simp
        | some buf => simpa [hm] using step r buf

/-- Under a set dry-run flag the transmit-queue loop touches no file. -/
theorem aff_tx_loop_dry (c : conf_t) (hc : c.dryrun ≠ 0) (fs : fsys) (d : dev) (nr off : Int) :
    ∀ (qs : List queue) (i cur rps : Int) (b : Option (List Char)) (t : List event),
      (aff_tx_loop c fs d nr off qs i ⟨cur, rps, b, t⟩).map (fun r => touched r.2.2.trace)
        = (aff_tx_loop c fs d nr off qs i ⟨cur, rps, b, t⟩).map (fun _ => touched t) := by
  intro qs
  induction qs with
  | nil => intro i cur rps b t; simp [aff_tx_loop]
  | cons q rest ih =>
    intro i cur rps b t
    simp only [aff_tx_loop]
    generalize (snprintf 256 (q.fn ++ "/smp_affinity".toList)) = fnm
    have step : ∀ cpu buf,
        Option.map (fun r => touched r.2.2.trace)
          (if (!(aff_irq_io c fs cpu buf q.name d.numa_node fnm t).1) = true then
            some (-1, q :: rest,
              (⟨cur, rps, some buf,
                (aff_irq_io c fs cpu buf q.name d.numa_node fnm t).2⟩ : mq_state))
          else
            (aff_tx_loop c fs d nr off rest (i + 1)
              ⟨cur, rps, some buf, (aff_irq_io c fs cpu buf q.name d.numa_node fnm t).2⟩).bind
              fun x => some (x.1, q :: x.2.1, x.2.2))
        = Option.map (fun _ => touched t)
          (if (!(aff_irq_io c fs cpu buf q.name d.numa_node fnm t).1) = true then
            some (-1, q :: rest,
              (⟨cur, rps, some buf,
                (aff_irq_io c fs cpu buf q.name d.numa_node fnm t).2⟩ : mq_state))
          else
            (aff_tx_loop c fs d nr off rest (i + 1)
              ⟨cur, rps, some buf, (aff_irq_io c fs cpu buf q.name d.numa_node fnm t).2⟩).bind
              fun x => some (x.1, q :: x.2.1, x.2.2)) := by
      intro cpu buf
      obtain ⟨h1, h2⟩ := aff_irq_io_dry c hc fs cpu buf q.name d.numa_node fnm t
      rw [h1]
      simp only [Bool.not_true, Bool.false_eq_true, if_false]
      rw [← h2]
      exact touched_bind_cons _ _ _ (ih _ _ _ _ _)
    cases hr : c_mod i nr with
    | none => simp
    | some r =>
      simp only [Option.bind_eq_bind, Option.some_bind]
      cases hb : cpu_mask (if d.tx = 1 ∧ d.rx = 1 then rps else r + off) with
      | none => simp
      | some buf => simpa using step (if d.tx = 1 ∧ d.rx = 1 then rps else r + off) buf

/-- Under a set dry-run flag the combined-queue loop touches no file. -/
theorem aff_txrx_loop_dry (c : conf_t) (hc : c.dryrun ≠ 0) (fs : fsys) (d : dev)
    (nr off : Int) :
    ∀ (qs : List queue) (i cur rps : Int) (b : Option (List Char)) (t : List event),
      (aff_txrx_loop c fs d nr off qs i ⟨cur, rps, b, t⟩).map (fun r => touched r.2.2.trace)
        = (aff_txrx_loop c fs d nr off qs i ⟨cur, rps, b, t⟩).map (fun _ => touched t) := by
  intro qs
  induction qs with
  | nil => intro i cur rps b t; simp [aff_txrx_loop]
  | cons q rest ih =>
    intro i cur rps b t
    simp only [aff_txrx_loop]
    generalize (snprintf 256 (q.fn ++ "/smp_affinity".toList)) = fnm
    have step : ∀ r buf,
        Option.map (fun r => touched r.2.2.trace)
          (if (!(aff_irq_io c fs (r + off) buf q.name d.numa_node fnm t).1) = true then
            some (-1, { q with assigned_cpu := r + off } :: rest,
              (⟨cur, r + off, some buf,
                (aff_irq_io c fs (r + off) buf q.name d.numa_node fnm t).2⟩ : mq_state))
          else
            (aff_txrx_loop c fs d nr off rest (i + 1)
              ⟨cur, r + off, some buf,
                (aff_irq_io c fs (r + off) buf q.name d.numa_node fnm t).2⟩).bind
              fun x => some (x.1, { q with assigned_cpu := r + off } :: x.2.1, x.2.2))
        = Option.map (fun _ => touched t)
          (if (!(aff_irq_io c fs (r + off) buf q.name d.numa_node fnm t).1) = true then
            some (-1, { q with assigned_cpu := r + off } :: rest,
              (⟨cur, r + off, some buf,
                (aff_irq_io c fs (r + off) buf q.name d.numa_node fnm t).2⟩ : mq_state))
          else
            (aff_txrx_loop c fs d nr off rest (i + 1)
              ⟨cur, r + off, some buf,
                (aff_irq_io c fs (r + off) buf q.name d.numa_node fnm t).2⟩).bind
              fun x => some (x.1, { q with assigned_cpu := r + off } :: x.2.1, x.2.2)) := by
      intro r buf
      obtain ⟨h1, h2⟩ := aff_irq_io_dry c hc fs (r + off) buf q.name d.numa_node fnm t
      rw [h1]
      simp only [Bool.not_true, Bool.false_eq_true, if_false]
      rw [← h2]
      exact touched_bind_cons _ _ _ (ih _ _ _ _ _)
    cases hr : c_mod i nr with
    | none => simp
    | some r =>
      simp only [Option.bind_eq_bind, Option.some_bind]
      cases hb : cpu_mask (r + off) with
      | none => simp
      | some buf => simpa using step r buf

/-- Under a set dry-run flag the packet-steering loop touches no file. -/
theorem aff_rps_loop_dry (c : conf_t) (hc : c.dryrun ≠ 0) (fs : fsys)
    (pick : queue → List Char) (node : Int) (buf : List Char) :
    ∀ (qs : List queue) (t : List event),
      touched (aff_rps_loop c fs pick node buf qs t).2 = touched t := by
  intro qs
  induction qs with
  | nil => intro t; rfl
  | cons q rest ih =>
    intro t
    simp only [aff_rps_loop, if_neg hc]
    rw [ih]
    by_cases hq : c.quiet = 0
    · simp [hq, touched_append, touched_out]
    · simp [hq]

/-- Under a set dry-run flag `aff_multiq` touches no file, whatever the files are like. -/
theorem aff_multiq_dry (c : conf_t) (hc : c.dryrun ≠ 0) (fs : fsys) (d : dev) (v : var_t)
    (t : List event) :
    (aff_multiq c fs d v t).map (fun r => touched r.2.2.2)
      = (aff_multiq c fs d v t).map (fun _ => touched t) := by
  unfold aff_multiq
  dsimp only
  generalize (if c.reserve_mq = 0 ∧ d.rx + d.txrx > 1 then v.nr_cpu else v.nr_use_cpu) = nr
  generalize (if c.reserve_mq = 0 ∧ d.rx + d.txrx > 1 then 0 else v.cpu_offset) = off
  have h1 := aff_rx_loop_dry c hc fs d nr off d.rxq (nr - off) v.cur_mq_cpu (-1) none t
  cases e1 : aff_rx_loop c fs d nr off d.rxq (nr - off) ⟨v.cur_mq_cpu, -1, none, t⟩ with
  | none => rfl
  | some x1 =>
    obtain ⟨rc1, qs1, cur1, rps1, b1, t1⟩ := x1
    rw [e1] at h1
    simp only [Option.map_some', Option.some.injEq] at h1
    by_cases hrc1 : rc1 = 0
    swap
    · simp [hrc1, h1]
    · subst hrc1
      have h2 := aff_tx_loop_dry c hc fs d nr off d.txq (nr - off) cur1 rps1 b1 t1
      cases e2 : aff_tx_loop c fs d nr off d.txq (nr - off) ⟨cur1, rps1, b1, t1⟩ with
      | none => simp [e2]
      | some x2 =>
        obtain ⟨rc2, qs2, cur2, rps2, b2, t2⟩ := x2
        rw [e2] at h2
        simp only [Option.map_some', Option.some.injEq] at h2
        by_cases hrc2 : rc2 = 0
        swap
        · simp [e2, hrc2, h1, h2]
        · subst hrc2
          have h3 := aff_txrx_loop_dry c hc fs d nr off d.txrxq (nr - off) cur2 rps2 b2 t2
          cases e3 : aff_txrx_loop c fs d nr off d.txrxq (nr - off) ⟨cur2, rps2, b2, t2⟩ with
          | none => simp [e2, e3]
          | some x3 =>
            obtain ⟨rc3, qs3, cur3, rps3, b3, t3⟩ := x3
            rw [e3] at h3
            simp only [Option.map_some', Option.some.injEq] at h3
            by_cases hrc3 : rc3 = 0
            swap
            · simp [e2, e3, hrc3, h1, h2, h3]
            · subst hrc3
              by_cases hu : d.use_rps = 0
              · simp [e2, e3, hu, h1, h2, h3]
              · simp only [ne_eq, not_true_eq_false, if_false, e2, e3, hu,
                  not_false_eq_true, if_true, Option.bind_eq_bind, Option.some_bind,
                  Option.pure_def]
                cases hs : steer_buf c v b3 rps3 with
                | none => simp
                | some bb =>
                  cases hq : d.rpsq with
                  | nil => simp [h1, h2, h3]
                  | cons q0 rest0 =>
                    cases bb with
                    | none => simp
                    | some buf =>
                      have h4 := aff_rps_loop_dry c hc fs (fun q => q.name) d.numa_node buf
                        (q0 :: rest0) t3
                      simp [h4, h1, h2, h3]

/-- Under a set dry-run flag `aff_singleq` touches no file, whatever the files are like. -/
theorem aff_singleq_dry (c : conf_t) (hc : c.dryrun ≠ 0) (fs : fsys) (d : dev) (v : var_t)
    (t : List event) :
    (aff_singleq c fs d v t).map (fun r => touched r.2.2.2)
      = (aff_singleq c fs d v t).map (fun _ => touched t) := by
  unfold aff_singleq
  dsimp only
  generalize (snprintf 256 (d.fn ++ "/smp_affinity".toList)) = fnm
  have tail : ∀ cpu buf (v1 : var_t),
      Option.map (fun r => touched r.2.2.2)
        (if (!(aff_irq_io c fs cpu buf d.name d.numa_node fnm t).1) = true
          then some (-1, { d with assigned_cpu := cpu }, v1,
            (aff_irq_io c fs cpu buf d.name d.numa_node fnm t).2)
        else
          (steer_buf c v (some buf) cpu).bind fun b =>
            if d.use_rps ≠ 0 then
              some ((aff_rps_loop c fs (fun _ => d.name) d.numa_node (b.getD []) d.rpsq
                  (aff_irq_io c fs cpu buf d.name d.numa_node fnm t).2).1,
                { d with assigned_cpu := cpu }, v1,
                (aff_rps_loop c fs (fun _ => d.name) d.numa_node (b.getD []) d.rpsq
                  (aff_irq_io c fs cpu buf d.name d.numa_node fnm t).2).2)
            else
              some (0, { d with assigned_cpu := cpu }, v1,
                (aff_irq_io c fs cpu buf d.name d.numa_node fnm t).2))
      = Option.map (fun _ => touched t)
        (if (!(aff_irq_io c fs cpu buf d.name d.numa_node fnm t).1) = true
          then some (-1, { d with assigned_cpu := cpu }, v1,
            (aff_irq_io c fs cpu buf d.name d.numa_node fnm t).2)
        else
          (steer_buf c v (some buf) cpu).bind fun b =>
            if d.use_rps ≠ 0 then
              some ((aff_rps_loop c fs (fun _ => d.name) d.numa_node (b.getD []) d.rpsq
                  (aff_irq_io c fs cpu buf d.name d.numa_node fnm t).2).1,
                { d with assigned_cpu := cpu }, v1,
                (aff_rps_loop c fs (fun _ => d.name) d.numa_node (b.getD []) d.rpsq
                  (aff_irq_io c fs cpu buf d.name d.numa_node fnm t).2).2)
            else
              some (0, { d with assigned_cpu := cpu }, v1,
                (aff_irq_io c fs cpu buf d.name d.numa_node fnm t).2)) := by
    intro cpu buf v1
    obtain ⟨h1, h2⟩ := aff_irq_io_dry c hc fs cpu buf d.name d.numa_node fnm t
    rw [h1]
    simp only [Bool.not_true, Bool.false_eq_true, if_false]
    cases hs : steer_buf c v (some buf) cpu with
    | none => rfl
    | some b =>
      have h4 := aff_rps_loop_dry c hc fs (fun _ => d.name) d.numa_node (b.getD []) d.rpsq
        (aff_irq_io c fs cpu buf d.name d.numa_node fnm t).2
      by_cases hu : d.use_rps = 0
      · simp [hu, h2]
      · simp [hu, h4, h2]
  by_cases hrr : c.rr_single ≠ 0
  · simp only [if_pos hrr, Option.bind_eq_bind]
    cases hr : c_mod v.cur_cpu v.nr_use_cpu with
    | none => simp
    | some r =>
      simp only [Option.some_bind]
      cases hb : cpu_mask (r + v.cpu_offset) with
      | none => simp
      | some buf => simpa using tail (r + v.cpu_offset) buf { v with cur_cpu := v.cur_cpu + 1 }
  · simp only [if_neg hrr, Option.bind_eq_bind, Option.some_bind]
    cases hb : cpu_mask v.cpu_offset with
    | none => simp
    | some buf => simpa using tail v.cpu_offset buf v

set_option maxRecDepth 100000 in
/-- C4 as stated fails: when the control file of the first receive queue cannot be opened,
the run of `aff_multiq` with the dry-run flag clear returns `-1` after one queue; the
second queue keeps `assigned_cpu = -1` and only one line is reported.  The run with the
flag set, on the same inputs, assigns CPUs 0 and 1 and reports two lines. -/
theorem C4_dry_run_counterexample :
    (aff_multiq conf_default (fs_without "/proc/irq/40/smp_affinity".toList) dev_two_rx
        (var_of_cpus 8) []).map
        (fun r => (r.1, r.2.1.rxq.map queue.assigned_cpu, outs r.2.2.2))
      = some (-1, [0, -1], ["irq 0 -> eth0-rx-0".toList ++ [nl]]) ∧
    (aff_multiq { conf_default with dryrun := 1 }
        (fs_without "/proc/irq/40/smp_affinity".toList) dev_two_rx (var_of_cpus 8) []).map
        (fun r => (r.1, r.2.1.rxq.map queue.assigned_cpu, outs r.2.2.2))
      = some (0, [0, 1],
          ["irq 0 -> eth0-rx-0".toList ++ [nl], "irq 1 -> eth0-rx-1".toList ++ [nl]]) := by
  refine ⟨by decide, by decide⟩

/-- C4, amended: with the dry-run flag set `aff_multiq` and `aff_singleq` open and write no
file, whatever the files are like; and when every control file can be opened and written
in full, they yield the same return code, the same `assigned_cpu` values, the same
cursors and the same reported lines as with the flag clear on the same inputs. -/
theorem C4_dry_run_amended (c : conf_t) (k : Int) (hk : k ≠ 0) (hc : c.dryrun = 0) (fs : fsys)
    (hopen : ∀ p, fs.can_open p = true)
    (hwrite : ∀ p data, fs.write_ret p data = (data.length : Int))
    (d : dev) (v : var_t) (t : List event) :
    (aff_multiq { c with dryrun := k } fs d v t).map run_view
        = (aff_multiq c fs d v t).map run_view ∧
      (aff_singleq { c with dryrun := k } fs d v t).map run_view
        = (aff_singleq c fs d v t).map run_view ∧
      (∀ fs1 r, aff_multiq { c with dryrun := k } fs1 d v t = some r →
        touched r.2.2.2 = touched t) ∧
      (∀ fs1 r, aff_singleq { c with dryrun := k } fs1 d v t = some r →
        touched r.2.2.2 = touched t) := by
  refine ⟨aff_multiq_dry_wet c k hk hc fs hopen hwrite d v t,
    aff_singleq_dry_wet c k hk hc fs hopen hwrite d v t, ?_, ?_⟩
  · intro fs1 r hr
    have h := aff_multiq_dry { c with dryrun := k } hk fs1 d v t
    rw [hr] at h
    simpa using h
  · intro fs1 r hr
    have h := aff_singleq_dry { c with dryrun := k } hk fs1 d v t
    rw [hr] at h
    simpa using h

set_option maxRecDepth 100000 in
/-- The amended C4 at a device with two receive queues on an 8-CPU machine: both runs
return 0, assign CPUs 0 and 1 and report the same two lines. -/
theorem C4_dry_run_amended_witness :
    (aff_multiq { conf_default with dryrun := 1 } fs_ok dev_two_rx (var_of_cpus 8) []).map
        run_view
      = (aff_multiq conf_default fs_ok dev_two_rx (var_of_cpus 8) []).map run_view ∧
    (aff_multiq conf_default fs_ok dev_two_rx (var_of_cpus 8) []).map
        (fun r => (r.1, r.2.1.rxq.map queue.assigned_cpu, outs r.2.2.2))
      = some (0, [0, 1],
          ["irq 0 -> eth0-rx-0".toList ++ [nl], "irq 1 -> eth0-rx-1".toList ++ [nl]]) :=
  ⟨(C4_dry_run_amended conf_default 1 (by decide) (by decide) fs_ok (fun _ => rfl)
      (fun _ _ => rfl) dev_two_rx (var_of_cpus 8) []).1, by decide⟩

/-! ### The window computation -/

theorem shrink_use_eq (off nr : Int) : ∀ (fuel : Nat) (u : Int), (off + u - nr).toNat ≤ fuel →
    shrink_use off nr fuel u = if off + u > nr then nr - off else u := by
  intro fuel
  induction fuel with
  | zero =>
    intro u h
    have : ¬ (off + u > nr) := by omega
    simp [shrink_use, this]
  | succ n ih =>
    intro u h
    unfold shrink_use
    by_cases hc : off + u > nr
    · rw [if_pos hc, if_pos hc, ih (u - 1) (by omega)]
      split_ifs <;> omega
    · rw [if_neg hc, if_neg hc]

theorem grow_use_eq : ∀ (fuel : Nat) (off u : Int), (1 - u).toNat ≤ fuel →
    grow_use fuel (off, u) = if u < 1 then (off - (1 - u), 1) else (off, u) := by
  intro fuel
  induction fuel with
  | zero =>
    intro off u h
    have : ¬ (u < 1) := by omega
    simp [grow_use, this]
  | succ n ih =>
    intro off u h
    unfold grow_use
    by_cases hc : u < 1
    · simp only [if_pos hc]
      rw [ih (off - 1) (u + 1) (by omega)]
      split_ifs
      · congr 1; omega
      · have : u = 0 := by omega
        subst this; rfl
    · simp only [if_neg hc]

/-- Both loops of the window computation stop: the rounds they are given are enough for
their tests to be false at the end. -/
theorem main_window_loops_stop (off nr u : Int) :
    ¬ (off + shrink_use off nr (off + u - nr).toNat u > nr) ∧
    ¬ ((grow_use (1 - u).toNat (off, u)).2 < 1) := by
  rw [shrink_use_eq off nr _ u (le_refl _), grow_use_eq _ off u (le_refl _)]
  constructor
  · split_ifs <;> omega
  · split_ifs <;> simp only [] <;> omega

/-- The window of `main` in closed form. -/
theorem main_window_eq (maxcpu reservedcpus : Int) (v : var_t) :
    main_window maxcpu reservedcpus v =
      (let use1 := if maxcpu ≠ 0 ∧ v.nr_cpu > maxcpu then maxcpu else v.nr_cpu
       let use2 := if reservedcpus + use1 > v.nr_cpu then v.nr_cpu - reservedcpus else use1
       let off := if reservedcpus = 0 then 0
                  else if use2 < 1 then max 0 (reservedcpus - (1 - use2)) else max 0 reservedcpus
       let use3 := if reservedcpus = 0 then use1 else if use2 < 1 then 1 else use2
       { v with nr_use_cpu := use3, cpu_offset := off, cur_mq_cpu := v.nr_cpu - off }) := by
  unfold main_window
  simp only [shrink_use_eq reservedcpus v.nr_cpu _ _ (le_refl _), grow_use_eq _ _ _ (le_refl _)]
  have e1 : (if maxcpu ≠ 0 then (if v.nr_cpu > maxcpu then maxcpu else v.nr_cpu) else v.nr_cpu)
      = if maxcpu ≠ 0 ∧ v.nr_cpu > maxcpu then maxcpu else v.nr_cpu := by
    split_ifs <;> simp_all
  rw [e1]
  generalize (if maxcpu ≠ 0 ∧ v.nr_cpu > maxcpu then maxcpu else v.nr_cpu) = use1
  by_cases hr : reservedcpus = 0
  · subst hr; simp
  · simp only [if_neg hr, ne_eq, hr, not_false_eq_true, if_true]
    generalize (if reservedcpus + use1 > v.nr_cpu then v.nr_cpu - reservedcpus else use1) = use2
    by_cases h2 : use2 < 1
    · simp only [if_pos h2]
      by_cases h3 : reservedcpus - (1 - use2) < 0
      · simp [h3, max_eq_left (le_of_lt h3)]
      · simp [h3, max_eq_right (not_lt.mp h3)]
    · simp only [if_neg h2]
      by_cases h3 : reservedcpus < 0
      · simp [h3, max_eq_left (le_of_lt h3)]
      · simp [h3, max_eq_right (not_lt.mp h3)]

/-- With a cap that is not negative the window of `main` lies inside the machine. -/
theorem main_window_inside (maxcpu reservedcpus : Int) (v : var_t) (hn : 1 ≤ v.nr_cpu)
    (hm : 0 ≤ maxcpu) :
    0 ≤ (main_window maxcpu reservedcpus v).cpu_offset ∧
    1 ≤ (main_window maxcpu reservedcpus v).nr_use_cpu ∧
    (main_window maxcpu reservedcpus v).cpu_offset + (main_window maxcpu reservedcpus v).nr_use_cpu
      ≤ v.nr_cpu := by
  rw [main_window_eq]
  simp only
  refine ⟨?_, ?_, ?_⟩ <;> split_ifs <;> omega

/-- Without a cap the cursor of `main` starts at the usable count. -/
theorem main_window_uncapped (reservedcpus : Int) (v : var_t) (hn : 1 ≤ v.nr_cpu) :
    (main_window 0 reservedcpus v).cur_mq_cpu = (main_window 0 reservedcpus v).nr_use_cpu := by
  rw [main_window_eq]
  simp only
  split_ifs <;> omega

/-- C15 (code defect): on a machine with 8 CPUs the cap `-m -3`, which the option handling
of `main` lets through (only an explicit 0 is refused), with no reserved CPU leaves the
window with the usable count -3: the cap is taken as it is and the correcting loops only
run under `if(conf.reservedcpus)`. -/
theorem C15_negative_cap_leaves_negative_usable_count :
    (main_window (-3) 0 (var_of_cpus 8)).nr_use_cpu = -3 ∧
    (main_window (-3) 0 (var_of_cpus 8)).cpu_offset = 0 ∧
    ¬ (1 ≤ (main_window (-3) 0 (var_of_cpus 8)).nr_use_cpu) := by
  decide

set_option maxRecDepth 100000 in
/-- C19 (code defect): on an 8-CPU machine with the devices `eth0`, `eth1` (two combined
queues each) and `eth2` (four), `set_heuristics` sets `rr_multi` for `eth0` and `eth1`
through its test on the combined count, but the combined-queue loop of `aff_multiq` does
not look at `rr_multi`: both devices get the CPUs 0 and 1, so both start at CPU 0, and the
cursor `cur_mq_cpu` is still 8 after all three devices. -/
theorem C19_combined_queues_bypass_cursor :
    ((set_heuristics conf_default (var_of_cpus 8) devs_combined []).2.1.map dev.rr_multi
      = [1, 1, 0]) ∧
    ((assign_pass (set_heuristics conf_default (var_of_cpus 8) devs_combined []).1 fs_ok
        (set_heuristics conf_default (var_of_cpus 8) devs_combined []).2.1
        (var_of_cpus 8) []).map
      fun r => (r.1.map (fun d => d.txrxq.map queue.assigned_cpu), r.2.1.cur_mq_cpu))
      = some ([[0, 1], [0, 1], [0, 1, 2, 3]], 8) := by
  decide

/-! ### The heuristics -/

theorem heur_count_eq (c : conf_t) (e s : Int) (d : dev) :
    heur_count (c, e, s) d =
      (if d.rx > 1 ∨ d.tx > 1 ∨ d.txrx > 1 then
          { c with
            num_mq := c.num_mq + 1
            max_rx := if d.rx > c.max_rx then d.rx else c.max_rx
            max_tx := if d.tx > c.max_tx then d.tx else c.max_tx
            max_txrx := if d.txrx > c.max_txrx then d.txrx else c.max_txrx }
        else c,
       if d.rx > 1 ∨ d.tx > 1 ∨ d.txrx > 1 then 1 else e,
       if d.single ≠ 0 then 1 else s) := by
  unfold heur_count
  by_cases hd : d.rx > 1 ∨ d.tx > 1 ∨ d.txrx > 1
  · simp only [if_pos hd]
  · simp only [if_neg hd]

theorem heur_count_exists_mq (l : List dev) : ∀ (c : conf_t) (e s : Int),
    (l.foldl heur_count (c, e, s)).2.1 =
      if ∃ d ∈ l, d.rx > 1 ∨ d.tx > 1 ∨ d.txrx > 1 then 1 else e := by
  induction l with
  | nil => intro c e s; simp
  | cons d rest ih =>
    intro c e s
    rw [List.foldl_cons, heur_count_eq, ih]
    by_cases hd : d.rx > 1 ∨ d.tx > 1 ∨ d.txrx > 1
    · simp [hd]
    · simp [hd]

theorem heur_count_heuristics (l : List dev) : ∀ (c : conf_t) (e s : Int),
    (l.foldl heur_count (c, e, s)).1.heuristics = c.heuristics := by
  induction l with
  | nil => intro c e s; rfl
  | cons d rest ih =>
    intro c e s
    rw [List.foldl_cons, heur_count_eq, ih]
    by_cases hd : d.rx > 1 ∨ d.tx > 1 ∨ d.txrx > 1
    · simp [hd]
    · simp [hd]

theorem heur_rr_multi_use_rps (c : conf_t) (v : var_t) (d : dev) :
    (heur_rr_multi c v d).use_rps = d.use_rps := by
  unfold heur_rr_multi
  split_ifs <;> rfl

theorem heur_rps_use_rps (d : dev) :
    (heur_rps d).use_rps = if d.rps ≠ 0 ∧ d.rx = 1 then 1 else d.use_rps := by
  unfold heur_rps
  split_ifs <;> simp_all

theorem heur_max_heuristics (c : conf_t) : (heur_max c).heuristics = c.heuristics := by
  unfold heur_max
  split_ifs <;> rfl

theorem exists_mq_ne_zero (l : List dev) :
    ((if ∃ d ∈ l, d.rx > 1 ∨ d.tx > 1 ∨ d.txrx > 1 then (1 : Int) else 0) ≠ 0) ↔
      ∃ d ∈ l, d.rx > 1 ∨ d.tx > 1 ∨ d.txrx > 1 := by
  split_ifs with h <;> simp [h]

/-- The devices `set_heuristics` leaves: with the heuristics off the devices it got, else
each device after the packet-steering test (made when a device has several queues of a
kind or the list has one device) and after the two round-robin tests. -/
theorem set_heuristics_devs (c : conf_t) (v : var_t) (l : List dev) (t : List event) :
    (set_heuristics c v l t).2.1 =
      if c.heuristics = 0 then l
      else (if (∃ d ∈ l, d.rx > 1 ∨ d.tx > 1 ∨ d.txrx > 1) ∨ l.length = 1
            then l.map heur_rps else l).map (heur_rr_multi (set_heuristics c v l t).1 v) := by
  unfold set_heuristics
  simp only [heur_max_heuristics, heur_count_heuristics, heur_count_exists_mq, exists_mq_ne_zero,
    Nat.cast_eq_one]
  by_cases h0 : c.heuristics = 0
  · simp only [if_pos h0]
  · simp only [if_neg h0]

/-- The `use_rps` flags `set_heuristics` leaves. -/
theorem set_heuristics_use_rps (c : conf_t) (v : var_t) (l : List dev) (t : List event) :
    (set_heuristics c v l t).2.1.map dev.use_rps =
      l.map fun d =>
        if c.heuristics ≠ 0 ∧ ((∃ x ∈ l, x.rx > 1 ∨ x.tx > 1 ∨ x.txrx > 1) ∨ l.length = 1) ∧
            d.rps ≠ 0 ∧ d.rx = 1 then 1 else d.use_rps := by
  rw [set_heuristics_devs]
  by_cases h0 : c.heuristics = 0
  · simp [h0]
  · by_cases hs : (∃ x ∈ l, x.rx > 1 ∨ x.tx > 1 ∨ x.txrx > 1) ∨ l.length = 1
    · simp only [if_neg h0, if_pos hs, List.map_map]
      apply List.map_congr_left
      intro d _
      simp [heur_rr_multi_use_rps, heur_rps_use_rps, h0, hs]
    · simp only [if_neg h0, if_neg hs, List.map_map]
      apply List.map_congr_left
      intro d _
      simp [heur_rr_multi_use_rps, h0, hs]
theorem heur_rps_eq (d : dev) :
    heur_rps d = { d with use_rps := if d.rps ≠ 0 ∧ d.rx = 1 then 1 else d.use_rps } := by
  cases d
  simp only [heur_rps]
  split_ifs <;> first | rfl | (exfalso; omega)

theorem heur_rr_multi_eq (c : conf_t) (v : var_t) (d : dev) :
    heur_rr_multi c v d =
      { d with rr_multi :=
          if d.single = 0 ∧ c.num_mq > 1 ∧
              ((d.txrx ≤ 1 ∧ d.rx < v.nr_use_cpu ∧ d.rx < c.max_tx) ∨
               (d.txrx > 1 ∧ d.txrx < v.nr_use_cpu ∧ d.txrx < c.max_tx)) then 1
          else d.rr_multi } := by
  cases d
  simp only [heur_rr_multi]
  split_ifs <;> first | rfl | (exfalso; omega)

/-- C20: from devices whose `use_rps` flags are clear, `set_heuristics` changes nothing of
a device but its flags `use_rps` and `rr_multi`, and leaves `use_rps` set exactly when
the heuristics are on, some device of the list has more than one receive, transmit or
combined queue or the list has one device, the device has `rx == 1`, and the probe
counted a packet-steering file for it (`rps` not 0); in particular a device whose count
is the length of its packet-steering sequence and whose sequence is empty keeps the
flag clear. -/
theorem C20_packet_steering_decision (c : conf_t) (v : var_t) (l : List dev) (t : List event)
    (hclear : ∀ d ∈ l, d.use_rps = 0) :
    List.Forall₂
      (fun d d' =>
        d' = { d with use_rps := d'.use_rps, rr_multi := d'.rr_multi } ∧
        (d'.use_rps ≠ 0 ↔
          c.heuristics ≠ 0 ∧
          ((∃ x ∈ l, x.rx > 1 ∨ x.tx > 1 ∨ x.txrx > 1) ∨ l.length = 1) ∧
          d.rx = 1 ∧ d.rps ≠ 0) ∧
        (d.rps = (d.rpsq.length : Int) → d.rpsq = [] → d'.use_rps = 0))
      l (set_heuristics c v l t).2.1 := by
  have key : ∀ (g : dev → dev),
      (∀ d ∈ l, g d = { d with use_rps := (g d).use_rps, rr_multi := (g d).rr_multi } ∧
        (g d).use_rps =
          if c.heuristics ≠ 0 ∧ ((∃ x ∈ l, x.rx > 1 ∨ x.tx > 1 ∨ x.txrx > 1) ∨ l.length = 1) ∧
            d.rx = 1 ∧ d.rps ≠ 0 then 1 else 0) →
      List.Forall₂
        (fun d d' =>
          d' = { d with use_rps := d'.use_rps, rr_multi := d'.rr_multi } ∧
          (d'.use_rps ≠ 0 ↔
            c.heuristics ≠ 0 ∧
            ((∃ x ∈ l, x.rx > 1 ∨ x.tx > 1 ∨ x.txrx > 1) ∨ l.length = 1) ∧
            d.rx = 1 ∧ d.rps ≠ 0) ∧
          (d.rps = (d.rpsq.length : Int) → d.rpsq = [] → d'.use_rps = 0))
        l (l.map g) := by
    intro g hg
    rw [List.forall₂_map_right_iff, List.forall₂_same]
    intro d hd
    obtain ⟨h1, h2⟩ := hg d hd
    refine ⟨h1, ?_, ?_⟩
    · rw [h2]
      split_ifs with h
      · simp [h]
      · simp [h]
    · intro hr he
      have : d.rps = 0 := by rw [hr, he]; rfl
      rw [h2]
      simp [this]
  rw [set_heuristics_devs]
  by_cases h0 : c.heuristics = 0
  · rw [if_pos h0]
    have := key id (fun d hd => ⟨by simp, by simp [h0, hclear d hd]⟩)
    simpa using this
  · rw [if_neg h0]
    by_cases hs : (∃ x ∈ l, x.rx > 1 ∨ x.tx > 1 ∨ x.txrx > 1) ∨ l.length = 1
    · rw [if_pos hs, List.map_map]
      apply key
      intro d hd
      simp only [Function.comp_apply]
      rw [heur_rr_multi_eq, heur_rps_eq]
      refine ⟨rfl, ?_⟩
      by_cases hc : d.rps ≠ 0 ∧ d.rx = 1
      · simp [h0, hs, hc.1, hc.2]
      · have : ¬ (d.rx = 1 ∧ d.rps ≠ 0) := fun h => hc ⟨h.2, h.1⟩
        simp [h0, hs, hc, this, hclear d hd]
    · rw [if_neg hs]
      apply key
      intro d hd
      rw [heur_rr_multi_eq]
      refine ⟨rfl, ?_⟩
      simp [hs, hclear d hd]

set_option maxRecDepth 100000 in
/-- C20 at `eth0` (two receive queues) and `eth1` (single queue, one packet-steering
file): only `eth1` gets the flag. -/
theorem C20_packet_steering_decision_witness :
    (∀ d ∈ [dev_rx2_tx4, dev_plain_rps], d.use_rps = 0) ∧
    (set_heuristics conf_default (var_of_cpus 8) [dev_rx2_tx4, dev_plain_rps] []).2.1.map
      dev.use_rps = [0, 1] ∧
    List.Forall₂
      (fun d d' =>
        d' = { d with use_rps := d'.use_rps, rr_multi := d'.rr_multi } ∧
        (d'.use_rps ≠ 0 ↔
          conf_default.heuristics ≠ 0 ∧
          ((∃ x ∈ [dev_rx2_tx4, dev_plain_rps], x.rx > 1 ∨ x.tx > 1 ∨ x.txrx > 1) ∨
            [dev_rx2_tx4, dev_plain_rps].length = 1) ∧
          d.rx = 1 ∧ d.rps ≠ 0) ∧
        (d.rps = (d.rpsq.length : Int) → d.rpsq = [] → d'.use_rps = 0))
      [dev_rx2_tx4, dev_plain_rps]
      (set_heuristics conf_default (var_of_cpus 8) [dev_rx2_tx4, dev_plain_rps] []).2.1 :=
  ⟨by decide, by decide,
   C20_packet_steering_decision conf_default (var_of_cpus 8) [dev_rx2_tx4, dev_plain_rps] []
     (by decide)⟩

theorem heur_max_fields (c : conf_t) :
    (heur_max c).num_mq = c.num_mq ∧ (heur_max c).rr_single = c.rr_single ∧
    (heur_max c).max_txrx = c.max_txrx ∧ (heur_max c).max_tx = max c.max_tx c.max_txrx := by
  unfold heur_max
  split_ifs with h
  · exact ⟨rfl, rfl, rfl, (max_eq_right (le_of_lt h)).symm⟩
  · exact ⟨rfl, rfl, rfl, (max_eq_left (not_lt.mp h)).symm⟩

theorem heur_rr_single_fields (c : conf_t) (v : var_t) (e : Int) (len : Nat) :
    (heur_rr_single c v e len).num_mq = c.num_mq ∧
    (heur_rr_single c v e len).heuristics = c.heuristics ∧
    (heur_rr_single c v e len).max_tx = c.max_tx ∧
    (heur_rr_single c v e len).max_txrx = c.max_txrx ∧
    (heur_rr_single c v e len).rr_single =
      if e ≠ 0 ∨ (v.nr_use_cpu > 1 ∧ (len : Int) > 2) then 1 else c.rr_single := by
  unfold heur_rr_single
  by_cases he : e ≠ 0
  · rw [if_pos he]
    exact ⟨rfl, rfl, rfl, rfl, (if_pos (Or.inl he)).symm⟩
  · rw [if_neg he]
    by_cases h2 : v.nr_use_cpu > 1 ∧ (len : Int) > 2
    · rw [if_pos h2]
      exact ⟨rfl, rfl, rfl, rfl, (if_pos (Or.inr h2)).symm⟩
    · rw [if_neg h2]
      exact ⟨rfl, rfl, rfl, rfl, (if_neg (fun h => h.elim he h2)).symm⟩

theorem heur_count_fields (l : List dev) : ∀ (c : conf_t) (e s : Int),
    (l.foldl heur_count (c, e, s)).1.num_mq =
      c.num_mq + (l.countP fun d => decide (d.rx > 1 ∨ d.tx > 1 ∨ d.txrx > 1)) ∧
    (l.foldl heur_count (c, e, s)).1.rr_single = c.rr_single := by
  induction l with
  | nil => intro c e s; simp
  | cons d rest ih =>
    intro c e s
    rw [List.foldl_cons, heur_count_eq]
    obtain ⟨h1, h2⟩ := ih
      (if d.rx > 1 ∨ d.tx > 1 ∨ d.txrx > 1 then
          { c with
            num_mq := c.num_mq + 1
            max_rx := if d.rx > c.max_rx then d.rx else c.max_rx
            max_tx := if d.tx > c.max_tx then d.tx else c.max_tx
            max_txrx := if d.txrx > c.max_txrx then d.txrx else c.max_txrx }
        else c)
      (if d.rx > 1 ∨ d.tx > 1 ∨ d.txrx > 1 then 1 else e) (if d.single ≠ 0 then 1 else s)
    rw [h1, h2]
    by_cases hd : d.rx > 1 ∨ d.tx > 1 ∨ d.txrx > 1
    · simp only [if_pos hd, List.countP_cons, decide_eq_true hd, if_true]
      constructor
      · push_cast; ring
      · trivial
    · simp only [if_neg hd, List.countP_cons, decide_eq_false hd]
      simp

theorem heur_count_max_bounds (l : List dev) : ∀ (c : conf_t) (e s : Int),
    c.max_tx ≤ (l.foldl heur_count (c, e, s)).1.max_tx ∧
    c.max_txrx ≤ (l.foldl heur_count (c, e, s)).1.max_txrx ∧
    ∀ d ∈ l, (d.rx > 1 ∨ d.tx > 1 ∨ d.txrx > 1) →
      d.tx ≤ (l.foldl heur_count (c, e, s)).1.max_tx ∧
      d.txrx ≤ (l.foldl heur_count (c, e, s)).1.max_txrx := by
  induction l with
  | nil => intro c e s; simp
  | cons d rest ih =>
    intro c e s
    rw [List.foldl_cons, heur_count_eq]
    obtain ⟨h1, h2, h3⟩ := ih
      (if d.rx > 1 ∨ d.tx > 1 ∨ d.txrx > 1 then
          { c with
            num_mq := c.num_mq + 1
            max_rx := if d.rx > c.max_rx then d.rx else c.max_rx
            max_tx := if d.tx > c.max_tx then d.tx else c.max_tx
            max_txrx := if d.txrx > c.max_txrx then d.txrx else c.max_txrx }
        else c)
      (if d.rx > 1 ∨ d.tx > 1 ∨ d.txrx > 1 then 1 else e) (if d.single ≠ 0 then 1 else s)
    by_cases hd : d.rx > 1 ∨ d.tx > 1 ∨ d.txrx > 1
    · simp only [if_pos hd] at h1 h2 h3 ⊢
      have a1 : c.max_tx ≤ (if d.tx > c.max_tx then d.tx else c.max_tx) := by split_ifs <;> omega
      have a2 : d.tx ≤ (if d.tx > c.max_tx then d.tx else c.max_tx) := by split_ifs <;> omega
      have b1 : c.max_txrx ≤ (if d.txrx > c.max_txrx then d.txrx else c.max_txrx) := by
        split_ifs <;> omega
      have b2 : d.txrx ≤ (if d.txrx > c.max_txrx then d.txrx else c.max_txrx) := by
        split_ifs <;> omega
      refine ⟨le_trans a1 h1, le_trans b1 h2, ?_⟩
      intro x hx hq
      rcases List.mem_cons.mp hx with rfl | hx
      · exact ⟨le_trans a2 h1, le_trans b2 h2⟩
      · exact h3 x hx hq
    · simp only [if_neg hd] at h1 h2 h3 ⊢
      refine ⟨h1, h2, ?_⟩
      intro x hx hq
      rcases List.mem_cons.mp hx with rfl | hx
      · exact absurd hq hd
      · exact h3 x hx hq

theorem heur_count_max_stable (l : List dev) : ∀ (c : conf_t) (e s : Int),
    (∀ d ∈ l, (d.rx > 1 ∨ d.tx > 1 ∨ d.txrx > 1) → d.tx ≤ c.max_tx ∧ d.txrx ≤ c.max_txrx) →
    (l.foldl heur_count (c, e, s)).1.max_tx = c.max_tx ∧
    (l.foldl heur_count (c, e, s)).1.max_txrx = c.max_txrx := by
  induction l with
  | nil => intro c e s _; simp
  | cons d rest ih =>
    intro c e s h
    rw [List.foldl_cons, heur_count_eq]
    by_cases hd : d.rx > 1 ∨ d.tx > 1 ∨ d.txrx > 1
    · obtain ⟨k1, k2⟩ := h d (List.mem_cons_self _ _) hd
      have a1 : (if d.tx > c.max_tx then d.tx else c.max_tx) = c.max_tx := by
        split_ifs <;> omega
      have b1 : (if d.txrx > c.max_txrx then d.txrx else c.max_txrx) = c.max_txrx := by
        split_ifs <;> omega
      simp only [if_pos hd, a1, b1]
      exact ih _ _ _ (fun x hx hq => h x (List.mem_cons_of_mem _ hx) hq)
    · simp only [if_neg hd]
      exact ih _ _ _ (fun x hx hq => h x (List.mem_cons_of_mem _ hx) hq)

/-- The first loop of `set_heuristics` does not read the flags of the devices. -/
theorem heur_count_flags (a b : dev → Int) (l : List dev) (acc : conf_t × Int × Int) :
    (l.map fun d => { d with use_rps := a d, rr_multi := b d }).foldl heur_count acc =
      l.foldl heur_count acc := by
  rw [List.foldl_map]
  rfl

/-- The configuration `set_heuristics` leaves, field by field. -/
theorem set_heuristics_conf (c : conf_t) (v : var_t) (l : List dev) (t : List event) :
    (set_heuristics c v l t).1.heuristics = c.heuristics ∧
    (set_heuristics c v l t).1.num_mq =
      c.num_mq + (l.countP fun d => decide (d.rx > 1 ∨ d.tx > 1 ∨ d.txrx > 1)) ∧
    (set_heuristics c v l t).1.max_tx =
      max (l.foldl heur_count (c, 0, 0)).1.max_tx (l.foldl heur_count (c, 0, 0)).1.max_txrx ∧
    (set_heuristics c v l t).1.max_txrx = (l.foldl heur_count (c, 0, 0)).1.max_txrx ∧
    (set_heuristics c v l t).1.rr_single =
      if c.heuristics ≠ 0 ∧ ((∃ d ∈ l, d.rx > 1 ∨ d.tx > 1 ∨ d.txrx > 1) ∨
          (v.nr_use_cpu > 1 ∧ (l.length : Int) > 2)) then 1 else c.rr_single := by
  unfold set_heuristics
  simp only [heur_max_heuristics, heur_count_heuristics]
  obtain ⟨m1, m2, m3, m4⟩ := heur_max_fields (l.foldl heur_count (c, 0, 0)).1
  obtain ⟨f1, f2⟩ := heur_count_fields l c 0 0
  by_cases h0 : c.heuristics = 0
  · simp only [if_pos h0]
    refine ⟨heur_max_heuristics _ |>.trans (heur_count_heuristics l c 0 0), m1.trans f1, m4, m3, ?_⟩
    rw [m2, f2, if_neg (fun h => h.1 h0)]
  · simp only [if_neg h0]
    obtain ⟨r1, r2, r3, r4, r5⟩ := heur_rr_single_fields
      (heur_max (l.foldl heur_count (c, 0, 0)).1) v (l.foldl heur_count (c, 0, 0)).2.1 l.length
    refine ⟨r2.trans (heur_max_heuristics _ |>.trans (heur_count_heuristics l c 0 0)),
      r1.trans (m1.trans f1), r3.trans m4, r4.trans m3, ?_⟩
    rw [r5, m2, f2, heur_count_exists_mq]
    simp only [exists_mq_ne_zero]
    by_cases hc : (∃ d ∈ l, d.rx > 1 ∨ d.tx > 1 ∨ d.txrx > 1) ∨
        (v.nr_use_cpu > 1 ∧ (l.length : Int) > 2)
    · rw [if_pos hc, if_pos ⟨h0, hc⟩]
    · rw [if_neg hc, if_neg (fun h => hc h.2)]

/-- The devices `set_heuristics` leaves, flag by flag. -/
theorem set_heuristics_devs_eq (c : conf_t) (v : var_t) (l : List dev) (t : List event) :
    (set_heuristics c v l t).2.1 =
      l.map fun d =>
        { d with
          use_rps := flag_use_rps c l d
          rr_multi := flag_rr_multi (set_heuristics c v l t).1 v d } := by
  rw [set_heuristics_devs]
  have hh := (set_heuristics_conf c v l t).1
  by_cases h0 : c.heuristics = 0
  · rw [if_pos h0]
    conv_lhs => rw [← List.map_id l]
    apply List.map_congr_left
    intro d _
    have e1 : flag_use_rps c l d = d.use_rps := by
      unfold flag_use_rps; rw [if_neg (fun h => h.1 h0)]
    have e2 : flag_rr_multi (set_heuristics c v l t).1 v d = d.rr_multi := by
      unfold flag_rr_multi; rw [if_neg (fun h => h.1 (hh.trans h0))]
    rw [e1, e2]; rfl
  · rw [if_neg h0]
    have hh0 : (set_heuristics c v l t).1.heuristics ≠ 0 := by rw [hh]; exact h0
    have e2 : ∀ d : dev, (heur_rr_multi (set_heuristics c v l t).1 v d) =
        { d with rr_multi := flag_rr_multi (set_heuristics c v l t).1 v d } := by
      intro d
      rw [heur_rr_multi_eq]
      unfold flag_rr_multi
      congr 1
      simp only [hh0, ne_eq, not_false_eq_true, true_and]
    by_cases hs : (∃ x ∈ l, x.rx > 1 ∨ x.tx > 1 ∨ x.txrx > 1) ∨ l.length = 1
    · rw [if_pos hs, List.map_map]
      apply List.map_congr_left
      intro d _
      simp only [Function.comp_apply]
      rw [e2, heur_rps_eq]
      have e1 : flag_use_rps c l d = if d.rps ≠ 0 ∧ d.rx = 1 then 1 else d.use_rps := by
        unfold flag_use_rps
        by_cases hc : d.rps ≠ 0 ∧ d.rx = 1
        · rw [if_pos ⟨h0, hs, hc⟩, if_pos hc]
        · rw [if_neg (fun h => hc h.2.2), if_neg hc]
      rw [e1]
      rfl
    · rw [if_neg hs]
      apply List.map_congr_left
      intro d _
      rw [e2]
      have e1 : flag_use_rps c l d = d.use_rps := by
        unfold flag_use_rps; rw [if_neg (fun h => hs h.2.1)]
      rw [e1]
set_option maxRecDepth 100000 in
/-- C17, counterexample: for the one device `eth0` with two receive and four transmit
queues on an 8-CPU machine, one application of `set_heuristics` leaves `rr_multi` clear
(`num_mq` is 1), a second application counts the device again (`num_mq` is 2) and sets
`rr_multi`. -/
theorem C17_second_application_sets_rr_multi :
    heur_flags (set_heuristics conf_default (var_of_cpus 8) [dev_rx2_tx4] []) = (1, [(0, 0)]) ∧
    heur_flags (heur_twice conf_default (var_of_cpus 8) [dev_rx2_tx4] []) = (1, [(0, 1)]) ∧
    (set_heuristics conf_default (var_of_cpus 8) [dev_rx2_tx4] []).1.num_mq = 1 ∧
    (heur_twice conf_default (var_of_cpus 8) [dev_rx2_tx4] []).1.num_mq = 2 := by
  decide

/-- C17, amended: a second application of `set_heuristics` leaves `rr_single` and every
`use_rps` flag as the first one left them, and every `rr_multi` flag too when the list
has no device with several queues of a kind or `num_mq` was above 1 after the first
application. -/
theorem C17_heuristics_idempotent_amended (c : conf_t) (v : var_t) (l : List dev)
    (t : List event) :
    (heur_twice c v l t).1.rr_single = (set_heuristics c v l t).1.rr_single ∧
    (heur_twice c v l t).2.1.map dev.use_rps = (set_heuristics c v l t).2.1.map dev.use_rps ∧
    (((∀ d ∈ l, ¬ (d.rx > 1 ∨ d.tx > 1 ∨ d.txrx > 1)) ∨ 1 < (set_heuristics c v l t).1.num_mq) →
      (heur_twice c v l t).2.1.map dev.rr_multi =
        (set_heuristics c v l t).2.1.map dev.rr_multi) := by
  obtain ⟨a1, a2, a3, a4, a5⟩ := set_heuristics_conf c v l t
  have hl := set_heuristics_devs_eq c v l t
  generalize hc1 : (set_heuristics c v l t).1 = c1 at a1 a2 a3 a4 a5 hl
  generalize hg : (fun d : dev =>
    ({ d with use_rps := flag_use_rps c l d, rr_multi := flag_rr_multi c1 v d } : dev)) = g at hl
  have g_rx : ∀ d, (g d).rx = d.rx := by intro d; rw [← hg]
  have g_tx : ∀ d, (g d).tx = d.tx := by intro d; rw [← hg]
  have g_txrx : ∀ d, (g d).txrx = d.txrx := by intro d; rw [← hg]
  have g_rps : ∀ d, (g d).rps = d.rps := by intro d; rw [← hg]
  have g_single : ∀ d, (g d).single = d.single := by intro d; rw [← hg]
  have g_use : ∀ d, (g d).use_rps = flag_use_rps c l d := by intro d; rw [← hg]
  have g_rr : ∀ d, (g d).rr_multi = flag_rr_multi c1 v d := by intro d; rw [← hg]
  have hE : (∃ x ∈ l.map g, x.rx > 1 ∨ x.tx > 1 ∨ x.txrx > 1) ↔
      ∃ x ∈ l, x.rx > 1 ∨ x.tx > 1 ∨ x.txrx > 1 := by
    simp only [List.mem_map, exists_exists_and_eq_and, g_rx, g_tx, g_txrx]
  have hcount : (l.map g).countP (fun d => decide (d.rx > 1 ∨ d.tx > 1 ∨ d.txrx > 1)) =
      l.countP (fun d => decide (d.rx > 1 ∨ d.tx > 1 ∨ d.txrx > 1)) := by
    rw [List.countP_map]
    congr 1
    funext d
    simp only [Function.comp_apply, g_rx, g_tx, g_txrx]
  have hfold : (l.map g).foldl heur_count (c1, 0, 0) = l.foldl heur_count (c1, 0, 0) := by
    rw [← hg]
    exact heur_count_flags _ _ l _
  obtain ⟨b1, b2, b3, b4, b5⟩ := set_heuristics_conf c1 v (l.map g) (set_heuristics c v l t).2.2
  have hl2 := set_heuristics_devs_eq c1 v (l.map g) (set_heuristics c v l t).2.2
  have htw : heur_twice c v l t =
      set_heuristics c1 v (l.map g) (set_heuristics c v l t).2.2 := by
    unfold heur_twice
    rw [hc1, hl]
  rw [htw, hl]
  generalize hc2 : (set_heuristics c1 v (l.map g) (set_heuristics c v l t).2.2).1 = c2
    at b1 b2 b3 b4 b5 hl2
  rw [hfold] at b3 b4
  rw [hcount] at b2
  simp only [hE, List.length_map] at b5
  obtain ⟨k1, k2, k3⟩ := heur_count_max_bounds l c 0 0
  have hstable := heur_count_max_stable l c1 0 0 (by
    intro d hd hq
    obtain ⟨q1, q2⟩ := k3 d hd hq
    rw [a3, a4]
    exact ⟨le_trans q1 (le_max_left _ _), q2⟩)
  rw [hstable.1, hstable.2] at b3
  rw [hstable.2] at b4
  have hmax : c2.max_tx = c1.max_tx := by
    rw [b3, a3, a4]
    exact max_eq_left (le_max_right _ _)
  refine ⟨?_, ?_, ?_⟩
  · rw [b5, a5, a1]
    split_ifs <;> rfl
  · rw [hl2, List.map_map, List.map_map, List.map_map]
    apply List.map_congr_left
    intro d _
    simp only [Function.comp_apply, g_use]
    unfold flag_use_rps
    simp only [hE, List.length_map, g_rps, g_rx, g_use, a1]
    unfold flag_use_rps
    split_ifs <;> rfl
  · intro hm
    rw [hl2, List.map_map, List.map_map, List.map_map]
    apply List.map_congr_left
    intro d hd
    simp only [Function.comp_apply, g_rr]
    have hnum : (c2.num_mq > 1) ↔ (c1.num_mq > 1) := by
      rw [b2]
      rcases hm with hm | hm
      · have : l.countP (fun d => decide (d.rx > 1 ∨ d.tx > 1 ∨ d.txrx > 1)) = 0 := by
          rw [List.countP_eq_zero]
          intro x hx
          simpa using hm x hx
        rw [this]; simp
      · constructor
        · intro _; exact hm
        · intro _
          have : (0 : Int) ≤ (l.countP (fun d => decide (d.rx > 1 ∨ d.tx > 1 ∨ d.txrx > 1)) : Nat) :=
            Int.natCast_nonneg _
          omega
    unfold flag_rr_multi
    simp only [g_single, g_rx, g_txrx, g_rr, hmax, hnum, b1]
    unfold flag_rr_multi
    split_ifs <;> rfl

set_option maxRecDepth 100000 in
/-- C17, amended, at the devices `eth0` and `eth1` (two combined queues each) and `eth2`
(four): three devices with several queues, so `num_mq` is 3 after the first
application and the second one changes no flag. -/
theorem C17_heuristics_idempotent_amended_witness :
    1 < (set_heuristics conf_default (var_of_cpus 8) devs_combined []).1.num_mq ∧
    heur_flags (set_heuristics conf_default (var_of_cpus 8) devs_combined [])
      = (1, [(0, 1), (0, 1), (0, 0)]) ∧
    (heur_twice conf_default (var_of_cpus 8) devs_combined []).2.1.map dev.rr_multi =
      (set_heuristics conf_default (var_of_cpus 8) devs_combined []).2.1.map dev.rr_multi :=
  ⟨by decide, by decide,
   (C17_heuristics_idempotent_amended conf_default (var_of_cpus 8) devs_combined []).2.2
     (Or.inr (by decide))⟩

/-! ### What the assign pass leaves in the devices and in `var` -/

/-- The device and the cursor `aff_singleq` leaves, whatever happens to the files. -/
theorem aff_singleq_state (c : conf_t) (fs : fsys) (d : dev) (v : var_t) (t : List event)
    (r : Int × dev × var_t × List event) (h : aff_singleq c fs d v t = some r) :
    r.2.1 = { d with assigned_cpu :=
                if c.rr_single ≠ 0 then Int.tmod v.cur_cpu v.nr_use_cpu + v.cpu_offset
                else v.cpu_offset } ∧
    r.2.2.1 = if c.rr_single ≠ 0 then { v with cur_cpu := v.cur_cpu + 1 } else v := by
  unfold aff_singleq at h
  by_cases hrr : c.rr_single ≠ 0
  · simp only [if_pos hrr, Option.bind_eq_bind, Option.bind_eq_some, Option.pure_def] at h
    obtain ⟨r0, hr0, buf, hbuf, h⟩ := h
    unfold c_mod at hr0
    split_ifs at hr0
    simp only [Option.some.injEq] at hr0
    subst hr0
    rw [if_pos hrr, if_pos hrr]
    by_cases hio : (!(aff_irq_io c fs (v.cur_cpu.tmod v.nr_use_cpu + v.cpu_offset) buf d.name d.numa_node
        (snprintf 256 (d.fn ++ "/smp_affinity".toList)) t).1) = true
    · rw [if_pos hio] at h
      simp only [Option.some.injEq] at h
      subst h
      exact ⟨rfl, rfl⟩
    · rw [if_neg hio] at h
      simp only [Option.some_bind, Option.bind_eq_some] at h
      obtain ⟨b, _, h⟩ := h
      by_cases hu : d.use_rps ≠ 0
      · rw [if_pos hu] at h
        simp only [Option.some.injEq] at h
        subst h
        exact ⟨rfl, rfl⟩
      · rw [if_neg hu] at h
        simp only [Option.some.injEq] at h
        subst h
        exact ⟨rfl, rfl⟩
  · simp only [if_neg hrr, Option.bind_eq_bind, Option.bind_eq_some, Option.pure_def] at h
    obtain ⟨r0, hr0, buf, hbuf, h⟩ := h
    rw [if_neg hrr, if_neg hrr]
    by_cases hio : (!(aff_irq_io c fs v.cpu_offset buf d.name d.numa_node
        (snprintf 256 (d.fn ++ "/smp_affinity".toList)) t).1) = true
    · rw [if_pos hio] at h
      simp only [Option.some.injEq] at h
      subst h
      exact ⟨rfl, rfl⟩
    · rw [if_neg hio] at h
      simp only [Option.some_bind, Option.bind_eq_some] at h
      obtain ⟨b, _, h⟩ := h
      by_cases hu : d.use_rps ≠ 0
      · rw [if_pos hu] at h
        simp only [Option.some.injEq] at h
        subst h
        exact ⟨rfl, rfl⟩
      · rw [if_neg hu] at h
        simp only [Option.some.injEq] at h
        subst h
        exact ⟨rfl, rfl⟩
/-! ### When the assign pass is defined -/

theorem cpu_mask_defined (cpu : Int) (h0 : 0 ≤ cpu) (h1 : cpu < 31) :
    ∃ buf, cpu_mask cpu = some buf := by
  unfold cpu_mask shl_int
  rw [if_pos ⟨h0, h1⟩]
  exact ⟨_, rfl⟩

theorem node_fold_defined (usenode : cpunode) :
    ∀ (L : List Nat) (acc : Nat), (∀ i ∈ L, usenode.at i ≠ 0 → i < 31) →
      ∃ m, L.foldlM
        (fun bitmask i =>
          if usenode.at i ≠ 0 then (shl_int (i : Int)).map fun b => bitmask ||| to_ull b
          else some bitmask) acc = some m := by
  intro L
  induction L with
  | nil => intro acc _; exact ⟨acc, rfl⟩
  | cons x xs ih =>
    intro acc h
    rw [List.foldlM_cons]
    by_cases hx : usenode.at x ≠ 0
    · have hlt : x < 31 := h x (List.mem_cons_self _ _) hx
      have hs : shl_int (x : Int) = some ((2 : Int) ^ (x : Int).toNat) := by
        unfold shl_int
        rw [if_pos ⟨by omega, by omega⟩]
      rw [if_pos hx, hs]
      exact ih _ (fun i hi => h i (List.mem_cons_of_mem _ hi))
    · rw [if_neg hx]
      exact ih _ (fun i hi => h i (List.mem_cons_of_mem _ hi))

/-- On a topology that marks no CPU from 31 on, `node_cpu_mask` is defined for every CPU
of the vector and every offset that is not negative. -/
theorem node_cpu_mask_defined (cpunodes : List cpunode) (off : Int) (buf : List Char)
    (n : Nat) (cpu : Int) (h0 : 0 ≤ cpu) (h1 : cpu < 64) (hoff : 0 ≤ off)
    (htopo : ∀ node ∈ cpunodes, ∀ i, 31 ≤ i → node.at i = 0) :
    ∃ r, node_cpu_mask cpunodes off buf n cpu = some r := by
  unfold node_cpu_mask
  have hc : ¬ (cpunodes ≠ [] ∧ (cpu < 0 ∨ (MAXCPU : Int) ≤ cpu)) := by
    rintro ⟨_, h | h⟩
    · omega
    · simp only [MAXCPU] at h; omega
  rw [if_neg hc]
  cases hf : cpunodes.find? (fun node => node.at cpu.toNat ≠ 0) with
  | none => exact ⟨_, rfl⟩
  | some usenode =>
    have hmem : usenode ∈ cpunodes := List.mem_of_find?_eq_some hf
    simp only [if_neg (not_lt.mpr hoff)]
    obtain ⟨m, hm⟩ := node_fold_defined usenode ((List.range MAXCPU).drop off.toNat) 0
      (fun i _ hi => by
        by_contra hge
        exact hi (htopo usenode hmem i (by omega)))
    rw [hm]
    exact ⟨_, rfl⟩

theorem steer_buf_defined (c : conf_t) (v : var_t) (buf : Option (List Char)) (cpu : Int)
    (h0 : 0 ≤ cpu) (h1 : cpu < 64) (hoff : 0 ≤ v.cpu_offset)
    (htopo : ∀ node ∈ c.cpunodes, ∀ i, 31 ≤ i → node.at i = 0) :
    ∃ b, steer_buf c v buf cpu = some b := by
  unfold steer_buf
  obtain ⟨r, hr⟩ := node_cpu_mask_defined c.cpunodes v.cpu_offset (buf.getD []) 8 cpu h0 h1 hoff
    htopo
  rw [hr]
  by_cases h : r.1 = 0
  · exact ⟨_, if_pos h⟩
  · exact ⟨_, if_neg h⟩

/-- The remainder the code takes of a dividend that is not negative lies in the window. -/
theorem tmod_window (a nr off : Int) (ha : 0 ≤ a) (hnr : 1 ≤ nr) :
    off ≤ Int.tmod a nr + off ∧ Int.tmod a nr + off < off + nr ∧ Int.tmod a nr = a % nr := by
  have e : Int.tmod a nr = a % nr := Int.tmod_eq_emod ha (by omega)
  rw [e]
  have h1 := Int.emod_nonneg a (show nr ≠ 0 by omega)
  have h2 := Int.emod_lt_of_pos a (show 0 < nr by omega)
  omega

/-- The function `aff_singleq` is defined when the window lies below CPU 31, the cursor is
not negative and the topology marks no CPU from 31 on. -/
theorem aff_singleq_defined (c : conf_t) (fs : fsys) (d : dev) (v : var_t) (t : List event)
    (hnr : 1 ≤ v.nr_use_cpu) (hoff : 0 ≤ v.cpu_offset) (hwin : v.cpu_offset + v.nr_use_cpu ≤ 31)
    (hcur : 0 ≤ v.cur_cpu)
    (htopo : ∀ node ∈ c.cpunodes, ∀ i, 31 ≤ i → node.at i = 0) :
    ∃ r, aff_singleq c fs d v t = some r := by
  unfold aff_singleq
  obtain ⟨w1, w2, _⟩ := tmod_window v.cur_cpu v.nr_use_cpu v.cpu_offset hcur hnr
  have fin : ∀ (cpu : Int) (v1 : var_t), 0 ≤ cpu → cpu < 31 →
      ∃ r, ((cpu_mask cpu).bind fun buf =>
        if (!(aff_irq_io c fs cpu buf d.name d.numa_node
            (snprintf 256 (d.fn ++ "/smp_affinity".toList)) t).1) = true then
          some (-1, { d with assigned_cpu := cpu }, v1,
            (aff_irq_io c fs cpu buf d.name d.numa_node
              (snprintf 256 (d.fn ++ "/smp_affinity".toList)) t).2)
        else
          (steer_buf c v (some buf) cpu).bind fun b =>
            if d.use_rps ≠ 0 then
              some ((aff_rps_loop c fs (fun _ => d.name) d.numa_node (b.getD []) d.rpsq
                  (aff_irq_io c fs cpu buf d.name d.numa_node
                    (snprintf 256 (d.fn ++ "/smp_affinity".toList)) t).2).1,
                { d with assigned_cpu := cpu }, v1,
                (aff_rps_loop c fs (fun _ => d.name) d.numa_node (b.getD []) d.rpsq
                  (aff_irq_io c fs cpu buf d.name d.numa_node
                    (snprintf 256 (d.fn ++ "/smp_affinity".toList)) t).2).2)
            else
              some (0, { d with assigned_cpu := cpu }, v1,
                (aff_irq_io c fs cpu buf d.name d.numa_node
                  (snprintf 256 (d.fn ++ "/smp_affinity".toList)) t).2)) = some r := by
    intro cpu v1 h0 h1
    obtain ⟨buf, hb⟩ := cpu_mask_defined cpu h0 h1
    obtain ⟨b, hs⟩ := steer_buf_defined c v (some buf) cpu h0 (by omega) hoff htopo
    rw [hb, Option.some_bind, hs, Option.some_bind]
    split_ifs <;> exact ⟨_, rfl⟩
  by_cases hrr : c.rr_single ≠ 0
  · have hm : c_mod v.cur_cpu v.nr_use_cpu = some (Int.tmod v.cur_cpu v.nr_use_cpu) := by
      unfold c_mod
      rw [if_neg (by omega)]
    obtain ⟨r, hr⟩ := fin (Int.tmod v.cur_cpu v.nr_use_cpu + v.cpu_offset)
      { v with cur_cpu := v.cur_cpu + 1 } (by omega) (by omega)
    refine ⟨r, ?_⟩
    rw [← hr]
    simp [hrr, hm]
  · obtain ⟨r, hr⟩ := fin v.cpu_offset v hoff (by omega)
    refine ⟨r, ?_⟩
    rw [← hr]
    simp [hrr]

theorem cpu_vector_at (n : Int) (S : List Nat) (i : Nat) :
    (cpunode.mk n (cpu_vector S)).at i = if i < 64 ∧ i ∈ S then 1 else 0 := by
  unfold cpunode.at cpu_vector
  by_cases h : i < 64
  · simp [List.getD_eq_getElem?_getD, List.getElem?_map, List.getElem?_range, MAXCPU, h]
  · have hn : (List.range 64)[i]? = none := List.getElem?_eq_none (by simp; omega)
    simp [List.getD_eq_getElem?_getD, List.getElem?_map, MAXCPU, h, hn]

/-- The topology of the sample configuration marks no CPU from 8 on. -/
theorem conf_default_topo :
    ∀ node ∈ conf_default.cpunodes, ∀ i, 31 ≤ i → node.at i = 0 := by
  intro node hn i hi
  simp only [conf_default, List.mem_singleton] at hn
  subst hn
  rw [cpu_vector_at]
  have : ¬ (i < 64 ∧ i ∈ List.range 8) := by
    rintro ⟨_, h⟩
    rw [List.mem_range] at h
    omega
  rw [if_neg this]

/-- What a run of single-queue devices through the assign loop of `main` leaves. -/
theorem assign_pass_singles (c : conf_t) (fs : fsys) :
    ∀ (devs : List dev) (v : var_t) (t : List event) (r : List dev × var_t × List event),
      (∀ d ∈ devs, d.single ≠ 0) → assign_pass c fs devs v t = some r →
      r.1.map dev.assigned_cpu =
        (List.range devs.length).map (fun (k : Nat) =>
          if c.rr_single ≠ 0 then Int.tmod (v.cur_cpu + (k : Int)) v.nr_use_cpu + v.cpu_offset
          else v.cpu_offset) ∧
      r.2.1 = if c.rr_single ≠ 0 then { v with cur_cpu := v.cur_cpu + (devs.length : Int) }
              else v := by
  intro devs
  induction devs with
  | nil =>
    intro v t r _ h
    simp only [assign_pass, Option.some.injEq] at h
    subst h
    by_cases hrr : c.rr_single ≠ 0
    · simp [hrr]
    · simp [hrr]
  | cons d rest ih =>
    intro v t r hs h
    have hd : d.single ≠ 0 := hs d (List.mem_cons_self _ _)
    simp only [assign_pass, if_pos hd] at h
    cases h1 : aff_singleq c fs d v t with
    | none => rw [h1] at h; simp at h
    | some r1 =>
      rw [h1] at h
      simp only at h
      cases h2 : assign_pass c fs rest r1.2.2.1 r1.2.2.2 with
      | none => rw [h2] at h; simp at h
      | some x =>
        rw [h2] at h
        simp only [Option.map_some', Option.some.injEq] at h
        subst h
        obtain ⟨e1, e2⟩ := aff_singleq_state c fs d v t r1 h1
        obtain ⟨i1, i2⟩ := ih r1.2.2.1 r1.2.2.2 x (fun y hy => hs y (List.mem_cons_of_mem _ hy)) h2
        simp only [List.map_cons, List.length_cons, List.range_succ_eq_map, i1, i2, e1, e2]
        by_cases hrr : c.rr_single ≠ 0
        · simp only [if_pos hrr, List.map_map, Nat.cast_zero, add_zero, Nat.cast_add,
            Nat.cast_one]
          refine ⟨?_, ?_⟩
          · congr 1
            apply List.map_congr_left
            intro k _
            simp only [Function.comp_apply, Nat.succ_eq_add_one, Nat.cast_add, Nat.cast_one]
            congr 2
            ring
          · congr 1
            ring
        · simp only [if_neg hrr, List.map_map]
          exact ⟨by congr 1, trivial⟩

/-- The assign loop of `main` is defined on single-queue devices when the window lies below
CPU 31, the cursor is not negative and the topology marks no CPU from 31 on. -/
theorem assign_pass_singles_defined (c : conf_t) (fs : fsys)
    (htopo : ∀ node ∈ c.cpunodes, ∀ i, 31 ≤ i → node.at i = 0) :
    ∀ (devs : List dev) (v : var_t) (t : List event),
      (∀ d ∈ devs, d.single ≠ 0) → 1 ≤ v.nr_use_cpu → 0 ≤ v.cpu_offset →
      v.cpu_offset + v.nr_use_cpu ≤ 31 → 0 ≤ v.cur_cpu →
      ∃ r, assign_pass c fs devs v t = some r := by
  intro devs
  induction devs with
  | nil => intro v t _ _ _ _ _; exact ⟨_, rfl⟩
  | cons d rest ih =>
    intro v t hs hnr hoff hwin hcur
    have hd : d.single ≠ 0 := hs d (List.mem_cons_self _ _)
    obtain ⟨r1, h1⟩ := aff_singleq_defined c fs d v t hnr hoff hwin hcur htopo
    obtain ⟨_, e2⟩ := aff_singleq_state c fs d v t r1 h1
    have hv : r1.2.2.1.nr_use_cpu = v.nr_use_cpu ∧ r1.2.2.1.cpu_offset = v.cpu_offset ∧
        0 ≤ r1.2.2.1.cur_cpu := by
      rw [e2]
      split_ifs
      · exact ⟨rfl, rfl, by show 0 ≤ v.cur_cpu + 1; omega⟩
      · exact ⟨rfl, rfl, hcur⟩
    obtain ⟨x, h2⟩ := ih r1.2.2.1 r1.2.2.2 (fun y hy => hs y (List.mem_cons_of_mem _ hy))
      (by rw [hv.1]; exact hnr) (by rw [hv.2.1]; exact hoff)
      (by rw [hv.1, hv.2.1]; exact hwin) hv.2.2
    refine ⟨(r1.2.1 :: x.1, x.2), ?_⟩
    simp only [assign_pass, if_pos hd, h1, h2, Option.map_some']

/-- C11: the assign loop of `main` over `n` single-queue devices, from the cursor 0 in a
window with `nr_use_cpu >= 1` and `cpu_offset >= 0`, whatever happens to the files: with
`rr_single` set the `k`-th device (from 0) is left with `assigned_cpu`
`(k mod nr_use_cpu) + cpu_offset` and the cursor `cur_cpu` ends at `n`; with `rr_single`
clear every device is left with `cpu_offset` and the cursor is unchanged.  The loop is
defined (no shift by 31 or more) when the window ends at CPU 30 or below on a topology
with no CPU from 31 on. -/
theorem C11_single_queue_round_robin (c : conf_t) (fs : fsys) (devs : List dev) (v : var_t)
    (t : List event) (hsingle : ∀ d ∈ devs, d.single ≠ 0) (huse : 1 ≤ v.nr_use_cpu)
    (hoff : 0 ≤ v.cpu_offset) (hcur : v.cur_cpu = 0) :
    (∀ r, assign_pass c fs devs v t = some r →
      (c.rr_single ≠ 0 →
        r.1.map dev.assigned_cpu =
          (List.range devs.length).map (fun (k : Nat) => (k : Int) % v.nr_use_cpu + v.cpu_offset) ∧
        r.2.1.cur_cpu = devs.length) ∧
      (c.rr_single = 0 →
        r.1.map dev.assigned_cpu = List.replicate devs.length v.cpu_offset ∧
        r.2.1.cur_cpu = v.cur_cpu)) ∧
    (v.cpu_offset + v.nr_use_cpu ≤ 31 →
      (∀ node ∈ c.cpunodes, ∀ i, 31 ≤ i → node.at i = 0) →
      ∃ r, assign_pass c fs devs v t = some r) := by
  refine ⟨?_, ?_⟩
  · intro r h
    obtain ⟨e1, e2⟩ := assign_pass_singles c fs devs v t r hsingle h
    refine ⟨?_, ?_⟩
    · intro hrr
      rw [e1, e2]
      simp only [if_pos hrr, hcur, zero_add]
      refine ⟨?_, trivial⟩
      apply List.map_congr_left
      intro k _
      rw [(tmod_window (k : Int) v.nr_use_cpu v.cpu_offset (Int.natCast_nonneg k) huse).2.2]
    · intro hrr
      have hn : ¬ c.rr_single ≠ 0 := fun h => h hrr
      rw [e1, e2]
      simp only [if_neg hn]
      refine ⟨?_, trivial⟩
      rw [List.eq_replicate_iff]
      simp
  · intro hwin htopo
    exact assign_pass_singles_defined c fs htopo devs v t hsingle huse hoff hwin
      (by rw [hcur])

set_option maxRecDepth 100000 in
/-- C11 at six single-queue devices in the window of `-m 4` on an 8-CPU machine (four
usable CPUs, offset 0), with `rr_single` set: the CPUs are 0, 1, 2, 3, 0, 1 and the cursor
ends at 6. -/
theorem C11_single_queue_round_robin_witness :
    (∀ d ∈ devs_six_plain, d.single ≠ 0) ∧
    (main_window 4 0 (var_of_cpus 8)).nr_use_cpu = 4 ∧
    (main_window 4 0 (var_of_cpus 8)).cpu_offset = 0 ∧
    (main_window 4 0 (var_of_cpus 8)).cur_cpu = 0 ∧
    ∃ r, assign_pass conf_rr_single fs_ok devs_six_plain (main_window 4 0 (var_of_cpus 8)) []
        = some r ∧
      r.1.map dev.assigned_cpu = [0, 1, 2, 3, 0, 1] ∧ r.2.1.cur_cpu = 6 := by
  refine ⟨by decide, by decide, by decide, by decide, ?_⟩
  have h := C11_single_queue_round_robin conf_rr_single fs_ok devs_six_plain
    (main_window 4 0 (var_of_cpus 8)) [] (by decide) (by decide) (by decide) (by decide)
  obtain ⟨r, hr⟩ := h.2 (by decide) conf_default_topo
  obtain ⟨h1, h2⟩ := (h.1 r hr).1 (by decide)
  refine ⟨r, hr, ?_, ?_⟩
  · rw [h1]; decide
  · rw [h2]; decide

/-! ### The queue loops of `aff_multiq`, one round at a time -/

/-- One round of the receive-queue loop. -/
theorem aff_rx_loop_cons (c : conf_t) (fs : fsys) (d : dev) (nr off : Int) (q : queue)
    (rest : List queue) (i : Int) (st : mq_state) :
    aff_rx_loop c fs d nr off (q :: rest) i st =
      (c_mod (if d.rr_multi ≠ 0 then st.cur_mq_cpu else i) nr).bind fun r0 =>
        (cpu_mask (r0 + off)).bind fun buf =>
          if (aff_irq_io c fs (r0 + off) buf q.name d.numa_node
              (snprintf 256 (q.fn ++ "/smp_affinity".toList)) st.trace).1 = true then
            (aff_rx_loop c fs d nr off rest (i + 1)
              ⟨if d.rr_multi ≠ 0 then st.cur_mq_cpu + 1 else st.cur_mq_cpu, r0 + off, some buf,
                (aff_irq_io c fs (r0 + off) buf q.name d.numa_node
                  (snprintf 256 (q.fn ++ "/smp_affinity".toList)) st.trace).2⟩).bind
              fun x => some (x.1, { q with assigned_cpu := r0 + off } :: x.2.1, x.2.2)
          else
            some (-1, { q with assigned_cpu := r0 + off } :: rest,
              ⟨if d.rr_multi ≠ 0 then st.cur_mq_cpu + 1 else st.cur_mq_cpu, r0 + off, some buf,
                (aff_irq_io c fs (r0 + off) buf q.name d.numa_node
                  (snprintf 256 (q.fn ++ "/smp_affinity".toList)) st.trace).2⟩) := by
  simp only [aff_rx_loop]
  generalize (snprintf 256 (q.fn ++ "/smp_affinity".toList)) = fnm
  by_cases hm : d.rr_multi ≠ 0
  · simp only [if_pos hm]
    cases hr : c_mod st.cur_mq_cpu nr with
    | none => simp
    | some r0 =>
      simp only [Option.bind_eq_bind, Option.some_bind]
      cases hb : cpu_mask (r0 + off) with
      | none => simp
      | some buf =>
        cases hio : (aff_irq_io c fs (r0 + off) buf q.name d.numa_node fnm st.trace).1 <;>
          simp [hio, hm]
  · simp only [if_neg hm]
    cases hr : c_mod i nr with
    | none => simp
    | some r0 =>
      simp only [Option.bind_eq_bind, Option.some_bind]
      cases hb : cpu_mask (r0 + off) with
      | none => simp
      | some buf =>
        cases hio : (aff_irq_io c fs (r0 + off) buf q.name d.numa_node fnm st.trace).1 <;>
          simp [hio, hm]

/-- One round of the transmit-queue loop. -/
theorem aff_tx_loop_cons (c : conf_t) (fs : fsys) (d : dev) (nr off : Int) (q : queue)
    (rest : List queue) (i : Int) (st : mq_state) :
    aff_tx_loop c fs d nr off (q :: rest) i st =
      (c_mod i nr).bind fun r0 =>
        (cpu_mask (if d.tx = 1 ∧ d.rx = 1 then st.rps_cpu else r0 + off)).bind fun buf =>
          if (aff_irq_io c fs (if d.tx = 1 ∧ d.rx = 1 then st.rps_cpu else r0 + off) buf q.name
              d.numa_node (snprintf 256 (q.fn ++ "/smp_affinity".toList)) st.trace).1 = true then
            (aff_tx_loop c fs d nr off rest (i + 1)
              { st with
                buf := some buf
                trace := (aff_irq_io c fs (if d.tx = 1 ∧ d.rx = 1 then st.rps_cpu else r0 + off)
                  buf q.name d.numa_node (snprintf 256 (q.fn ++ "/smp_affinity".toList))
                  st.trace).2 }).bind
              fun x => some (x.1, q :: x.2.1, x.2.2)
          else
            some (-1, q :: rest,
              { st with
                buf := some buf
                trace := (aff_irq_io c fs (if d.tx = 1 ∧ d.rx = 1 then st.rps_cpu else r0 + off)
                  buf q.name d.numa_node (snprintf 256 (q.fn ++ "/smp_affinity".toList))
                  st.trace).2 }) := by
  simp only [aff_tx_loop]
  generalize (snprintf 256 (q.fn ++ "/smp_affinity".toList)) = fnm
  cases hr : c_mod i nr with
  | none => simp
  | some r0 =>
    simp only [Option.bind_eq_bind, Option.some_bind]
    generalize (if d.tx = 1 ∧ d.rx = 1 then st.rps_cpu else r0 + off) = cpu
    cases hb : cpu_mask cpu with
    | none => simp
    | some buf =>
      cases hio : (aff_irq_io c fs cpu buf q.name d.numa_node fnm st.trace).1 <;>
        simp [hio]

/-- One round of the combined-queue loop. -/
theorem aff_txrx_loop_cons (c : conf_t) (fs : fsys) (d : dev) (nr off : Int) (q : queue)
    (rest : List queue) (i : Int) (st : mq_state) :
    aff_txrx_loop c fs d nr off (q :: rest) i st =
      (c_mod i nr).bind fun r0 =>
        (cpu_mask (r0 + off)).bind fun buf =>
          if (aff_irq_io c fs (r0 + off) buf q.name d.numa_node
              (snprintf 256 (q.fn ++ "/smp_affinity".toList)) st.trace).1 = true then
            (aff_txrx_loop c fs d nr off rest (i + 1)
              { st with
                rps_cpu := r0 + off
                buf := some buf
                trace := (aff_irq_io c fs (r0 + off) buf q.name d.numa_node
                  (snprintf 256 (q.fn ++ "/smp_affinity".toList)) st.trace).2 }).bind
              fun x => some (x.1, { q with assigned_cpu := r0 + off } :: x.2.1, x.2.2)
          else
            some (-1, { q with assigned_cpu := r0 + off } :: rest,
              { st with
                rps_cpu := r0 + off
                buf := some buf
                trace := (aff_irq_io c fs (r0 + off) buf q.name d.numa_node
                  (snprintf 256 (q.fn ++ "/smp_affinity".toList)) st.trace).2 }) := by
  simp only [aff_txrx_loop]
  generalize (snprintf 256 (q.fn ++ "/smp_affinity".toList)) = fnm
  cases hr : c_mod i nr with
  | none => simp
  | some r0 =>
    simp only [Option.bind_eq_bind, Option.some_bind]
    cases hb : cpu_mask (r0 + off) with
    | none => simp
    | some buf =>
      cases hio : (aff_irq_io c fs (r0 + off) buf q.name d.numa_node fnm st.trace).1 <;>
        simp [hio]

/-- The three queue loops of a run of `aff_multiq`, taken apart. -/
theorem aff_multiq_stages (c : conf_t) (fs : fsys) (d : dev) (v : var_t) (t : List event)
    (r : Int × dev × var_t × List event) (h : aff_multiq c fs d v t = some r) :
    ∃ x, aff_rx_loop c fs d (mq_nr_use_cpu c d v) (mq_cpu_offset c d v) d.rxq
        (mq_nr_use_cpu c d v - mq_cpu_offset c d v) ⟨v.cur_mq_cpu, -1, none, t⟩ = some x ∧
      r.2.1.rxq = x.2.1 ∧
      (x.1 ≠ 0 → r = (x.1, { d with rxq := x.2.1 },
        { v with cur_mq_cpu := x.2.2.cur_mq_cpu }, x.2.2.trace)) ∧
      (x.1 = 0 →
        ∃ y, aff_tx_loop c fs d (mq_nr_use_cpu c d v) (mq_cpu_offset c d v) d.txq
            (mq_nr_use_cpu c d v - mq_cpu_offset c d v) x.2.2 = some y ∧
          r.2.1.txq = y.2.1 ∧
          (y.1 ≠ 0 → r = (y.1, { d with rxq := x.2.1, txq := y.2.1 },
            { v with cur_mq_cpu := y.2.2.cur_mq_cpu }, y.2.2.trace)) ∧
          (y.1 = 0 →
            ∃ z, aff_txrx_loop c fs d (mq_nr_use_cpu c d v) (mq_cpu_offset c d v) d.txrxq
                (mq_nr_use_cpu c d v - mq_cpu_offset c d v) y.2.2 = some z ∧
              r.2.1 = { d with rxq := x.2.1, txq := y.2.1, txrxq := z.2.1 } ∧
              r.2.2.1 = { v with cur_mq_cpu := z.2.2.cur_mq_cpu } ∧
              (z.1 ≠ 0 → r.1 = z.1 ∧ r.2.2.2 = z.2.2.trace))) := by
  unfold aff_multiq at h
  unfold mq_nr_use_cpu mq_cpu_offset
  dsimp only at h
  generalize (if c.reserve_mq = 0 ∧ d.rx + d.txrx > 1 then v.nr_cpu else v.nr_use_cpu) = nr at h ⊢
  generalize (if c.reserve_mq = 0 ∧ d.rx + d.txrx > 1 then 0 else v.cpu_offset) = off at h ⊢
  cases e1 : aff_rx_loop c fs d nr off d.rxq (nr - off) ⟨v.cur_mq_cpu, -1, none, t⟩ with
  | none => rw [e1] at h; simp at h
  | some x =>
    rw [e1] at h
    refine ⟨x, rfl, ?_⟩
    by_cases hx : x.1 = 0
    swap
    · simp [hx] at h
      subst h
      exact ⟨rfl, fun _ => rfl, fun h0 => absurd h0 hx⟩
    · simp [hx] at h
      cases e2 : aff_tx_loop c fs d nr off d.txq (nr - off) x.2.2 with
      | none => rw [e2] at h; simp at h
      | some y =>
        rw [e2] at h
        by_cases hy : y.1 = 0
        swap
        · simp [hy] at h
          subst h
          exact ⟨rfl, fun h0 => absurd hx h0, fun _ => ⟨y, rfl, rfl, fun _ => rfl,
            fun h0 => absurd h0 hy⟩⟩
        · simp [hy] at h
          cases e3 : aff_txrx_loop c fs d nr off d.txrxq (nr - off) y.2.2 with
          | none => rw [e3] at h; simp at h
          | some z =>
            rw [e3] at h
            by_cases hz : z.1 = 0
            swap
            · simp [hz] at h
              subst h
              exact ⟨rfl, fun h0 => absurd hx h0, fun _ => ⟨y, rfl, rfl,
                fun h0 => absurd hy h0, fun _ => ⟨z, e3, rfl, rfl, fun _ => ⟨rfl, rfl⟩⟩⟩⟩
            · simp [hz] at h
              have fin : r.2.1 = { d with rxq := x.2.1, txq := y.2.1, txrxq := z.2.1 } ∧
                  r.2.2.1 = { v with cur_mq_cpu := z.2.2.cur_mq_cpu } := by
                by_cases hu : d.use_rps = 0
                · rw [if_pos hu] at h
                  simp only [Option.some.injEq] at h
                  subst h
                  exact ⟨rfl, rfl⟩
                · rw [if_neg hu] at h
                  simp only [Option.bind_eq_some] at h
                  obtain ⟨b, _, h⟩ := h
                  split at h
                  · simp only [Option.some.injEq] at h; subst h; exact ⟨rfl, rfl⟩
                  · simp at h
                  · simp only [Option.some.injEq] at h; subst h; exact ⟨rfl, rfl⟩
              refine ⟨by rw [fin.1], fun h0 => absurd hx h0, fun _ => ⟨y, rfl, by rw [fin.1],
                fun h0 => absurd hy h0, fun _ => ⟨z, e3, fin.1, fin.2, fun h0 => absurd hz h0⟩⟩⟩

theorem c_mod_some (a b r : Int) (h : c_mod a b = some r) : b ≠ 0 ∧ r = Int.tmod a b := by
  unfold c_mod at h
  split_ifs at h with hb
  simp only [Option.some.injEq] at h
  exact ⟨hb, h.symm⟩

/-- The receive-queue loop of a device that takes its CPUs from the cursor: the queues up
to the first one whose file fails have their CPU, the cursor has moved by their number,
and `rps_cpu` and `buf` are those of the last queue handled. -/
theorem aff_rx_loop_state_rr (c : conf_t) (fs : fsys) (d : dev) (nr off : Int)
    (hrr : d.rr_multi ≠ 0) :
    ∀ (qs : List queue) (i : Int) (st : mq_state) (x : Int × List queue × mq_state),
      aff_rx_loop c fs d nr off qs i st = some x →
      ∃ m : Nat, m ≤ qs.length ∧ (x.1 = 0 → m = qs.length) ∧ (qs ≠ [] → 0 < m) ∧
        x.2.1 = assign_first (fun j => Int.tmod j nr + off) m st.cur_mq_cpu qs ∧
        x.2.2.cur_mq_cpu = st.cur_mq_cpu + m ∧
        (m = 0 → x.2.2.rps_cpu = st.rps_cpu ∧ x.2.2.buf = st.buf) ∧
        (0 < m → x.2.2.rps_cpu = Int.tmod (st.cur_mq_cpu + m - 1) nr + off ∧
          x.2.2.buf = cpu_mask x.2.2.rps_cpu) := by
  intro qs
  induction qs with
  | nil =>
    intro i st x h
    simp only [aff_rx_loop, Option.some.injEq] at h
    subst h
    exact ⟨0, le_refl _, fun _ => rfl, fun h => absurd rfl h, rfl, by simp, fun _ => ⟨rfl, rfl⟩,
      fun h => absurd h (lt_irrefl 0)⟩
  | cons q rest ih =>
    intro i st x h
    rw [aff_rx_loop_cons] at h
    simp only [if_pos hrr, Option.bind_eq_some] at h
    obtain ⟨r0, hr0, buf, hbuf, h⟩ := h
    obtain ⟨_, hr⟩ := c_mod_some _ _ _ hr0
    subst hr
    by_cases hio : (aff_irq_io c fs (Int.tmod st.cur_mq_cpu nr + off) buf q.name d.numa_node
        (snprintf 256 (q.fn ++ "/smp_affinity".toList)) st.trace).1 = true
    · rw [if_pos hio] at h
      simp only [Option.bind_eq_some, Option.some.injEq] at h
      obtain ⟨y, hy, h⟩ := h
      subst h
      obtain ⟨m, m1, m2, m3, m4, m5, m6, m7⟩ := ih _ _ _ hy
      simp only at m4 m5 m6 m7
      refine ⟨m + 1, by simp only [List.length_cons]; omega, ?_, fun _ => Nat.succ_pos _, ?_, ?_,
        fun h => absurd h (Nat.succ_ne_zero _), fun _ => ?_⟩
      · intro h0
        simp only [List.length_cons]
        rw [m2 h0]
      · simp only [assign_first, m4]
      · simp only [m5]
        push_cast; ring
      · by_cases hm : m = 0
        · obtain ⟨k1, k2⟩ := m6 hm
          subst hm
          simp only [k1, k2, zero_add, Nat.cast_one, add_sub_cancel_right, hbuf]
          exact ⟨trivial, trivial⟩
        · obtain ⟨k1, k2⟩ := m7 (Nat.pos_of_ne_zero hm)
          refine ⟨?_, k2⟩
          simp only [k1]
          congr 2
          push_cast
          ring
    · rw [if_neg hio] at h
      simp only [Option.some.injEq] at h
      subst h
      refine ⟨1, by simp, fun h0 => by simp at h0, fun _ => Nat.one_pos, ?_, ?_,
        fun h => absurd h Nat.one_ne_zero, fun _ => ?_⟩
      · simp only [assign_first]
      · simp
      · simp only [Nat.cast_one, add_sub_cancel_right, hbuf]
        exact ⟨trivial, trivial⟩

/-- The receive-queue loop of a device that does not take its CPUs from the cursor: the
queues up to the first one whose file fails have their CPU, the cursor is unchanged, and
`rps_cpu` and `buf` are those of the last queue handled. -/
theorem aff_rx_loop_state_linear (c : conf_t) (fs : fsys) (d : dev) (nr off : Int)
    (hrr : d.rr_multi = 0) :
    ∀ (qs : List queue) (i : Int) (st : mq_state) (x : Int × List queue × mq_state),
      aff_rx_loop c fs d nr off qs i st = some x →
      ∃ m : Nat, m ≤ qs.length ∧ (x.1 = 0 → m = qs.length) ∧ (qs ≠ [] → 0 < m) ∧
        x.2.1 = assign_first (fun j => Int.tmod j nr + off) m i qs ∧
        x.2.2.cur_mq_cpu = st.cur_mq_cpu ∧
        (m = 0 → x.2.2.rps_cpu = st.rps_cpu ∧ x.2.2.buf = st.buf) ∧
        (0 < m → x.2.2.rps_cpu = Int.tmod (i + m - 1) nr + off ∧
          x.2.2.buf = cpu_mask x.2.2.rps_cpu) := by
  have hn : ¬ d.rr_multi ≠ 0 := fun h => h hrr
  intro qs
  induction qs with
  | nil =>
    intro i st x h
    simp only [aff_rx_loop, Option.some.injEq] at h
    subst h
    exact ⟨0, le_refl _, fun _ => rfl, fun h => absurd rfl h, rfl, rfl, fun _ => ⟨rfl, rfl⟩,
      fun h => absurd h (lt_irrefl 0)⟩
  | cons q rest ih =>
    intro i st x h
    rw [aff_rx_loop_cons] at h
    simp only [if_neg hn, Option.bind_eq_some] at h
    obtain ⟨r0, hr0, buf, hbuf, h⟩ := h
    obtain ⟨_, hr⟩ := c_mod_some _ _ _ hr0
    subst hr
    by_cases hio : (aff_irq_io c fs (Int.tmod i nr + off) buf q.name d.numa_node
        (snprintf 256 (q.fn ++ "/smp_affinity".toList)) st.trace).1 = true
    · rw [if_pos hio] at h
      simp only [Option.bind_eq_some, Option.some.injEq] at h
      obtain ⟨y, hy, h⟩ := h
      subst h
      obtain ⟨m, m1, m2, m3, m4, m5, m6, m7⟩ := ih _ _ _ hy
      simp only at m4 m5 m6 m7
      refine ⟨m + 1, by simp only [List.length_cons]; omega, ?_, fun _ => Nat.succ_pos _, ?_, m5,
        fun h => absurd h (Nat.succ_ne_zero _), fun _ => ?_⟩
      · intro h0
        simp only [List.length_cons]
        rw [m2 h0]
      · simp only [assign_first, m4]
      · by_cases hm : m = 0
        · obtain ⟨k1, k2⟩ := m6 hm
          subst hm
          simp only [k1, k2, zero_add, Nat.cast_one, add_sub_cancel_right, hbuf]
          exact ⟨trivial, trivial⟩
        · obtain ⟨k1, k2⟩ := m7 (Nat.pos_of_ne_zero hm)
          refine ⟨?_, k2⟩
          simp only [k1]
          congr 2
          push_cast
          ring
    · rw [if_neg hio] at h
      simp only [Option.some.injEq] at h
      subst h
      refine ⟨1, by simp, fun h0 => by simp at h0, fun _ => Nat.one_pos, ?_, rfl,
        fun h => absurd h Nat.one_ne_zero, fun _ => ?_⟩
      · simp only [assign_first]
      · simp only [Nat.cast_one, add_sub_cancel_right, hbuf]
        exact ⟨trivial, trivial⟩

/-- The transmit-queue loop leaves the queues, the cursor and `rps_cpu` as they were. -/
theorem aff_tx_loop_state (c : conf_t) (fs : fsys) (d : dev) (nr off : Int) :
    ∀ (qs : List queue) (i : Int) (st : mq_state) (x : Int × List queue × mq_state),
      aff_tx_loop c fs d nr off qs i st = some x →
      x.2.1 = qs ∧ x.2.2.cur_mq_cpu = st.cur_mq_cpu ∧ x.2.2.rps_cpu = st.rps_cpu ∧
      (qs = [] → x.2.2.buf = st.buf) ∧ (qs ≠ [] → ∃ b, x.2.2.buf = some b) := by
  intro qs
  induction qs with
  | nil =>
    intro i st x h
    simp only [aff_tx_loop, Option.some.injEq] at h
    subst h
    exact ⟨rfl, rfl, rfl, fun _ => rfl, fun h => absurd rfl h⟩
  | cons q rest ih =>
    intro i st x h
    rw [aff_tx_loop_cons] at h
    simp only [Option.bind_eq_some] at h
    obtain ⟨r0, hr0, buf, hbuf, h⟩ := h
    generalize (if d.tx = 1 ∧ d.rx = 1 then st.rps_cpu else r0 + off) = cpu at h hbuf
    by_cases hio : (aff_irq_io c fs cpu buf q.name d.numa_node
        (snprintf 256 (q.fn ++ "/smp_affinity".toList)) st.trace).1 = true
    · rw [if_pos hio] at h
      simp only [Option.bind_eq_some, Option.some.injEq] at h
      obtain ⟨y, hy, h⟩ := h
      subst h
      obtain ⟨k1, k2, k3, k4, k5⟩ := ih _ _ _ hy
      simp only at k2 k3 k4 k5
      refine ⟨by simp only [k1], k2, k3, fun h => by simp at h, fun _ => ?_⟩
      by_cases hr : rest = []
      · exact ⟨buf, k4 hr⟩
      · exact k5 hr
    · rw [if_neg hio] at h
      simp only [Option.some.injEq] at h
      subst h
      exact ⟨rfl, rfl, rfl, fun h => by simp at h, fun _ => ⟨buf, rfl⟩⟩

/-- What the combined-queue loop leaves: the queues up to the first one whose file fails
have their CPU, the cursor is unchanged, and `rps_cpu` and `buf` are those of the last
queue handled. -/
theorem aff_txrx_loop_state (c : conf_t) (fs : fsys) (d : dev) (nr off : Int) :
    ∀ (qs : List queue) (i : Int) (st : mq_state) (x : Int × List queue × mq_state),
      aff_txrx_loop c fs d nr off qs i st = some x →
      ∃ m : Nat, m ≤ qs.length ∧ (x.1 = 0 → m = qs.length) ∧ (qs ≠ [] → 0 < m) ∧
        x.2.1 = assign_first (fun j => Int.tmod j nr + off) m i qs ∧
        x.2.2.cur_mq_cpu = st.cur_mq_cpu ∧
        (m = 0 → x.2.2.rps_cpu = st.rps_cpu ∧ x.2.2.buf = st.buf) ∧
        (0 < m → x.2.2.rps_cpu = Int.tmod (i + m - 1) nr + off ∧
          x.2.2.buf = cpu_mask x.2.2.rps_cpu) := by
  intro qs
  induction qs with
  | nil =>
    intro i st x h
    simp only [aff_txrx_loop, Option.some.injEq] at h
    subst h
    exact ⟨0, le_refl _, fun _ => rfl, fun h => absurd rfl h, rfl, rfl, fun _ => ⟨rfl, rfl⟩,
      fun h => absurd h (lt_irrefl 0)⟩
  | cons q rest ih =>
    intro i st x h
    rw [aff_txrx_loop_cons] at h
    simp only [Option.bind_eq_some] at h
    obtain ⟨r0, hr0, buf, hbuf, h⟩ := h
    obtain ⟨_, hr⟩ := c_mod_some _ _ _ hr0
    subst hr
    by_cases hio : (aff_irq_io c fs (Int.tmod i nr + off) buf q.name d.numa_node
        (snprintf 256 (q.fn ++ "/smp_affinity".toList)) st.trace).1 = true
    · rw [if_pos hio] at h
      simp only [Option.bind_eq_some, Option.some.injEq] at h
      obtain ⟨y, hy, h⟩ := h
      subst h
      obtain ⟨m, m1, m2, m3, m4, m5, m6, m7⟩ := ih _ _ _ hy
      simp only at m4 m5 m6 m7
      refine ⟨m + 1, by simp only [List.length_cons]; omega, ?_, fun _ => Nat.succ_pos _, ?_, m5,
        fun h => absurd h (Nat.succ_ne_zero _), fun _ => ?_⟩
      · intro h0
        simp only [List.length_cons]
        rw [m2 h0]
      · simp only [assign_first, m4]
      · by_cases hm : m = 0
        · obtain ⟨k1, k2⟩ := m6 hm
          subst hm
          simp only [k1, k2, zero_add, Nat.cast_one, add_sub_cancel_right, hbuf]
          exact ⟨trivial, trivial⟩
        · obtain ⟨k1, k2⟩ := m7 (Nat.pos_of_ne_zero hm)
          refine ⟨?_, k2⟩
          simp only [k1]
          congr 2
          push_cast
          ring
    · rw [if_neg hio] at h
      simp only [Option.some.injEq] at h
      subst h
      refine ⟨1, by simp, fun h0 => by simp at h0, fun _ => Nat.one_pos, ?_, rfl,
        fun h => absurd h Nat.one_ne_zero, fun _ => ?_⟩
      · simp only [assign_first]
      · simp only [Nat.cast_one, add_sub_cancel_right, hbuf]
        exact ⟨trivial, trivial⟩

/-- The CPUs of the queues that `assign_first` has handled all of. -/
theorem assign_first_all (f : Int → Int) :
    ∀ (qs : List queue) (i : Int),
      (assign_first f qs.length i qs).map queue.assigned_cpu =
        (List.range qs.length).map fun (p : Nat) => f (i + p) := by
  intro qs
  induction qs with
  | nil => intro i; rfl
  | cons q rest ih =>
    intro i
    simp only [List.length_cons, assign_first, List.map_cons, ih, List.range_succ_eq_map,
      List.map_map, Nat.cast_zero, add_zero]
    congr 1
    apply List.map_congr_left
    intro p _
    simp only [Function.comp_apply, Nat.succ_eq_add_one, Nat.cast_add, Nat.cast_one]
    congr 1
    ring

/-- The first queue that `assign_first` handles gets the CPU `f i`; the names stay. -/
theorem assign_first_head (f : Int → Int) (m : Nat) (hm : 0 < m) (i : Int) (q : queue)
    (rest : List queue) :
    (assign_first f m i (q :: rest)).head? = some { q with assigned_cpu := f i } := by
  cases m with
  | zero => exact absurd hm (lt_irrefl 0)
  | succ k => rfl

/-- The remainder the code takes lies strictly between minus the divisor and the divisor. -/
theorem tmod_bounds (a nr : Int) (hnr : 1 ≤ nr) :
    -nr < Int.tmod a nr ∧ Int.tmod a nr < nr ∧ (0 ≤ a → 0 ≤ Int.tmod a nr) := by
  refine ⟨?_, Int.tmod_lt_of_pos a (by omega), fun h => Int.tmod_nonneg nr h⟩
  obtain ⟨n, rfl⟩ := Int.eq_ofNat_of_zero_le (show 0 ≤ nr by omega)
  have hn : 0 < n := by omega
  cases a with
  | ofNat m =>
    have h0 : 0 ≤ Int.tmod (Int.ofNat m) (n : Int) := Int.tmod_nonneg _ (Int.ofNat_nonneg m)
    omega
  | negSucc m =>
    have h1 : Int.tmod (Int.negSucc m) (n : Int) = -(((m + 1) % n : Nat) : Int) := rfl
    have h2 := Nat.mod_lt (m + 1) hn
    rw [h1]
    omega

/-- The CPU a queue loop computes lies in `0 .. 30` when the window ends at CPU 30 or
below and the dividend is not negative or the offset is at least the usable count. -/
theorem loop_cpu_bounds (a nr off : Int) (hnr : 1 ≤ nr) (hoff : 0 ≤ off) (hwin : off + nr ≤ 31)
    (ha : 0 ≤ a ∨ nr ≤ off) : 0 ≤ Int.tmod a nr + off ∧ Int.tmod a nr + off < 31 := by
  obtain ⟨b1, b2, b3⟩ := tmod_bounds a nr hnr
  rcases ha with ha | ha
  · have := b3 ha
    omega
  · omega

/-- The receive-queue loop is defined when the window ends at CPU 30 or below and the
dividend of its first round is not negative or the offset is at least the usable count. -/
theorem aff_rx_loop_defined (c : conf_t) (fs : fsys) (d : dev) (nr off : Int) (hnr : 1 ≤ nr)
    (hoff : 0 ≤ off) (hwin : off + nr ≤ 31) :
    ∀ (qs : List queue) (i : Int) (st : mq_state),
      (0 ≤ (if d.rr_multi ≠ 0 then st.cur_mq_cpu else i) ∨ nr ≤ off) →
      ∃ x, aff_rx_loop c fs d nr off qs i st = some x := by
  intro qs
  induction qs with
  | nil => intro i st _; exact ⟨_, rfl⟩
  | cons q rest ih =>
    intro i st ha
    rw [aff_rx_loop_cons]
    have fin : ∀ (start cur1 : Int), (0 ≤ start ∨ nr ≤ off) →
        (0 ≤ (if d.rr_multi ≠ 0 then cur1 else i + 1) ∨ nr ≤ off) →
        ∃ x, ((c_mod start nr).bind fun r0 =>
          (cpu_mask (r0 + off)).bind fun buf =>
            if (aff_irq_io c fs (r0 + off) buf q.name d.numa_node
                (snprintf 256 (q.fn ++ "/smp_affinity".toList)) st.trace).1 = true then
              (aff_rx_loop c fs d nr off rest (i + 1)
                ⟨cur1, r0 + off, some buf,
                  (aff_irq_io c fs (r0 + off) buf q.name d.numa_node
                    (snprintf 256 (q.fn ++ "/smp_affinity".toList)) st.trace).2⟩).bind
                fun x => some (x.1, { q with assigned_cpu := r0 + off } :: x.2.1, x.2.2)
            else
              some (-1, { q with assigned_cpu := r0 + off } :: rest,
                ⟨cur1, r0 + off, some buf,
                  (aff_irq_io c fs (r0 + off) buf q.name d.numa_node
                    (snprintf 256 (q.fn ++ "/smp_affinity".toList)) st.trace).2⟩)) = some x := by
      intro start cur1 h1 h2
      have hm : c_mod start nr = some (Int.tmod start nr) := by
        unfold c_mod
        rw [if_neg (by omega)]
      obtain ⟨b0, b1⟩ := loop_cpu_bounds start nr off hnr hoff hwin h1
      obtain ⟨buf, hb⟩ := cpu_mask_defined _ b0 b1
      rw [hm, Option.some_bind, hb, Option.some_bind]
      split_ifs with hio
      · obtain ⟨y, hy⟩ := ih (i + 1) ⟨cur1, Int.tmod start nr + off, some buf,
          (aff_irq_io c fs (Int.tmod start nr + off) buf q.name d.numa_node
            (snprintf 256 (q.fn ++ "/smp_affinity".toList)) st.trace).2⟩ h2
        rw [hy]
        exact ⟨_, rfl⟩
      · exact ⟨_, rfl⟩
    apply fin _ _ ha
    rcases ha with ha | ha
    · left
      by_cases hrr : d.rr_multi ≠ 0
      · rw [if_pos hrr] at ha ⊢
        rw [if_pos hrr]
        omega
      · rw [if_neg hrr] at ha ⊢
        omega
    · right; exact ha

/-- The transmit-queue loop is defined when the window ends at CPU 30 or below, the
dividend of its first round is not negative or the offset is at least the usable count,
and, for a device with `tx == 1` and `rx == 1`, `rps_cpu` is a CPU in `0 .. 30`. -/
theorem aff_tx_loop_defined (c : conf_t) (fs : fsys) (d : dev) (nr off : Int) (hnr : 1 ≤ nr)
    (hoff : 0 ≤ off) (hwin : off + nr ≤ 31) :
    ∀ (qs : List queue) (i : Int) (st : mq_state),
      (0 ≤ i ∨ nr ≤ off) →
      (d.tx = 1 ∧ d.rx = 1 → 0 ≤ st.rps_cpu ∧ st.rps_cpu < 31) →
      ∃ x, aff_tx_loop c fs d nr off qs i st = some x := by
  intro qs
  induction qs with
  | nil => intro i st _ _; exact ⟨_, rfl⟩
  | cons q rest ih =>
    intro i st ha hrps
    rw [aff_tx_loop_cons]
    have hm : c_mod i nr = some (Int.tmod i nr) := by
      unfold c_mod
      rw [if_neg (by omega)]
    have hcpu : 0 ≤ (if d.tx = 1 ∧ d.rx = 1 then st.rps_cpu else Int.tmod i nr + off) ∧
        (if d.tx = 1 ∧ d.rx = 1 then st.rps_cpu else Int.tmod i nr + off) < 31 := by
      by_cases h11 : d.tx = 1 ∧ d.rx = 1
      · rw [if_pos h11]; exact hrps h11
      · rw [if_neg h11]; exact loop_cpu_bounds i nr off hnr hoff hwin ha
    rw [hm, Option.some_bind]
    generalize (if d.tx = 1 ∧ d.rx = 1 then st.rps_cpu else Int.tmod i nr + off) = cpu at hcpu ⊢
    obtain ⟨buf, hb⟩ := cpu_mask_defined cpu hcpu.1 hcpu.2
    rw [hb, Option.some_bind]
    split_ifs with hio
    · obtain ⟨y, hy⟩ := ih (i + 1)
        { st with
          buf := some buf
          trace := (aff_irq_io c fs cpu buf q.name d.numa_node
            (snprintf 256 (q.fn ++ "/smp_affinity".toList)) st.trace).2 }
        (by rcases ha with ha | ha
            · left; omega
            · right; exact ha) hrps
      rw [hy]
      exact ⟨_, rfl⟩
    · exact ⟨_, rfl⟩

/-- The combined-queue loop is defined when the window ends at CPU 30 or below and the
dividend of its first round is not negative or the offset is at least the usable count. -/
theorem aff_txrx_loop_defined (c : conf_t) (fs : fsys) (d : dev) (nr off : Int) (hnr : 1 ≤ nr)
    (hoff : 0 ≤ off) (hwin : off + nr ≤ 31) :
    ∀ (qs : List queue) (i : Int) (st : mq_state),
      (0 ≤ i ∨ nr ≤ off) →
      ∃ x, aff_txrx_loop c fs d nr off qs i st = some x := by
  intro qs
  induction qs with
  | nil => intro i st _; exact ⟨_, rfl⟩
  | cons q rest ih =>
    intro i st ha
    rw [aff_txrx_loop_cons]
    have hm : c_mod i nr = some (Int.tmod i nr) := by
      unfold c_mod
      rw [if_neg (by omega)]
    obtain ⟨b0, b1⟩ := loop_cpu_bounds i nr off hnr hoff hwin ha
    obtain ⟨buf, hb⟩ := cpu_mask_defined _ b0 b1
    rw [hm, Option.some_bind, hb, Option.some_bind]
    split_ifs with hio
    · obtain ⟨y, hy⟩ := ih (i + 1)
        { st with
          rps_cpu := Int.tmod i nr + off
          buf := some buf
          trace := (aff_irq_io c fs (Int.tmod i nr + off) buf q.name d.numa_node
            (snprintf 256 (q.fn ++ "/smp_affinity".toList)) st.trace).2 }
        (by rcases ha with ha | ha
            · left; omega
            · right; exact ha)
      rw [hy]
      exact ⟨_, rfl⟩
    · exact ⟨_, rfl⟩

/-- After a receive-queue loop that handled a queue, `rps_cpu` is a CPU in `0 .. 30` and
`buf` holds its mask. -/
theorem aff_rx_loop_steer (c : conf_t) (fs : fsys) (d : dev) (nr off : Int) (hnr : 1 ≤ nr)
    (hoff : 0 ≤ off) (hwin : off + nr ≤ 31) (qs : List queue) (i : Int) (st : mq_state)
    (x : Int × List queue × mq_state)
    (ha : 0 ≤ (if d.rr_multi ≠ 0 then st.cur_mq_cpu else i) ∨ nr ≤ off)
    (h : aff_rx_loop c fs d nr off qs i st = some x) (hq : qs ≠ []) :
    0 ≤ x.2.2.rps_cpu ∧ x.2.2.rps_cpu < 31 ∧ ∃ b, x.2.2.buf = some b := by
  have key : ∀ (start : Int) (m : Nat), (0 ≤ start ∨ nr ≤ off) → 0 < m →
      x.2.2.rps_cpu = Int.tmod (start + m - 1) nr + off → x.2.2.buf = cpu_mask x.2.2.rps_cpu →
      0 ≤ x.2.2.rps_cpu ∧ x.2.2.rps_cpu < 31 ∧ ∃ b, x.2.2.buf = some b := by
    intro start m h1 hm e1 e2
    obtain ⟨b0, b1⟩ := loop_cpu_bounds (start + m - 1) nr off hnr hoff hwin
      (by rcases h1 with h1 | h1
          · left; omega
          · right; exact h1)
    rw [← e1] at b0 b1
    obtain ⟨b, hb⟩ := cpu_mask_defined _ b0 b1
    exact ⟨b0, b1, b, by rw [e2, hb]⟩
  by_cases hrr : d.rr_multi ≠ 0
  · obtain ⟨m, _, _, m3, _, _, _, m7⟩ := aff_rx_loop_state_rr c fs d nr off hrr qs i st x h
    rw [if_pos hrr] at ha
    exact key _ m ha (m3 hq) (m7 (m3 hq)).1 (m7 (m3 hq)).2
  · obtain ⟨m, _, _, m3, _, _, _, m7⟩ := aff_rx_loop_state_linear c fs d nr off
      (not_not.mp hrr) qs i st x h
    rw [if_neg hrr] at ha
    exact key _ m ha (m3 hq) (m7 (m3 hq)).1 (m7 (m3 hq)).2

/-- After a combined-queue loop, `rps_cpu` is a CPU in `0 .. 30` and `buf` holds a mask
when the loop handled a queue or that was so before. -/
theorem aff_txrx_loop_steer (c : conf_t) (fs : fsys) (d : dev) (nr off : Int) (hnr : 1 ≤ nr)
    (hoff : 0 ≤ off) (hwin : off + nr ≤ 31) (qs : List queue) (i : Int) (st : mq_state)
    (x : Int × List queue × mq_state) (ha : 0 ≤ i ∨ nr ≤ off)
    (h : aff_txrx_loop c fs d nr off qs i st = some x)
    (hq : qs ≠ [] ∨ (0 ≤ st.rps_cpu ∧ st.rps_cpu < 31 ∧ ∃ b, st.buf = some b)) :
    0 ≤ x.2.2.rps_cpu ∧ x.2.2.rps_cpu < 31 ∧ ∃ b, x.2.2.buf = some b := by
  obtain ⟨m, _, _, m3, _, _, m6, m7⟩ := aff_txrx_loop_state c fs d nr off qs i st x h
  by_cases hm : m = 0
  · obtain ⟨k1, k2⟩ := m6 hm
    rcases hq with hq | hq
    · exact absurd (m3 hq) (by omega)
    · rw [k1, k2]; exact hq
  · have hpos : 0 < m := Nat.pos_of_ne_zero hm
    obtain ⟨e1, e2⟩ := m7 hpos
    obtain ⟨b0, b1⟩ := loop_cpu_bounds (i + m - 1) nr off hnr hoff hwin
      (by rcases ha with ha | ha
          · left; omega
          · right; exact ha)
    rw [← e1] at b0 b1
    obtain ⟨b, hb⟩ := cpu_mask_defined _ b0 b1
    exact ⟨b0, b1, b, by rw [e2, hb]⟩

/-- The function `aff_multiq` is defined when the window the device is given ends at
CPU 30 or below, the cursor is not negative, a device with `tx == 1` and `rx == 1` has a
receive queue, and, when packet steering is on, the device has a receive or combined
queue, the offset is not negative and the topology marks no CPU from 31 on. -/
theorem aff_multiq_defined (c : conf_t) (fs : fsys) (d : dev) (v : var_t) (t : List event)
    (hnr : 1 ≤ mq_nr_use_cpu c d v) (hoff : 0 ≤ mq_cpu_offset c d v)
    (hwin : mq_cpu_offset c d v + mq_nr_use_cpu c d v ≤ 31)
    (hcur : d.rr_multi ≠ 0 → 0 ≤ v.cur_mq_cpu)
    (h11 : d.tx = 1 ∧ d.rx = 1 → d.rxq ≠ [])
    (hsteer : d.use_rps ≠ 0 → (d.rxq ≠ [] ∨ d.txrxq ≠ []) ∧ 0 ≤ v.cpu_offset ∧
      ∀ node ∈ c.cpunodes, ∀ i, 31 ≤ i → node.at i = 0) :
    ∃ r, aff_multiq c fs d v t = some r := by
  unfold mq_nr_use_cpu at hnr hwin
  unfold mq_cpu_offset at hoff hwin
  unfold aff_multiq
  dsimp only
  generalize (if c.reserve_mq = 0 ∧ d.rx + d.txrx > 1 then v.nr_cpu else v.nr_use_cpu) = nr
    at hnr hwin ⊢
  generalize (if c.reserve_mq = 0 ∧ d.rx + d.txrx > 1 then 0 else v.cpu_offset) = off
    at hoff hwin ⊢
  have hstart : 0 ≤ nr - off ∨ nr ≤ off := by omega
  have ha1 : 0 ≤ (if d.rr_multi ≠ 0 then v.cur_mq_cpu else nr - off) ∨ nr ≤ off := by
    by_cases hrr : d.rr_multi ≠ 0
    · rw [if_pos hrr]; exact Or.inl (hcur hrr)
    · rw [if_neg hrr]; exact hstart
  obtain ⟨x, e1⟩ := aff_rx_loop_defined c fs d nr off hnr hoff hwin d.rxq (nr - off)
    ⟨v.cur_mq_cpu, -1, none, t⟩ ha1
  rw [e1]
  by_cases hx : x.1 = 0
  swap
  · simp [hx]
  · have s1 : d.rxq ≠ [] → 0 ≤ x.2.2.rps_cpu ∧ x.2.2.rps_cpu < 31 ∧ ∃ b, x.2.2.buf = some b :=
      fun hq => aff_rx_loop_steer c fs d nr off hnr hoff hwin d.rxq (nr - off) _ x ha1 e1 hq
    obtain ⟨y, e2⟩ := aff_tx_loop_defined c fs d nr off hnr hoff hwin d.txq (nr - off) x.2.2
      hstart (fun h => ⟨(s1 (h11 h)).1, (s1 (h11 h)).2.1⟩)
    obtain ⟨t1, _, t3, t4, t5⟩ := aff_tx_loop_state c fs d nr off d.txq (nr - off) x.2.2 y e2
    have s2 : d.rxq ≠ [] → 0 ≤ y.2.2.rps_cpu ∧ y.2.2.rps_cpu < 31 ∧ ∃ b, y.2.2.buf = some b := by
      intro hq
      obtain ⟨a1, a2, a3⟩ := s1 hq
      rw [t3]
      refine ⟨a1, a2, ?_⟩
      by_cases ht : d.txq = []
      · rw [t4 ht]; exact a3
      · exact t5 ht
    by_cases hy : y.1 = 0
    swap
    · simp [hx, e2, hy]
    · obtain ⟨z, e3⟩ := aff_txrx_loop_defined c fs d nr off hnr hoff hwin d.txrxq (nr - off)
        y.2.2 hstart
      by_cases hz : z.1 = 0
      swap
      · simp [hx, e2, hy, e3, hz]
      · by_cases hu : d.use_rps = 0
        · simp [hx, e2, hy, e3, hz, hu]
        · obtain ⟨hq, hvoff, htopo⟩ := hsteer hu
          obtain ⟨a1, a2, b, a3⟩ := aff_txrx_loop_steer c fs d nr off hnr hoff hwin d.txrxq
            (nr - off) y.2.2 z hstart e3 (by
              rcases hq with hq | hq
              · exact Or.inr (s2 hq)
              · exact Or.inl hq)
          have hsb : ∃ b', steer_buf c v z.2.2.buf z.2.2.rps_cpu = some (some b') := by
            unfold steer_buf
            obtain ⟨r, hr⟩ := node_cpu_mask_defined c.cpunodes v.cpu_offset (z.2.2.buf.getD []) 8
              z.2.2.rps_cpu a1 (by omega) hvoff htopo
            rw [hr]
            by_cases h0 : r.1 = 0
            · exact ⟨_, if_pos h0⟩
            · refine ⟨b, ?_⟩
              simp only [if_neg h0, a3]
          obtain ⟨b', hb'⟩ := hsb
          cases hr : d.rpsq <;> simp [hx, e2, hy, e3, hz, hu, hb', hr]

/-! ### The effects only grow -/

theorem write_file_grows (c : conf_t) (fs : fsys) (fn buf : List Char) (t : List event) :
    ∃ e, (write_file c fs fn buf t).2 = t ++ e := by
  unfold write_file
  split_ifs <;> exact ⟨_, rfl⟩

theorem aff_irq_io_grows (c : conf_t) (fs : fsys) (cpu : Int) (buf name : List Char)
    (node : Int) (fn : List Char) (t : List event) :
    ∃ e, (aff_irq_io c fs cpu buf name node fn t).2 = t ++ e := by
  unfold aff_irq_io
  by_cases hq : c.quiet = 0
  · by_cases hd : c.dryrun = 0
    · simp only [if_pos hq, if_pos hd]
      obtain ⟨e, he⟩ := write_file_grows c fs fn buf
        (t ++ [event.out (if c.verbose ≠ 0 then line_irq_node_verbose cpu buf name node fn
                          else line_irq (fmt_d cpu) name)])
      exact ⟨_, by rw [he, List.append_assoc]⟩
    · simp only [if_pos hq, if_neg hd]
      exact ⟨_, rfl⟩
  · by_cases hd : c.dryrun = 0
    · simp only [if_neg hq, if_pos hd]
      exact write_file_grows c fs fn buf t
    · simp only [if_neg hq, if_neg hd]
      exact ⟨[], (List.append_nil t).symm⟩

theorem aff_rps_loop_grows (c : conf_t) (fs : fsys) (pick : queue → List Char) (node : Int)
    (buf : List Char) :
    ∀ (qs : List queue) (t : List event),
      ∃ e, (aff_rps_loop c fs pick node buf qs t).2 = t ++ e := by
  intro qs
  induction qs with
  | nil => intro t; exact ⟨[], (List.append_nil t).symm⟩
  | cons q rest ih =>
    intro t
    have key : ∀ t1 : List event, (∃ e1, t1 = t ++ e1) →
        ∃ e, (if c.dryrun = 0 then
            match write_file c fs q.fn buf t1 with
            | (true, t2) => aff_rps_loop c fs pick node buf rest t2
            | (false, t2) => (-1, t2)
          else aff_rps_loop c fs pick node buf rest t1).2 = t ++ e := by
      rintro t1 ⟨e1, rfl⟩
      by_cases hd : c.dryrun = 0
      · rw [if_pos hd]
        obtain ⟨e2, he2⟩ := write_file_grows c fs q.fn buf (t ++ e1)
        cases hw : write_file c fs q.fn buf (t ++ e1) with
        | mk ok t2 =>
          rw [hw] at he2
          simp only at he2
          subst he2
          cases ok with
          | true =>
            obtain ⟨e3, he3⟩ := ih (t ++ e1 ++ e2)
            exact ⟨e1 ++ e2 ++ e3, by rw [he3]; simp only [List.append_assoc]⟩
          | false => exact ⟨e1 ++ e2, by simp only [List.append_assoc]⟩
      · rw [if_neg hd]
        obtain ⟨e3, he3⟩ := ih (t ++ e1)
        exact ⟨e1 ++ e3, by rw [he3]; simp only [List.append_assoc]⟩
    simp only [aff_rps_loop]
    by_cases hq : c.quiet = 0
    · simp only [if_pos hq]
      exact key _ ⟨_, rfl⟩
    · simp only [if_neg hq]
      exact key _ ⟨[], (List.append_nil t).symm⟩

theorem aff_txrx_loop_grows (c : conf_t) (fs : fsys) (d : dev) (nr off : Int) :
    ∀ (qs : List queue) (i : Int) (st : mq_state) (x : Int × List queue × mq_state),
      aff_txrx_loop c fs d nr off qs i st = some x → ∃ e, x.2.2.trace = st.trace ++ e := by
  intro qs
  induction qs with
  | nil =>
    intro i st x h
    simp only [aff_txrx_loop, Option.some.injEq] at h
    subst h
    exact ⟨[], (List.append_nil _).symm⟩
  | cons q rest ih =>
    intro i st x h
    rw [aff_txrx_loop_cons] at h
    simp only [Option.bind_eq_some] at h
    obtain ⟨r0, _, buf, _, h⟩ := h
    obtain ⟨e1, he1⟩ := aff_irq_io_grows c fs (r0 + off) buf q.name d.numa_node
      (snprintf 256 (q.fn ++ "/smp_affinity".toList)) st.trace
    by_cases hio : (aff_irq_io c fs (r0 + off) buf q.name d.numa_node
        (snprintf 256 (q.fn ++ "/smp_affinity".toList)) st.trace).1 = true
    · rw [if_pos hio] at h
      simp only [Option.bind_eq_some, Option.some.injEq] at h
      obtain ⟨y, hy, h⟩ := h
      subst h
      obtain ⟨e2, he2⟩ := ih _ _ _ hy
      simp only at he2
      exact ⟨e1 ++ e2, by rw [he2, he1]; simp only [List.append_assoc]⟩
    · rw [if_neg hio] at h
      simp only [Option.some.injEq] at h
      subst h
      exact ⟨e1, he1⟩

/-- The effects of a run of `aff_multiq` begin with those of its three queue loops. -/
theorem aff_multiq_trace (c : conf_t) (fs : fsys) (d : dev) (v : var_t) (t : List event)
    (r : Int × dev × var_t × List event) (h : aff_multiq c fs d v t = some r)
    (x y z : Int × List queue × mq_state)
    (e1 : aff_rx_loop c fs d (mq_nr_use_cpu c d v) (mq_cpu_offset c d v) d.rxq
        (mq_nr_use_cpu c d v - mq_cpu_offset c d v) ⟨v.cur_mq_cpu, -1, none, t⟩ = some x)
    (hx : x.1 = 0)
    (e2 : aff_tx_loop c fs d (mq_nr_use_cpu c d v) (mq_cpu_offset c d v) d.txq
        (mq_nr_use_cpu c d v - mq_cpu_offset c d v) x.2.2 = some y)
    (hy : y.1 = 0)
    (e3 : aff_txrx_loop c fs d (mq_nr_use_cpu c d v) (mq_cpu_offset c d v) d.txrxq
        (mq_nr_use_cpu c d v - mq_cpu_offset c d v) y.2.2 = some z) :
    ∃ e, r.2.2.2 = z.2.2.trace ++ e := by
  unfold aff_multiq at h
  unfold mq_nr_use_cpu at e1 e2 e3
  unfold mq_cpu_offset at e1 e2 e3
  dsimp only at h
  rw [e1] at h
  simp [hx] at h
  rw [e2] at h
  simp [hy] at h
  rw [e3] at h
  by_cases hz : z.1 = 0
  swap
  · simp [hz] at h
    subst h
    exact ⟨[], (List.append_nil _).symm⟩
  · simp [hz] at h
    by_cases hu : d.use_rps = 0
    · rw [if_pos hu] at h
      simp only [Option.some.injEq] at h
      subst h
      exact ⟨[], (List.append_nil _).symm⟩
    · rw [if_neg hu] at h
      simp only [Option.bind_eq_some] at h
      obtain ⟨b, _, h⟩ := h
      split at h
      · simp only [Option.some.injEq] at h
        subst h
        exact ⟨[], (List.append_nil _).symm⟩
      · simp at h
      · simp only [Option.some.injEq] at h
        subst h
        exact aff_rps_loop_grows c fs _ _ _ _ _

/-- C13: a device with `rx == 1`, `tx == 1`, the receive queue `qr` and the transmit queue
`qt`, in any window, with any cursor and any `rr_multi`.  In every run of `aff_multiq` the
receive queue is left with a CPU `cpu`, and when its report and write went through, the
effects that follow are the report and write for `qt` of that same CPU and mask (when
they did not, the function has returned and `qt` is not handled).  The run is defined
when the window ends at CPU 30 or below, the cursor is not negative and packet steering
is off. -/
theorem C13_transmit_colocation (c : conf_t) (fs : fsys) (d : dev) (v : var_t)
    (t : List event) (qr qt : queue) (hrx : d.rx = 1) (htx : d.tx = 1) (hrxq : d.rxq = [qr])
    (htxq : d.txq = [qt]) :
    (∀ r, aff_multiq c fs d v t = some r →
      ∃ cpu buf, r.2.1.rxq = [{ qr with assigned_cpu := cpu }] ∧ cpu_mask cpu = some buf ∧
        ((aff_irq_io c fs cpu buf qr.name d.numa_node
            (snprintf 256 (qr.fn ++ "/smp_affinity".toList)) t).1 = false →
          r.2.2.2 = (aff_irq_io c fs cpu buf qr.name d.numa_node
            (snprintf 256 (qr.fn ++ "/smp_affinity".toList)) t).2) ∧
        ((aff_irq_io c fs cpu buf qr.name d.numa_node
            (snprintf 256 (qr.fn ++ "/smp_affinity".toList)) t).1 = true →
          ∃ rest, r.2.2.2 =
            (aff_irq_io c fs cpu buf qt.name d.numa_node
              (snprintf 256 (qt.fn ++ "/smp_affinity".toList))
              (aff_irq_io c fs cpu buf qr.name d.numa_node
                (snprintf 256 (qr.fn ++ "/smp_affinity".toList)) t).2).2 ++ rest)) ∧
    (1 ≤ mq_nr_use_cpu c d v → 0 ≤ mq_cpu_offset c d v →
      mq_cpu_offset c d v + mq_nr_use_cpu c d v ≤ 31 → 0 ≤ v.cur_mq_cpu → d.use_rps = 0 →
      ∃ r, aff_multiq c fs d v t = some r) := by
  refine ⟨?_, ?_⟩
  · intro r h
    obtain ⟨x, e1, k1, k2, k3⟩ := aff_multiq_stages c fs d v t r h
    generalize hnr : mq_nr_use_cpu c d v = nr at e1 k3
    generalize hoff : mq_cpu_offset c d v = off at e1 k3
    have e1' := e1
    rw [hrxq, aff_rx_loop_cons] at e1'
    simp only [Option.bind_eq_some] at e1'
    obtain ⟨r0, _, buf, hbuf, e1'⟩ := e1'
    refine ⟨r0 + off, buf, ?_, hbuf, ?_, ?_⟩
    · rw [k1]
      by_cases hio : (aff_irq_io c fs (r0 + off) buf qr.name d.numa_node
          (snprintf 256 (qr.fn ++ "/smp_affinity".toList)) t).1 = true
      · rw [if_pos hio] at e1'
        simp only [aff_rx_loop, Option.some_bind, Option.some.injEq] at e1'
        rw [← e1']
      · rw [if_neg hio] at e1'
        simp only [Option.some.injEq] at e1'
        rw [← e1']
    · intro hio
      rw [if_neg (by rw [hio]; simp)] at e1'
      simp only [Option.some.injEq] at e1'
      have hx : x.1 ≠ 0 := by rw [← e1']; simp
      rw [k2 hx, ← e1']
    · intro hio
      rw [if_pos hio] at e1'
      simp only [aff_rx_loop, Option.some_bind, Option.some.injEq] at e1'
      have hx : x.1 = 0 := by rw [← e1']
      obtain ⟨y, e2, _, j2, j3⟩ := k3 hx
      have e2' := e2
      rw [htxq, aff_tx_loop_cons] at e2'
      simp only [Option.bind_eq_some, if_pos (And.intro htx hrx)] at e2'
      obtain ⟨r1, _, buf1, hbuf1, e2'⟩ := e2'
      have hrps : x.2.2.rps_cpu = r0 + off := by rw [← e1']
      have htr : x.2.2.trace = (aff_irq_io c fs (r0 + off) buf qr.name d.numa_node
          (snprintf 256 (qr.fn ++ "/smp_affinity".toList)) t).2 := by rw [← e1']
      rw [hrps] at hbuf1 e2'
      rw [hbuf] at hbuf1
      simp only [Option.some.injEq] at hbuf1
      subst hbuf1
      rw [htr] at e2'
      by_cases hio2 : (aff_irq_io c fs (r0 + off) buf qt.name d.numa_node
          (snprintf 256 (qt.fn ++ "/smp_affinity".toList))
          (aff_irq_io c fs (r0 + off) buf qr.name d.numa_node
            (snprintf 256 (qr.fn ++ "/smp_affinity".toList)) t).2).1 = true
      · rw [if_pos hio2] at e2'
        simp only [aff_tx_loop, Option.some_bind, Option.some.injEq] at e2'
        have hy : y.1 = 0 := by rw [← e2']
        obtain ⟨z, e3, _, _, _⟩ := j3 hy
        obtain ⟨ea, ha⟩ := aff_multiq_trace c fs d v t r h x y z
          (by rw [hnr, hoff]; exact e1) hx (by rw [hnr, hoff]; exact e2) hy
          (by rw [hnr, hoff]; exact e3)
        obtain ⟨eb, hb⟩ := aff_txrx_loop_grows c fs d _ _ _ _ _ _ e3
        refine ⟨eb ++ ea, ?_⟩
        rw [ha, hb, ← e2', List.append_assoc]
      · rw [if_neg hio2] at e2'
        simp only [Option.some.injEq] at e2'
        have hy : y.1 ≠ 0 := by rw [← e2']; simp
        refine ⟨[], ?_⟩
        rw [j2 hy, ← e2', List.append_nil]
  · intro hnr hoff hwin hcur hu
    exact aff_multiq_defined c fs d v t hnr hoff hwin (fun _ => hcur)
      (fun _ => by rw [hrxq]; simp) (fun h => absurd hu h)

set_option maxRecDepth 100000 in
/-- C13 at `eth0` with one receive and one transmit queue, in the window of `-m 3` on an
8-CPU machine (cursor 8): the receive queue gets CPU 2 from the cursor and the transmit
queue is reported for CPU 2 as well, where the transmit formula by itself gives CPU 0. -/
theorem C13_transmit_colocation_witness :
    dev_rx1_tx1.rx = 1 ∧ dev_rx1_tx1.tx = 1 ∧
    (∃ r, aff_multiq conf_default fs_ok dev_rx1_tx1 (main_window 3 0 (var_of_cpus 8)) []
      = some r) ∧
    (aff_multiq conf_default fs_ok dev_rx1_tx1 (main_window 3 0 (var_of_cpus 8)) []).map
        (fun r => (r.2.1.rxq.map queue.assigned_cpu, outs r.2.2.2))
      = some ([2], [line_irq "2".toList "eth0-rx-0".toList,
          line_irq "2".toList "eth0-tx-0".toList]) ∧
    Int.tmod (3 - 0) 3 + 0 = 0 :=
  ⟨rfl, rfl,
   (C13_transmit_colocation conf_default fs_ok dev_rx1_tx1 (main_window 3 0 (var_of_cpus 8)) []
      (queue_new "eth0-rx-0".toList 0 "/proc/irq/40".toList)
      (queue_new "eth0-tx-0".toList 0 "/proc/irq/41".toList) rfl rfl rfl rfl).2
     (by decide) (by decide) (by decide) (by decide) (by decide),
   by decide, by decide⟩

/-- The receive queues a run of `aff_multiq` leaves when the device does not take its CPUs
from the cursor. -/
theorem aff_multiq_rxq_linear (c : conf_t) (fs : fsys) (d : dev) (v : var_t) (t : List event)
    (r : Int × dev × var_t × List event) (hrr : d.rr_multi = 0)
    (h : aff_multiq c fs d v t = some r) :
    ∃ m : Nat, m ≤ d.rxq.length ∧ (d.rxq ≠ [] → 0 < m) ∧ (r.1 = 0 → m = d.rxq.length) ∧
      r.2.1.rxq = assign_first (fun j => Int.tmod j (mq_nr_use_cpu c d v) + mq_cpu_offset c d v)
        m (mq_nr_use_cpu c d v - mq_cpu_offset c d v) d.rxq := by
  obtain ⟨x, e1, k1, k2, _⟩ := aff_multiq_stages c fs d v t r h
  obtain ⟨m, m1, m2, m3, m4, _⟩ := aff_rx_loop_state_linear c fs d _ _ hrr _ _ _ x e1
  refine ⟨m, m1, m3, ?_, by rw [k1, m4]⟩
  intro h0
  apply m2
  by_contra hx
  rw [k2 hx] at h0
  exact hx h0

/-- The receive queues and the cursor a run of `aff_multiq` leaves when the device takes
its CPUs from the cursor. -/
theorem aff_multiq_rxq_rr (c : conf_t) (fs : fsys) (d : dev) (v : var_t) (t : List event)
    (r : Int × dev × var_t × List event) (hrr : d.rr_multi ≠ 0)
    (h : aff_multiq c fs d v t = some r) :
    ∃ m : Nat, m ≤ d.rxq.length ∧ (d.rxq ≠ [] → 0 < m) ∧ (r.1 = 0 → m = d.rxq.length) ∧
      r.2.1.rxq = assign_first (fun j => Int.tmod j (mq_nr_use_cpu c d v) + mq_cpu_offset c d v)
        m v.cur_mq_cpu d.rxq ∧
      r.2.2.1.cur_mq_cpu = v.cur_mq_cpu + m := by
  obtain ⟨x, e1, k1, k2, k3⟩ := aff_multiq_stages c fs d v t r h
  obtain ⟨m, m1, m2, m3, m4, m5, _⟩ := aff_rx_loop_state_rr c fs d _ _ hrr _ _ _ x e1
  simp only at m4 m5
  refine ⟨m, m1, m3, ?_, by rw [k1, m4], ?_⟩
  · intro h0
    apply m2
    by_contra hx
    rw [k2 hx] at h0
    exact hx h0
  · by_cases hx : x.1 = 0
    swap
    · rw [k2 hx, m5]
    · obtain ⟨y, e2, _, j2, j3⟩ := k3 hx
      obtain ⟨_, t2, _⟩ := aff_tx_loop_state c fs d _ _ _ _ _ y e2
      by_cases hy : y.1 = 0
      swap
      · rw [j2 hy]
        show y.2.2.cur_mq_cpu = _
        rw [t2, m5]
      · obtain ⟨z, e3, _, i2, _⟩ := j3 hy
        obtain ⟨_, _, _, _, _, z5, _⟩ := aff_txrx_loop_state c fs d _ _ _ _ _ z e3
        rw [i2]
        show z.2.2.cur_mq_cpu = _
        rw [z5, t2, m5]

theorem aff_tx_loop_grows (c : conf_t) (fs : fsys) (d : dev) (nr off : Int) :
    ∀ (qs : List queue) (i : Int) (st : mq_state) (x : Int × List queue × mq_state),
      aff_tx_loop c fs d nr off qs i st = some x → ∃ e, x.2.2.trace = st.trace ++ e := by
  intro qs
  induction qs with
  | nil =>
    intro i st x h
    simp only [aff_tx_loop, Option.some.injEq] at h
    subst h
    exact ⟨[], (List.append_nil _).symm⟩
  | cons q rest ih =>
    intro i st x h
    rw [aff_tx_loop_cons] at h
    simp only [Option.bind_eq_some] at h
    obtain ⟨r0, _, buf, _, h⟩ := h
    generalize (if d.tx = 1 ∧ d.rx = 1 then st.rps_cpu else r0 + off) = cpu at h
    obtain ⟨e1, he1⟩ := aff_irq_io_grows c fs cpu buf q.name d.numa_node
      (snprintf 256 (q.fn ++ "/smp_affinity".toList)) st.trace
    by_cases hio : (aff_irq_io c fs cpu buf q.name d.numa_node
        (snprintf 256 (q.fn ++ "/smp_affinity".toList)) st.trace).1 = true
    · rw [if_pos hio] at h
      simp only [Option.bind_eq_some, Option.some.injEq] at h
      obtain ⟨y, hy, h⟩ := h
      subst h
      obtain ⟨e2, he2⟩ := ih _ _ _ hy
      simp only at he2
      exact ⟨e1 ++ e2, by rw [he2, he1]; simp only [List.append_assoc]⟩
    · rw [if_neg hio] at h
      simp only [Option.some.injEq] at h
      subst h
      exact ⟨e1, he1⟩

/-- The effects of the transmit-queue loop begin with the report and write of its first
queue, for the CPU of the first round. -/
theorem aff_tx_loop_first (c : conf_t) (fs : fsys) (d : dev) (nr off : Int) (q : queue)
    (rest : List queue) (i : Int) (st : mq_state) (y : Int × List queue × mq_state)
    (h : aff_tx_loop c fs d nr off (q :: rest) i st = some y) :
    ∃ buf e,
      cpu_mask (if d.tx = 1 ∧ d.rx = 1 then st.rps_cpu else Int.tmod i nr + off) = some buf ∧
      y.2.2.trace =
        (aff_irq_io c fs (if d.tx = 1 ∧ d.rx = 1 then st.rps_cpu else Int.tmod i nr + off) buf
          q.name d.numa_node (snprintf 256 (q.fn ++ "/smp_affinity".toList)) st.trace).2 ++ e := by
  rw [aff_tx_loop_cons] at h
  simp only [Option.bind_eq_some] at h
  obtain ⟨r0, hr0, buf, hbuf, h⟩ := h
  obtain ⟨_, hr⟩ := c_mod_some _ _ _ hr0
  subst hr
  generalize (if d.tx = 1 ∧ d.rx = 1 then st.rps_cpu else Int.tmod i nr + off) = cpu at h hbuf ⊢
  refine ⟨buf, ?_⟩
  by_cases hio : (aff_irq_io c fs cpu buf q.name d.numa_node
      (snprintf 256 (q.fn ++ "/smp_affinity".toList)) st.trace).1 = true
  · rw [if_pos hio] at h
    simp only [Option.bind_eq_some, Option.some.injEq] at h
    obtain ⟨y1, hy, h⟩ := h
    subst h
    obtain ⟨e2, he2⟩ := aff_tx_loop_grows c fs d nr off _ _ _ _ hy
    exact ⟨e2, hbuf, he2⟩
  · rw [if_neg hio] at h
    simp only [Option.some.injEq] at h
    subst h
    exact ⟨[], hbuf, (List.append_nil _).symm⟩

/-- The CPU of the first round is the offset exactly when the usable count divides the
offset. -/
theorem mq_first_cpu_eq_offset (c : conf_t) (d : dev) (v : var_t) :
    mq_first_cpu c d v = mq_cpu_offset c d v ↔ mq_nr_use_cpu c d v ∣ mq_cpu_offset c d v := by
  unfold mq_first_cpu
  generalize mq_nr_use_cpu c d v = nr
  generalize mq_cpu_offset c d v = off
  constructor
  · intro h
    have h0 : Int.tmod (nr - off) nr = 0 := by omega
    have h1 : nr ∣ nr - off := Int.dvd_of_tmod_eq_zero h0
    exact (dvd_sub_self_left).mp h1
  · intro h
    have h1 : nr ∣ nr - off := (dvd_sub_self_left).mpr h
    rw [Int.tmod_eq_zero_of_dvd h1]
    omega

/-- The effects of a run of `aff_multiq` begin with those of its receive and transmit
loops. -/
theorem aff_multiq_trace_tx (c : conf_t) (fs : fsys) (d : dev) (v : var_t) (t : List event)
    (r : Int × dev × var_t × List event) (h : aff_multiq c fs d v t = some r)
    (x : Int × List queue × mq_state)
    (e1 : aff_rx_loop c fs d (mq_nr_use_cpu c d v) (mq_cpu_offset c d v) d.rxq
        (mq_nr_use_cpu c d v - mq_cpu_offset c d v) ⟨v.cur_mq_cpu, -1, none, t⟩ = some x)
    (hx : x.1 = 0) :
    ∃ y, aff_tx_loop c fs d (mq_nr_use_cpu c d v) (mq_cpu_offset c d v) d.txq
        (mq_nr_use_cpu c d v - mq_cpu_offset c d v) x.2.2 = some y ∧
      ∃ e, r.2.2.2 = y.2.2.trace ++ e := by
  obtain ⟨x', e1', _, _, k3⟩ := aff_multiq_stages c fs d v t r h
  rw [e1] at e1'
  simp only [Option.some.injEq] at e1'
  subst e1'
  obtain ⟨y, e2, _, j2, j3⟩ := k3 hx
  refine ⟨y, e2, ?_⟩
  by_cases hy : y.1 = 0
  swap
  · rw [j2 hy]
    exact ⟨[], (List.append_nil _).symm⟩
  · obtain ⟨z, e3, _, _, _⟩ := j3 hy
    obtain ⟨ea, ha⟩ := aff_multiq_trace c fs d v t r h x y z e1 hx e2 hy e3
    obtain ⟨eb, hb⟩ := aff_txrx_loop_grows c fs d _ _ _ _ _ _ e3
    exact ⟨eb ++ ea, by rw [ha, hb, List.append_assoc]⟩

/-- The combined queues a run of `aff_multiq` that returns 0 leaves. -/
theorem aff_multiq_txrxq (c : conf_t) (fs : fsys) (d : dev) (v : var_t) (t : List event)
    (r : Int × dev × var_t × List event) (h : aff_multiq c fs d v t = some r) (h0 : r.1 = 0) :
    r.2.1.txrxq =
      assign_first (fun j => Int.tmod j (mq_nr_use_cpu c d v) + mq_cpu_offset c d v)
        d.txrxq.length (mq_nr_use_cpu c d v - mq_cpu_offset c d v) d.txrxq := by
  obtain ⟨x, e1, _, k2, k3⟩ := aff_multiq_stages c fs d v t r h
  have hx : x.1 = 0 := by
    by_contra hx
    rw [k2 hx] at h0
    exact hx h0
  obtain ⟨y, e2, _, j2, j3⟩ := k3 hx
  have hy : y.1 = 0 := by
    by_contra hy
    rw [j2 hy] at h0
    exact hy h0
  obtain ⟨z, e3, i1, _, i3⟩ := j3 hy
  have hz : z.1 = 0 := by
    by_contra hz
    rw [(i3 hz).1] at h0
    exact hz h0
  obtain ⟨m, _, m2, _, m4, _⟩ := aff_txrx_loop_state c fs d _ _ _ _ _ z e3
  rw [i1]
  show z.2.1 = _
  rw [m4, m2 hz]

set_option maxRecDepth 100000 in
/-- C16, counterexample: in the window of `-m 4 -r 1` on an 8-CPU machine (four usable
CPUs behind the offset 1, inside the machine) the first receive queue, the first
transmit queue and the first combined queue of a device get CPU 4, not the offset 1. -/
theorem C16_first_queue_misses_offset :
    (main_window 4 1 (var_of_cpus 8)).nr_use_cpu = 4 ∧
    (main_window 4 1 (var_of_cpus 8)).cpu_offset = 1 ∧
    (aff_multiq conf_default fs_ok dev_one_rx (main_window 4 1 (var_of_cpus 8)) []).map
        (fun r => r.2.1.rxq.map queue.assigned_cpu) = some [4] ∧
    (aff_multiq conf_default fs_ok dev_two_tx (main_window 4 1 (var_of_cpus 8)) []).map
        (fun r => outs r.2.2.2)
      = some [line_irq "4".toList "eth0-tx-0".toList, line_irq "1".toList "eth0-tx-1".toList] ∧
    (aff_multiq conf_default fs_ok (dev_combined "eth0".toList 40 2)
        (main_window 4 1 (var_of_cpus 8)) []).map
        (fun r => r.2.1.txrxq.map queue.assigned_cpu) = some [4, 1] := by
  decide

/-- The CPU of the first round in a window whose offset is not above the usable count:
it lies in the window and is the remainder formula with the mathematical remainder. -/
theorem mq_first_cpu_window (c : conf_t) (d : dev) (v : var_t)
    (hnr : 1 ≤ mq_nr_use_cpu c d v) (hle : mq_cpu_offset c d v ≤ mq_nr_use_cpu c d v) :
    mq_first_cpu c d v =
        (mq_nr_use_cpu c d v - mq_cpu_offset c d v) % mq_nr_use_cpu c d v + mq_cpu_offset c d v ∧
    mq_cpu_offset c d v ≤ mq_first_cpu c d v ∧
    mq_first_cpu c d v < mq_cpu_offset c d v + mq_nr_use_cpu c d v ∧
    (0 ≤ mq_cpu_offset c d v →
      (mq_first_cpu c d v = mq_cpu_offset c d v ↔
        mq_cpu_offset c d v = 0 ∨ mq_cpu_offset c d v = mq_nr_use_cpu c d v) ∧
      (0 < mq_cpu_offset c d v → mq_cpu_offset c d v < mq_nr_use_cpu c d v →
        mq_first_cpu c d v = mq_nr_use_cpu c d v)) := by
  unfold mq_first_cpu
  generalize mq_nr_use_cpu c d v = nr at hnr hle ⊢
  generalize mq_cpu_offset c d v = off at hle ⊢
  obtain ⟨w1, w2, w3⟩ := tmod_window (nr - off) nr off (by omega) hnr
  refine ⟨by rw [w3], w1, w2, ?_⟩
  intro h0
  rw [w3]
  by_cases hz : off = 0
  · subst hz
    simp
  · by_cases hn : off = nr
    · subst hn
      simp
    · have hlt : nr - off < nr := by omega
      have hpos : 0 ≤ nr - off := by omega
      rw [Int.emod_eq_of_lt hpos hlt]
      refine ⟨?_, fun _ _ => by omega⟩
      constructor
      · intro h; omega
      · intro h; omega

/-- C16, amended: a device with `rr_multi` clear in a window with `nr_use_cpu >= 1` whose
offset is not above the usable count, so that the start index `nr_use_cpu - cpu_offset`
is not negative.  The CPU of the first round,
`((nr_use_cpu - cpu_offset) % nr_use_cpu) + cpu_offset`, is the remainder formula with the
mathematical remainder and lies in the window; it is the offset exactly when `nr_use_cpu`
divides `cpu_offset`, which for an offset that is not negative means offset 0 or offset
`nr_use_cpu`, and for an offset strictly between it is `nr_use_cpu`.  In every run of
`aff_multiq` the first receive queue is left with that CPU; when the receive loop went
through, the effects that follow are the report and write of the first transmit queue
for that CPU, unless `tx == 1` and `rx == 1`; and when the function returns 0 the first
combined queue is left with that CPU.  The run is defined when the offset is not
negative, the window ends at CPU 30 or below, a device with `tx == 1` and `rx == 1` has
a receive queue and packet steering is off. -/
theorem C16_first_queue_amended (c : conf_t) (fs : fsys) (d : dev) (v : var_t)
    (t : List event) (hrr : d.rr_multi = 0) (hnr : 1 ≤ mq_nr_use_cpu c d v)
    (hle : mq_cpu_offset c d v ≤ mq_nr_use_cpu c d v) :
    (mq_first_cpu c d v =
        (mq_nr_use_cpu c d v - mq_cpu_offset c d v) % mq_nr_use_cpu c d v + mq_cpu_offset c d v ∧
      mq_cpu_offset c d v ≤ mq_first_cpu c d v ∧
      mq_first_cpu c d v < mq_cpu_offset c d v + mq_nr_use_cpu c d v ∧
      (mq_first_cpu c d v = mq_cpu_offset c d v ↔ mq_nr_use_cpu c d v ∣ mq_cpu_offset c d v) ∧
      (0 ≤ mq_cpu_offset c d v →
        (mq_first_cpu c d v = mq_cpu_offset c d v ↔
          mq_cpu_offset c d v = 0 ∨ mq_cpu_offset c d v = mq_nr_use_cpu c d v) ∧
        (0 < mq_cpu_offset c d v → mq_cpu_offset c d v < mq_nr_use_cpu c d v →
          mq_first_cpu c d v = mq_nr_use_cpu c d v))) ∧
    (∀ r, aff_multiq c fs d v t = some r →
      (∀ q rest, d.rxq = q :: rest →
        r.2.1.rxq.head? = some { q with assigned_cpu := mq_first_cpu c d v }) ∧
      (∀ q rest, d.txq = q :: rest → ¬ (d.tx = 1 ∧ d.rx = 1) →
        ∀ x, aff_rx_loop c fs d (mq_nr_use_cpu c d v) (mq_cpu_offset c d v) d.rxq
            (mq_nr_use_cpu c d v - mq_cpu_offset c d v) ⟨v.cur_mq_cpu, -1, none, t⟩ = some x →
          x.1 = 0 →
          ∃ buf e, cpu_mask (mq_first_cpu c d v) = some buf ∧
            r.2.2.2 = (aff_irq_io c fs (mq_first_cpu c d v) buf q.name d.numa_node
              (snprintf 256 (q.fn ++ "/smp_affinity".toList)) x.2.2.trace).2 ++ e) ∧
      (∀ q rest, d.txrxq = q :: rest → r.1 = 0 →
        r.2.1.txrxq.head? = some { q with assigned_cpu := mq_first_cpu c d v })) ∧
    (0 ≤ mq_cpu_offset c d v → mq_cpu_offset c d v + mq_nr_use_cpu c d v ≤ 31 →
      (d.tx = 1 ∧ d.rx = 1 → d.rxq ≠ []) → d.use_rps = 0 →
      ∃ r, aff_multiq c fs d v t = some r) := by
  obtain ⟨w1, w2, w3, w4⟩ := mq_first_cpu_window c d v hnr hle
  refine ⟨⟨w1, w2, w3, mq_first_cpu_eq_offset c d v, w4⟩, ?_, ?_⟩
  · intro r h
    refine ⟨?_, ?_, ?_⟩
    · intro q rest hq
      obtain ⟨m, _, m2, _, m4⟩ := aff_multiq_rxq_linear c fs d v t r hrr h
      rw [m4, hq]
      exact assign_first_head _ m (m2 (by rw [hq]; simp)) _ q rest
    · intro q rest hq h11 x e1 hx
      obtain ⟨y, e2, e, he⟩ := aff_multiq_trace_tx c fs d v t r h x e1 hx
      rw [hq] at e2
      obtain ⟨buf, e', hb, ht⟩ := aff_tx_loop_first c fs d _ _ q rest _ _ y e2
      rw [if_neg h11] at hb ht
      exact ⟨buf, e' ++ e, hb, by rw [he, ht, List.append_assoc]; rfl⟩
    · intro q rest hq h0
      rw [aff_multiq_txrxq c fs d v t r h h0, hq]
      exact assign_first_head _ _ (by simp) _ q rest
  · intro hoff hwin h11 hu
    exact aff_multiq_defined c fs d v t hnr hoff hwin (fun h => absurd hrr h) h11
      (fun h => absurd hu h)

set_option maxRecDepth 100000 in
/-- C16, amended, at `eth0` with two combined queues on an 8-CPU machine: in the window
of `-m 4 -r 4` (offset 4, usable count 4) the first combined queue gets CPU 4, the
offset, and the second CPU 5; the run is defined and returns 0. -/
theorem C16_first_queue_amended_witness :
    (dev_combined "eth0".toList 40 2).rr_multi = 0 ∧
    mq_nr_use_cpu conf_default (dev_combined "eth0".toList 40 2)
      (main_window 4 4 (var_of_cpus 8)) = 4 ∧
    mq_cpu_offset conf_default (dev_combined "eth0".toList 40 2)
      (main_window 4 4 (var_of_cpus 8)) = 4 ∧
    mq_first_cpu conf_default (dev_combined "eth0".toList 40 2)
      (main_window 4 4 (var_of_cpus 8)) = 4 ∧
    (∃ r, aff_multiq conf_default fs_ok (dev_combined "eth0".toList 40 2)
      (main_window 4 4 (var_of_cpus 8)) [] = some r) ∧
    (aff_multiq conf_default fs_ok (dev_combined "eth0".toList 40 2)
        (main_window 4 4 (var_of_cpus 8)) []).map
        (fun r => (r.1, r.2.1.txrxq.map queue.assigned_cpu)) = some (0, [4, 5]) :=
  ⟨rfl, by decide, by decide, by decide,
   (C16_first_queue_amended conf_default fs_ok (dev_combined "eth0".toList 40 2)
      (main_window 4 4 (var_of_cpus 8)) [] rfl (by decide) (by decide)).2.2
     (by decide) (by decide) (by decide) (by decide),
   by decide⟩

/-- The CPU of the first receive queue of a device that takes its CPUs from the cursor. -/
theorem aff_multiq_first_rr (c : conf_t) (fs : fsys) (d : dev) (v : var_t) (t : List event)
    (r : Int × dev × var_t × List event) (hrr : d.rr_multi ≠ 0)
    (h : aff_multiq c fs d v t = some r) (q : queue) (rest : List queue)
    (hq : d.rxq = q :: rest) :
    r.2.1.rxq.head? =
      some { q with
        assigned_cpu := Int.tmod v.cur_mq_cpu (mq_nr_use_cpu c d v) + mq_cpu_offset c d v } := by
  obtain ⟨m, _, m2, _, m4, _⟩ := aff_multiq_rxq_rr c fs d v t r hrr h
  rw [m4, hq]
  exact assign_first_head _ m (m2 (by rw [hq]; simp)) _ q rest

set_option maxRecDepth 100000 in
/-- C18, counterexample: on an 8-CPU machine with `-m 3` the window is three usable CPUs
at the offset 0 and the cursor starts at 8; the first receive queue of a device that
takes its CPUs from the cursor gets CPU `8 % 3 + 0 = 2`, not the offset 0. -/
theorem C18_first_cursor_queue_misses_offset :
    (main_window 3 0 (var_of_cpus 8)).nr_use_cpu = 3 ∧
    (main_window 3 0 (var_of_cpus 8)).cpu_offset = 0 ∧
    (main_window 3 0 (var_of_cpus 8)).cur_mq_cpu = 8 ∧
    (aff_multiq conf_default fs_ok dev_one_rx_rr
        (main_window 3 0 (var_of_cpus 8)) []).map
        (fun r => (r.2.1.rxq.map queue.assigned_cpu, r.2.2.1.cur_mq_cpu)) = some ([2], 9) := by
  decide

/-- C18, amended: on a machine with `nr_cpu >= 1` the window computation of `main` leaves
the cursor at `nr_cpu - cpu_offset`; in every run of `aff_multiq` on a device that takes
its CPUs from the cursor the first receive queue is left with the CPU
`((nr_cpu - cpu_offset) % nr_use_cpu) + cpu_offset` of the window the device is given
(remainder of C), which is that offset exactly when the usable count divides
`nr_cpu - cpu_offset`, and this is so whenever no cap is given and the device is given the
window of `main`.  The run is defined when the cap is not negative, the machine has at
most 31 CPUs, a device with `tx == 1` and `rx == 1` has a receive queue and packet
steering is off. -/
theorem C18_initial_cursor_amended (c : conf_t) (fs : fsys) (d : dev) (v0 : var_t)
    (t : List event) (maxcpu reservedcpus : Int) (hn : 1 ≤ v0.nr_cpu) (hrr : d.rr_multi ≠ 0) :
    (main_window maxcpu reservedcpus v0).cur_mq_cpu
      = v0.nr_cpu - (main_window maxcpu reservedcpus v0).cpu_offset ∧
    (∀ r, aff_multiq c fs d (main_window maxcpu reservedcpus v0) t = some r →
      ∀ q rest, d.rxq = q :: rest →
        r.2.1.rxq.head? =
          some { q with
            assigned_cpu :=
              Int.tmod (v0.nr_cpu - (main_window maxcpu reservedcpus v0).cpu_offset)
                  (mq_nr_use_cpu c d (main_window maxcpu reservedcpus v0))
                + mq_cpu_offset c d (main_window maxcpu reservedcpus v0) }) ∧
    (Int.tmod (v0.nr_cpu - (main_window maxcpu reservedcpus v0).cpu_offset)
          (mq_nr_use_cpu c d (main_window maxcpu reservedcpus v0))
        + mq_cpu_offset c d (main_window maxcpu reservedcpus v0)
        = mq_cpu_offset c d (main_window maxcpu reservedcpus v0) ↔
      mq_nr_use_cpu c d (main_window maxcpu reservedcpus v0) ∣
        v0.nr_cpu - (main_window maxcpu reservedcpus v0).cpu_offset) ∧
    (maxcpu = 0 → (c.reserve_mq ≠ 0 ∨ d.rx + d.txrx ≤ 1) →
      mq_nr_use_cpu c d (main_window maxcpu reservedcpus v0) ∣
        v0.nr_cpu - (main_window maxcpu reservedcpus v0).cpu_offset) ∧
    (0 ≤ maxcpu → v0.nr_cpu ≤ 31 → (d.tx = 1 ∧ d.rx = 1 → d.rxq ≠ []) → d.use_rps = 0 →
      ∃ r, aff_multiq c fs d (main_window maxcpu reservedcpus v0) t = some r) := by
  have hcur : (main_window maxcpu reservedcpus v0).cur_mq_cpu
      = v0.nr_cpu - (main_window maxcpu reservedcpus v0).cpu_offset := rfl
  have hnc : (main_window maxcpu reservedcpus v0).nr_cpu = v0.nr_cpu := rfl
  refine ⟨hcur, ?_, ?_, ?_, ?_⟩
  · intro r h q rest hq
    rw [aff_multiq_first_rr c fs d _ t r hrr h q rest hq, hcur]
  · generalize mq_nr_use_cpu c d (main_window maxcpu reservedcpus v0) = nr
    generalize mq_cpu_offset c d (main_window maxcpu reservedcpus v0) = off
    generalize v0.nr_cpu - (main_window maxcpu reservedcpus v0).cpu_offset = a
    constructor
    · intro h
      exact Int.dvd_of_tmod_eq_zero (by omega)
    · intro h
      rw [Int.tmod_eq_zero_of_dvd h]
      omega
  · intro hm hw
    subst hm
    have hnw : ¬ (c.reserve_mq = 0 ∧ d.rx + d.txrx > 1) := by
      rintro ⟨h1, h2⟩
      rcases hw with hw | hw
      · exact hw h1
      · omega
    have e1 : mq_nr_use_cpu c d (main_window 0 reservedcpus v0)
        = (main_window 0 reservedcpus v0).nr_use_cpu := by
      unfold mq_nr_use_cpu
      rw [if_neg hnw]
    rw [e1, ← hcur, main_window_uncapped reservedcpus v0 hn]
  · intro hm h31 h11 hu
    obtain ⟨w1, w2, w3⟩ := main_window_inside maxcpu reservedcpus v0 hn hm
    have b : 1 ≤ mq_nr_use_cpu c d (main_window maxcpu reservedcpus v0) ∧
        0 ≤ mq_cpu_offset c d (main_window maxcpu reservedcpus v0) ∧
        mq_cpu_offset c d (main_window maxcpu reservedcpus v0)
          + mq_nr_use_cpu c d (main_window maxcpu reservedcpus v0) ≤ 31 := by
      unfold mq_nr_use_cpu mq_cpu_offset
      by_cases hw : c.reserve_mq = 0 ∧ d.rx + d.txrx > 1
      · rw [if_pos hw, if_pos hw, hnc]
        omega
      · rw [if_neg hw, if_neg hw]
        omega
    exact aff_multiq_defined c fs d _ t b.1 b.2.1 b.2.2 (fun _ => by rw [hcur]; omega) h11
      (fun h => absurd hu h)

set_option maxRecDepth 100000 in
/-- C18, amended, on an 8-CPU machine with `-r 2` and no cap: six usable CPUs at the
offset 2, the cursor starts at 6, and the first receive queue of a device that takes its
CPUs from the cursor gets CPU 2, the offset. -/
theorem C18_initial_cursor_amended_witness :
    1 ≤ (var_of_cpus 8).nr_cpu ∧
    dev_one_rx_rr.rr_multi ≠ 0 ∧
    (main_window 0 2 (var_of_cpus 8)).cur_mq_cpu = 6 ∧
    (main_window 0 2 (var_of_cpus 8)).nr_use_cpu = 6 ∧
    (main_window 0 2 (var_of_cpus 8)).cpu_offset = 2 ∧
    (∃ r, aff_multiq conf_default fs_ok dev_one_rx_rr
      (main_window 0 2 (var_of_cpus 8)) [] = some r) ∧
    (aff_multiq conf_default fs_ok dev_one_rx_rr
        (main_window 0 2 (var_of_cpus 8)) []).map
        (fun r => r.2.1.rxq.map queue.assigned_cpu) = some [2] :=
  ⟨by decide, by decide, by decide, by decide, by decide,
   (C18_initial_cursor_amended conf_default fs_ok dev_one_rx_rr
      (var_of_cpus 8) [] 0 2 (by decide) (by decide)).2.2.2.2
     (by decide) (by decide) (by decide) (by decide),
   by decide⟩

/-! ### The reset pass -/

theorem written_append (t u : List event) : written (t ++ u) = written t ++ written u := by
  simp [written, List.filterMap_append]

theorem written_mem_append (t u : List event) (x : List Char × List Char)
    (h : x ∈ written t) : x ∈ written (t ++ u) := by
  rw [written_append]
  exact List.mem_append_left _ h

theorem first_queues_all (l : List queue) : first_queues l (l.length : Int) = some l := by
  unfold first_queues
  rw [if_neg (lt_irrefl _)]
  simp

/-- The effects of a queue loop of the reset pass begin with those before it. -/
theorem reset_irq_loop_grows (c : conf_t) (fs : fsys) (buf : List Char) :
    ∀ (qs : List queue) (t : List event), ∃ e, (reset_irq_loop c fs buf qs t).2 = t ++ e := by
  intro qs
  induction qs with
  | nil => intro t; exact ⟨[], (List.append_nil t).symm⟩
  | cons q rest ih =>
    intro t
    have key : ∀ t1 : List event, (∃ e1, t1 = t ++ e1) →
        ∃ e, (if c.dryrun = 0 then
            match write_file c fs (snprintf 256 (q.fn ++ "/smp_affinity".toList)) buf t1 with
            | (true, t2) => reset_irq_loop c fs buf rest t2
            | (false, t2) => (-1, t2)
          else reset_irq_loop c fs buf rest t1).2 = t ++ e := by
      rintro t1 ⟨e1, rfl⟩
      by_cases hd : c.dryrun = 0
      · rw [if_pos hd]
        obtain ⟨e2, he2⟩ := write_file_grows c fs (snprintf 256 (q.fn ++ "/smp_affinity".toList))
          buf (t ++ e1)
        cases hw : write_file c fs (snprintf 256 (q.fn ++ "/smp_affinity".toList)) buf
            (t ++ e1) with
        | mk ok t2 =>
          rw [hw] at he2
          simp only at he2
          subst he2
          cases ok with
          | true =>
            obtain ⟨e3, he3⟩ := ih (t ++ e1 ++ e2)
            exact ⟨e1 ++ e2 ++ e3, by rw [he3]; simp only [List.append_assoc]⟩
          | false => exact ⟨e1 ++ e2, by simp only [List.append_assoc]⟩
      · rw [if_neg hd]
        obtain ⟨e3, he3⟩ := ih (t ++ e1)
        exact ⟨e1 ++ e3, by rw [he3]; simp only [List.append_assoc]⟩
    simp only [reset_irq_loop]
    by_cases hq : c.quiet = 0
    · simp only [if_pos hq]
      exact key _ ⟨_, rfl⟩
    · simp only [if_neg hq]
      exact key _ ⟨[], (List.append_nil t).symm⟩

/-- A queue loop of the reset pass whose files can all be opened and written returns 0
and has written the mask to the file of each queue. -/
theorem reset_irq_loop_ok (c : conf_t) (hdry : c.dryrun = 0) (fs : fsys) (buf : List Char) :
    ∀ (qs : List queue) (t : List event),
      (∀ q ∈ qs, fs.can_open (snprintf 256 (q.fn ++ "/smp_affinity".toList)) = true ∧
        fs.write_ret (snprintf 256 (q.fn ++ "/smp_affinity".toList)) buf = (buf.length : Int)) →
      (reset_irq_loop c fs buf qs t).1 = 0 ∧
      ∀ q ∈ qs, (snprintf 256 (q.fn ++ "/smp_affinity".toList), buf) ∈
        written (reset_irq_loop c fs buf qs t).2 := by
  intro qs
  induction qs with
  | nil => intro t _; exact ⟨rfl, fun q hq => absurd hq (List.not_mem_nil q)⟩
  | cons q rest ih =>
    intro t h
    obtain ⟨ho, hw⟩ := h q (List.mem_cons_self _ _)
    have hrest := fun x hx => h x (List.mem_cons_of_mem _ hx)
    have key : ∀ t1 : List event,
        (reset_irq_loop c fs buf (q :: rest) t) =
          reset_irq_loop c fs buf rest (t1 ++
            [event.fopen (snprintf 256 (q.fn ++ "/smp_affinity".toList)),
             event.fwrite (snprintf 256 (q.fn ++ "/smp_affinity".toList)) buf]) →
        (reset_irq_loop c fs buf (q :: rest) t).1 = 0 ∧
        ∀ x ∈ q :: rest, (snprintf 256 (x.fn ++ "/smp_affinity".toList), buf) ∈
          written (reset_irq_loop c fs buf (q :: rest) t).2 := by
      intro t1 e
      rw [e]
      obtain ⟨i1, i2⟩ := ih (t1 ++
        [event.fopen (snprintf 256 (q.fn ++ "/smp_affinity".toList)),
         event.fwrite (snprintf 256 (q.fn ++ "/smp_affinity".toList)) buf]) hrest
      refine ⟨i1, ?_⟩
      intro x hx
      rcases List.mem_cons.mp hx with rfl | hx
      · obtain ⟨e3, he3⟩ := reset_irq_loop_grows c fs buf rest (t1 ++
          [event.fopen (snprintf 256 (x.fn ++ "/smp_affinity".toList)),
           event.fwrite (snprintf 256 (x.fn ++ "/smp_affinity".toList)) buf])
        rw [he3]
        apply written_mem_append
        rw [written_append]
        apply List.mem_append_right
        simp [written]
      · exact i2 x hx
    by_cases hq : c.quiet = 0
    · apply key (t ++ [event.out (if c.verbose ≠ 0 then
          line_irq_verbose (demask (some buf)) buf q.name
            (snprintf 256 (q.fn ++ "/smp_affinity".toList))
          else line_irq (demask (some buf)) q.name)])
      simp only [reset_irq_loop, if_pos hq, if_pos hdry, write_file, ho, hw, if_true,
        decide_True]
    · apply key t
      simp only [reset_irq_loop, if_neg hq, if_pos hdry, write_file, ho, hw, if_true,
        decide_True]

/-- A queue loop of the reset pass returns -1 at the first queue whose file cannot be
opened or written in full; the queues after it are not looked at. -/
theorem reset_irq_loop_stops (c : conf_t) (hdry : c.dryrun = 0) (fs : fsys) (buf : List Char)
    (q : queue) (post : List queue) (t : List event)
    (hbad : fs.can_open (snprintf 256 (q.fn ++ "/smp_affinity".toList)) = false ∨
      fs.write_ret (snprintf 256 (q.fn ++ "/smp_affinity".toList)) buf ≠ (buf.length : Int)) :
    (reset_irq_loop c fs buf (q :: post) t).1 = -1 ∧
    reset_irq_loop c fs buf (q :: post) t = reset_irq_loop c fs buf [q] t ∧
    (fs.can_open (snprintf 256 (q.fn ++ "/smp_affinity".toList)) = false → c.silent = 0 →
      event.err ("Failed to open ".toList ++ quote ::
        snprintf 256 (q.fn ++ "/smp_affinity".toList) ++ [quote, nl]) ∈
        (reset_irq_loop c fs buf (q :: post) t).2) := by
  have hw : ∀ t1, (write_file c fs (snprintf 256 (q.fn ++ "/smp_affinity".toList)) buf t1).1
      = false := by
    intro t1
    unfold write_file
    rcases hbad with h | h
    · rw [if_neg (by rw [h]; exact Bool.false_ne_true)]
    · by_cases ho : fs.can_open (snprintf 256 (q.fn ++ "/smp_affinity".toList)) = true
      · rw [if_pos ho]
        exact decide_eq_false h
      · rw [if_neg ho]
  have key : ∀ t1 (rest : List queue),
      (match write_file c fs (snprintf 256 (q.fn ++ "/smp_affinity".toList)) buf t1 with
        | (true, t2) => reset_irq_loop c fs buf rest t2
        | (false, t2) => (-1, t2))
      = (-1, (write_file c fs (snprintf 256 (q.fn ++ "/smp_affinity".toList)) buf t1).2) := by
    intro t1 rest
    have := hw t1
    cases hx : write_file c fs (snprintf 256 (q.fn ++ "/smp_affinity".toList)) buf t1 with
    | mk ok t2 =>
      rw [hx] at this
      simp only at this
      subst this
      rfl
  have e : ∀ rest, reset_irq_loop c fs buf (q :: rest) t =
      (-1, (write_file c fs (snprintf 256 (q.fn ++ "/smp_affinity".toList)) buf
        (if c.quiet = 0 then
          t ++ [event.out (if c.verbose ≠ 0 then
              line_irq_verbose (demask (some buf)) buf q.name
                (snprintf 256 (q.fn ++ "/smp_affinity".toList))
            else line_irq (demask (some buf)) q.name)]
         else t)).2) := by
    intro rest
    simp only [reset_irq_loop, if_pos hdry]
    exact key _ rest
  refine ⟨by rw [e], by rw [e, e], ?_⟩
  intro ho hs
  rw [e]
  unfold write_file
  rw [if_neg (by rw [ho]; exact Bool.false_ne_true), if_pos hs]
  exact List.mem_append_right _ (List.mem_cons_of_mem _ (List.mem_singleton.mpr rfl))
theorem reset_rps_loop_grows (c : conf_t) (fs : fsys) (dname : List Char) :
    ∀ (qs : List queue) (t : List event), ∃ e, (reset_rps_loop c fs dname qs t).2 = t ++ e := by
  intro qs
  induction qs with
  | nil => intro t; exact ⟨[], (List.append_nil t).symm⟩
  | cons q rest ih =>
    intro t
    have key : ∀ t1 : List event, (∃ e1, t1 = t ++ e1) →
        ∃ e, (if c.dryrun = 0 then
            if fs.can_open q.fn = true then
              reset_rps_loop c fs dname rest
                (t1 ++ [event.fopen q.fn, event.fwrite q.fn ['0', '0', nl]])
            else
              (-1, t1 ++ event.fopen q.fn ::
                (if c.silent = 0 then
                  [event.err ("Failed to open ".toList ++ quote :: q.fn ++ [quote, nl])]
                 else []))
          else reset_rps_loop c fs dname rest t1).2 = t ++ e := by
      rintro t1 ⟨e1, rfl⟩
      by_cases hd : c.dryrun = 0
      · rw [if_pos hd]
        by_cases ho : fs.can_open q.fn = true
        · rw [if_pos ho]
          obtain ⟨e3, he3⟩ := ih (t ++ e1 ++ [event.fopen q.fn, event.fwrite q.fn ['0', '0', nl]])
          exact ⟨e1 ++ ([event.fopen q.fn, event.fwrite q.fn ['0', '0', nl]] ++ e3),
            by rw [he3]; simp only [List.append_assoc]⟩
        · rw [if_neg ho]
          exact ⟨e1 ++ event.fopen q.fn ::
            (if c.silent = 0 then
              [event.err ("Failed to open ".toList ++ quote :: q.fn ++ [quote, nl])]
             else []), by simp only [List.append_assoc]⟩
      · rw [if_neg hd]
        obtain ⟨e3, he3⟩ := ih (t ++ e1)
        exact ⟨e1 ++ e3, by rw [he3]; simp only [List.append_assoc]⟩
    simp only [reset_rps_loop]
    by_cases hq : c.quiet = 0
    · simp only [if_pos hq]
      exact key _ ⟨_, rfl⟩
    · simp only [if_neg hq]
      exact key _ ⟨[], (List.append_nil t).symm⟩

/-- The packet-steering loop of the reset pass, when every file can be opened, returns 0
and has written `00` to each file. -/
theorem reset_rps_loop_ok (c : conf_t) (hdry : c.dryrun = 0) (fs : fsys) (dname : List Char) :
    ∀ (qs : List queue) (t : List event), (∀ q ∈ qs, fs.can_open q.fn = true) →
      (reset_rps_loop c fs dname qs t).1 = 0 ∧
      ∀ q ∈ qs, (q.fn, ['0', '0', nl]) ∈ written (reset_rps_loop c fs dname qs t).2 := by
  intro qs
  induction qs with
  | nil => intro t _; exact ⟨rfl, fun q hq => absurd hq (List.not_mem_nil q)⟩
  | cons q rest ih =>
    intro t h
    have ho := h q (List.mem_cons_self _ _)
    have hrest := fun x hx => h x (List.mem_cons_of_mem _ hx)
    have key : ∀ t1 : List event,
        (reset_rps_loop c fs dname (q :: rest) t) =
          reset_rps_loop c fs dname rest
            (t1 ++ [event.fopen q.fn, event.fwrite q.fn ['0', '0', nl]]) →
        (reset_rps_loop c fs dname (q :: rest) t).1 = 0 ∧
        ∀ x ∈ q :: rest, (x.fn, ['0', '0', nl]) ∈
          written (reset_rps_loop c fs dname (q :: rest) t).2 := by
      intro t1 e
      rw [e]
      obtain ⟨i1, i2⟩ := ih (t1 ++ [event.fopen q.fn, event.fwrite q.fn ['0', '0', nl]]) hrest
      refine ⟨i1, ?_⟩
      intro x hx
      rcases List.mem_cons.mp hx with rfl | hx
      · obtain ⟨e3, he3⟩ := reset_rps_loop_grows c fs dname rest
          (t1 ++ [event.fopen x.fn, event.fwrite x.fn ['0', '0', nl]])
        rw [he3]
        apply written_mem_append
        rw [written_append]
        apply List.mem_append_right
        simp [written]
      · exact i2 x hx
    by_cases hq : c.quiet = 0
    · apply key (t ++ [event.out (if c.verbose ≠ 0 then
          "rps: 00 -> ".toList ++ dname ++ ' ' :: q.fn ++ [nl]
          else "rps 00 -> ".toList ++ dname ++ [nl])])
      simp only [reset_rps_loop, if_pos hq, if_pos hdry, ho, if_true]
    · apply key t
      simp only [reset_rps_loop, if_neg hq, if_pos hdry, ho, if_true]

/-- The effects of `reset_multiq` begin with those before it. -/
theorem reset_multiq_grows (c : conf_t) (v : var_t) (fs : fsys) (d : dev) (t : List event)
    (r : Int × List event) (h : reset_multiq c v fs d t = some r) : ∃ e, r.2 = t ++ e := by
  unfold reset_multiq at h
  simp only [Option.bind_eq_bind, Option.bind_eq_some, Option.pure_def] at h
  obtain ⟨cpu, _, rxq, _, h⟩ := h
  obtain ⟨e1, he1⟩ := reset_irq_loop_grows c fs (snprintf 8 (fmt_llx cpu)) rxq t
  split_ifs at h with h1
  · simp only [Option.some.injEq] at h
    subst h
    exact ⟨e1, he1⟩
  · simp only [Option.bind_eq_some] at h
    obtain ⟨_, _, txq, _, h⟩ := h
    obtain ⟨e2, he2⟩ := reset_irq_loop_grows c fs (snprintf 8 (fmt_llx cpu)) txq
      (reset_irq_loop c fs (snprintf 8 (fmt_llx cpu)) rxq t).2
    split_ifs at h with h2
    · simp only [Option.some.injEq] at h
      subst h
      exact ⟨e1 ++ e2, by rw [he2, he1, List.append_assoc]⟩
    · simp only [Option.bind_eq_some] at h
      obtain ⟨_, _, txrxq, _, h⟩ := h
      obtain ⟨e3, he3⟩ := reset_irq_loop_grows c fs (snprintf 8 (fmt_llx cpu)) txrxq
        (reset_irq_loop c fs (snprintf 8 (fmt_llx cpu)) txq
          (reset_irq_loop c fs (snprintf 8 (fmt_llx cpu)) rxq t).2).2
      split_ifs at h with h3
      · simp only [Option.some.injEq] at h
        subst h
        exact ⟨e1 ++ e2 ++ e3, by rw [he3, he2, he1]; simp only [List.append_assoc]⟩
      · simp only [Option.bind_eq_some] at h
        obtain ⟨_, _, rpsq, _, h⟩ := h
        simp only [Option.some.injEq] at h
        subst h
        obtain ⟨e4, he4⟩ := reset_rps_loop_grows c fs d.name rpsq
          (reset_irq_loop c fs (snprintf 8 (fmt_llx cpu)) txrxq
            (reset_irq_loop c fs (snprintf 8 (fmt_llx cpu)) txq
              (reset_irq_loop c fs (snprintf 8 (fmt_llx cpu)) rxq t).2).2).2
        exact ⟨e1 ++ e2 ++ e3 ++ e4, by rw [he4, he3, he2, he1]; simp only [List.append_assoc]⟩
/-- The effects of `reset_singleq` begin with those before it. -/
theorem reset_singleq_grows (c : conf_t) (v : var_t) (fs : fsys) (d : dev) (t : List event)
    (r : Int × List event) (h : reset_singleq c v fs d t = some r) : ∃ e, r.2 = t ++ e := by
  unfold reset_singleq at h
  simp only [Option.bind_eq_bind, Option.bind_eq_some, Option.pure_def] at h
  obtain ⟨cpu, _, h⟩ := h
  have hq : ∃ e0, (if c.quiet = 0 then
        t ++ [event.out (if c.verbose ≠ 0 then
            line_irq_verbose (demask (some (snprintf 8 (fmt_llx cpu))))
              (snprintf 8 (fmt_llx cpu)) d.name (snprintf 256 (d.fn ++ "/smp_affinity".toList))
          else line_irq (demask (some (snprintf 8 (fmt_llx cpu)))) d.name)]
       else t) = t ++ e0 := by
    by_cases hq : c.quiet = 0
    · rw [if_pos hq]; exact ⟨_, rfl⟩
    · rw [if_neg hq]; exact ⟨[], (List.append_nil t).symm⟩
  obtain ⟨e0, he0⟩ := hq
  generalize (if c.quiet = 0 then
        t ++ [event.out (if c.verbose ≠ 0 then
            line_irq_verbose (demask (some (snprintf 8 (fmt_llx cpu))))
              (snprintf 8 (fmt_llx cpu)) d.name (snprintf 256 (d.fn ++ "/smp_affinity".toList))
          else line_irq (demask (some (snprintf 8 (fmt_llx cpu)))) d.name)]
       else t) = t1 at h he0
  subst he0
  have hio : ∃ e1, (if c.dryrun = 0 then
      write_file c fs (snprintf 256 (d.fn ++ "/smp_affinity".toList)) (snprintf 8 (fmt_llx cpu))
        (t ++ e0)
      else (true, t ++ e0)).2 = t ++ e1 := by
    by_cases hd : c.dryrun = 0
    · rw [if_pos hd]
      obtain ⟨e2, he2⟩ := write_file_grows c fs (snprintf 256 (d.fn ++ "/smp_affinity".toList))
        (snprintf 8 (fmt_llx cpu)) (t ++ e0)
      exact ⟨e0 ++ e2, by rw [he2, List.append_assoc]⟩
    · rw [if_neg hd]
      exact ⟨e0, rfl⟩
  obtain ⟨e1, he1⟩ := hio
  generalize (if c.dryrun = 0 then
      write_file c fs (snprintf 256 (d.fn ++ "/smp_affinity".toList)) (snprintf 8 (fmt_llx cpu))
        (t ++ e0)
      else (true, t ++ e0)) = io at h he1
  by_cases hok : (!io.1) = true
  · rw [if_pos hok] at h
    simp only [Option.some.injEq] at h
    subst h
    exact ⟨e1, he1⟩
  · rw [if_neg hok] at h
    simp only [Option.bind_eq_some] at h
    obtain ⟨_, _, rpsq, _, h⟩ := h
    simp only [Option.some.injEq] at h
    subst h
    obtain ⟨e4, he4⟩ := reset_rps_loop_grows c fs d.name rpsq io.2
    exact ⟨e1 ++ e4, by rw [he4, he1, List.append_assoc]⟩

/-- The effects of the reset loop of `main` begin with those before it. -/
theorem reset_pass_grows (c : conf_t) (v : var_t) (fs : fsys) :
    ∀ (ds : List dev) (t tf : List event), reset_pass c v fs ds t = some tf →
      ∃ e, tf = t ++ e := by
  intro ds
  induction ds with
  | nil =>
    intro t tf h
    simp only [reset_pass, Option.some.injEq] at h
    exact ⟨[], by rw [← h, List.append_nil]⟩
  | cons d rest ih =>
    intro t tf h
    simp only [reset_pass] at h
    cases h1 : (if d.single ≠ 0 then reset_singleq c v fs d t else reset_multiq c v fs d t) with
    | none => rw [h1] at h; simp at h
    | some r =>
      rw [h1] at h
      simp only at h
      obtain ⟨e2, he2⟩ := ih _ _ h
      have hp : ∃ e1, r.2 = t ++ e1 := by
        by_cases hs : d.single ≠ 0
        · rw [if_pos hs] at h1
          exact reset_singleq_grows c v fs d t r h1
        · rw [if_neg hs] at h1
          exact reset_multiq_grows c v fs d t r h1
      obtain ⟨e1, he1⟩ := hp
      exact ⟨e1 ++ e2, by rw [he2, he1, List.append_assoc]⟩

/-- The reset loop of `main` over two lists of devices in a row. -/
theorem reset_pass_append (c : conf_t) (v : var_t) (fs : fsys) :
    ∀ (ds1 ds2 : List dev) (t : List event),
      reset_pass c v fs (ds1 ++ ds2) t = (reset_pass c v fs ds1 t).bind (reset_pass c v fs ds2) := by
  intro ds1
  induction ds1 with
  | nil => intro ds2 t; rfl
  | cons d rest ih =>
    intro ds2 t
    simp only [List.cons_append, reset_pass]
    cases h1 : (if d.single ≠ 0 then reset_singleq c v fs d t else reset_multiq c v fs d t) with
    | none => rfl
    | some r => exact ih ds2 r.2
/-- A device with several queues whose files can all be opened and written: `reset_multiq`
returns 0 and has written the mask to the file of each queue and `00` to each
packet-steering file. -/
theorem reset_multiq_ok (c : conf_t) (hdry : c.dryrun = 0) (v : var_t) (fs : fsys) (d : dev)
    (t : List event) (cpu : Nat) (hmask : reset_bitmask v.nr_cpu = some cpu)
    (hs : d.single = 0) (hc : dev_counts_ok d)
    (hf : dev_files_ok fs (snprintf 8 (fmt_llx cpu)) d) :
    ∃ tf, reset_multiq c v fs d t = some (0, tf) ∧
      (∀ q ∈ d.rxq ++ d.txq ++ d.txrxq,
        (snprintf 256 (q.fn ++ "/smp_affinity".toList), snprintf 8 (fmt_llx cpu)) ∈ written tf) ∧
      (∀ q ∈ d.rpsq, (q.fn, ['0', '0', nl]) ∈ written tf) := by
  obtain ⟨⟨c1, c2, c3⟩, c4⟩ := And.intro (hc.1 hs) hc.2
  obtain ⟨_, f2, f3⟩ := hf
  have f2 := f2 hs
  generalize hbuf : snprintf 8 (fmt_llx cpu) = buf at f2 ⊢
  have ok1 := reset_irq_loop_ok c hdry fs buf d.rxq t
    (fun q hq => f2 q (List.mem_append_left _ (List.mem_append_left _ hq)))
  generalize hl1 : reset_irq_loop c fs buf d.rxq t = l1 at ok1
  have ok2 := reset_irq_loop_ok c hdry fs buf d.txq l1.2
    (fun q hq => f2 q (List.mem_append_left _ (List.mem_append_right _ hq)))
  generalize hl2 : reset_irq_loop c fs buf d.txq l1.2 = l2 at ok2
  have ok3 := reset_irq_loop_ok c hdry fs buf d.txrxq l2.2
    (fun q hq => f2 q (List.mem_append_right _ hq))
  generalize hl3 : reset_irq_loop c fs buf d.txrxq l2.2 = l3 at ok3
  have ok4 := reset_rps_loop_ok c hdry fs d.name d.rpsq l3.2 f3
  generalize hl4 : reset_rps_loop c fs d.name d.rpsq l3.2 = l4 at ok4
  obtain ⟨p2, hp2⟩ := reset_irq_loop_grows c fs buf d.txq l1.2
  obtain ⟨p3, hp3⟩ := reset_irq_loop_grows c fs buf d.txrxq l2.2
  obtain ⟨p4, hp4⟩ := reset_rps_loop_grows c fs d.name d.rpsq l3.2
  rw [hl2] at hp2
  rw [hl3] at hp3
  rw [hl4] at hp4
  refine ⟨l4.2, ?_, ?_, ok4.2⟩
  · unfold reset_multiq
    simp only [hmask, c1, c2, c3, c4, first_queues_all, Option.bind_eq_bind, Option.some_bind,
      Option.pure_def, hbuf, hl1, ok1.1, hl2, ok2.1, hl3, ok3.1, hl4, ne_eq, not_true_eq_false,
      if_false]
    rw [← ok4.1]
  · intro q hq
    rcases List.mem_append.mp hq with hq | hq
    · rcases List.mem_append.mp hq with hq | hq
      · rw [hp4, hp3, hp2]
        exact written_mem_append _ _ _ (written_mem_append _ _ _
          (written_mem_append _ _ _ (ok1.2 q hq)))
      · rw [hp4, hp3]
        exact written_mem_append _ _ _ (written_mem_append _ _ _ (ok2.2 q hq))
    · rw [hp4]
      exact written_mem_append _ _ _ (ok3.2 q hq)

/-- A single-queue device whose files can be opened and written: `reset_singleq` returns
0 and has written the mask to the file of the device and `00` to each packet-steering
file. -/
theorem reset_singleq_ok (c : conf_t) (hdry : c.dryrun = 0) (v : var_t) (fs : fsys) (d : dev)
    (t : List event) (cpu : Nat) (hmask : reset_bitmask v.nr_cpu = some cpu)
    (hs : d.single ≠ 0) (hc : dev_counts_ok d)
    (hf : dev_files_ok fs (snprintf 8 (fmt_llx cpu)) d) :
    ∃ tf, reset_singleq c v fs d t = some (0, tf) ∧
      (snprintf 256 (d.fn ++ "/smp_affinity".toList), snprintf 8 (fmt_llx cpu)) ∈ written tf ∧
      (∀ q ∈ d.rpsq, (q.fn, ['0', '0', nl]) ∈ written tf) := by
  obtain ⟨f1, _, f3⟩ := hf
  obtain ⟨fo, fw⟩ := f1 hs
  generalize hbuf : snprintf 8 (fmt_llx cpu) = buf at fo fw ⊢
  generalize hfn : snprintf 256 (d.fn ++ "/smp_affinity".toList) = fnm at fo fw ⊢
  generalize ht1 : (if c.quiet = 0 then
      t ++ [event.out (if c.verbose ≠ 0 then line_irq_verbose (demask (some buf)) buf d.name fnm
                       else line_irq (demask (some buf)) d.name)]
    else t) = t1
  have ok4 := reset_rps_loop_ok c hdry fs d.name d.rpsq
    (t1 ++ [event.fopen fnm, event.fwrite fnm buf]) f3
  obtain ⟨p4, hp4⟩ := reset_rps_loop_grows c fs d.name d.rpsq
    (t1 ++ [event.fopen fnm, event.fwrite fnm buf])
  refine ⟨(reset_rps_loop c fs d.name d.rpsq (t1 ++ [event.fopen fnm, event.fwrite fnm buf])).2,
    ?_, ?_, ok4.2⟩
  · unfold reset_singleq
    simp only [hmask, hc.2, first_queues_all, Option.bind_eq_bind, Option.some_bind,
      Option.pure_def, hbuf, hfn, ht1, if_pos hdry, write_file, fo, fw, if_true, decide_True,
      Bool.not_true, Bool.false_eq_true, if_false]
    rw [← ok4.1]
  · rw [hp4]
    apply written_mem_append
    rw [written_append]
    apply List.mem_append_right
    simp [written]
/-- With counts that are the lengths of the queue lists, `reset_multiq` and
`reset_singleq` are defined when the mask of all CPUs is. -/
theorem reset_dev_defined (c : conf_t) (v : var_t) (fs : fsys) (d : dev) (t : List event)
    (cpu : Nat) (hmask : reset_bitmask v.nr_cpu = some cpu) (hc : dev_counts_ok d) :
    ∃ r, (if d.single ≠ 0 then reset_singleq c v fs d t else reset_multiq c v fs d t) = some r := by
  by_cases hs : d.single ≠ 0
  · rw [if_pos hs]
    unfold reset_singleq
    simp only [hmask, hc.2, first_queues_all, Option.bind_eq_bind, Option.some_bind,
      Option.pure_def]
    split_ifs <;> exact ⟨_, rfl⟩
  · rw [if_neg hs]
    obtain ⟨c1, c2, c3⟩ := hc.1 (not_not.mp hs)
    unfold reset_multiq
    simp only [hmask, c1, c2, c3, hc.2, first_queues_all, Option.bind_eq_bind, Option.some_bind,
      Option.pure_def]
    split_ifs <;> exact ⟨_, rfl⟩

/-- One round of a queue loop of `reset_multiq` with the dry-run flag clear. -/
theorem reset_irq_loop_cons (c : conf_t) (hdry : c.dryrun = 0) (fs : fsys) (buf : List Char)
    (q : queue) (rest : List queue) (t : List event) :
    ∃ t1, touched t1 = touched t ∧
      reset_irq_loop c fs buf (q :: rest) t =
        if (write_file c fs (snprintf 256 (q.fn ++ "/smp_affinity".toList)) buf t1).1 = true then
          reset_irq_loop c fs buf rest
            (write_file c fs (snprintf 256 (q.fn ++ "/smp_affinity".toList)) buf t1).2
        else (-1, (write_file c fs (snprintf 256 (q.fn ++ "/smp_affinity".toList)) buf t1).2) := by
  have key : ∀ t1 : List event,
      (match write_file c fs (snprintf 256 (q.fn ++ "/smp_affinity".toList)) buf t1 with
        | (true, t2) => reset_irq_loop c fs buf rest t2
        | (false, t2) => (-1, t2)) =
      if (write_file c fs (snprintf 256 (q.fn ++ "/smp_affinity".toList)) buf t1).1 = true then
          reset_irq_loop c fs buf rest
            (write_file c fs (snprintf 256 (q.fn ++ "/smp_affinity".toList)) buf t1).2
        else (-1, (write_file c fs (snprintf 256 (q.fn ++ "/smp_affinity".toList)) buf t1).2) := by
    intro t1
    generalize write_file c fs (snprintf 256 (q.fn ++ "/smp_affinity".toList)) buf t1 = w
    obtain ⟨b, t2⟩ := w
    cases b <;> rfl
  by_cases hq : c.quiet = 0
  · refine ⟨t ++ [event.out (if c.verbose ≠ 0 then
        line_irq_verbose (demask (some buf)) buf q.name
          (snprintf 256 (q.fn ++ "/smp_affinity".toList))
        else line_irq (demask (some buf)) q.name)], ?_, ?_⟩
    · rw [touched_append, touched_out, List.append_nil]
    · simp only [reset_irq_loop, if_pos hq, if_pos hdry]
      exact key _
  · refine ⟨t, rfl, ?_⟩
    simp only [reset_irq_loop, if_neg hq, if_pos hdry]
    exact key _

/-- The file accesses of the open-and-write block. -/
theorem write_file_touched (c : conf_t) (fs : fsys) (fn buf : List Char) (t : List event) :
    touched (write_file c fs fn buf t).2 =
      touched t ++ event.fopen fn ::
        (if fs.can_open fn = true then [event.fwrite fn buf] else []) := by
  unfold write_file
  by_cases ho : fs.can_open fn = true
  · rw [if_pos ho, if_pos ho, touched_append]
    rfl
  · rw [if_neg ho, if_neg ho, touched_append]
    by_cases hs : c.silent = 0
    · rw [if_pos hs]; rfl
    · rw [if_neg hs]; rfl

/-- The open-and-write block falls through exactly when the file can be opened and
written in full. -/
theorem write_file_ok_iff (c : conf_t) (fs : fsys) (fn buf : List Char) (t : List event) :
    (write_file c fs fn buf t).1 = true ↔
      fs.can_open fn = true ∧ fs.write_ret fn buf = (buf.length : Int) := by
  unfold write_file
  by_cases ho : fs.can_open fn = true
  · rw [if_pos ho]
    simp [ho]
  · rw [if_neg ho]
    simp [ho]

/-- A queue loop of `reset_multiq` over queues whose files can all be opened and written:
it returns 0, and its file accesses are the open and the write of each queue in turn. -/
theorem reset_irq_loop_touched (c : conf_t) (hdry : c.dryrun = 0) (fs : fsys)
    (buf : List Char) :
    ∀ (qs : List queue) (t : List event),
      (∀ q ∈ qs, fs.can_open (snprintf 256 (q.fn ++ "/smp_affinity".toList)) = true ∧
        fs.write_ret (snprintf 256 (q.fn ++ "/smp_affinity".toList)) buf = (buf.length : Int)) →
      (reset_irq_loop c fs buf qs t).1 = 0 ∧
      touched (reset_irq_loop c fs buf qs t).2 = touched t ++
        (qs.map fun q => [event.fopen (snprintf 256 (q.fn ++ "/smp_affinity".toList)),
          event.fwrite (snprintf 256 (q.fn ++ "/smp_affinity".toList)) buf]).flatten := by
  intro qs
  induction qs with
  | nil => intro t _; exact ⟨rfl, by simp [reset_irq_loop]⟩
  | cons q rest ih =>
    intro t h
    have hq := h q (List.mem_cons_self _ _)
    obtain ⟨t1, e1, e2⟩ := reset_irq_loop_cons c hdry fs buf q rest t
    have hw := (write_file_ok_iff c fs _ buf t1).mpr hq
    rw [e2, if_pos hw]
    obtain ⟨i1, i2⟩ := ih (write_file c fs _ buf t1).2
      (fun x hx => h x (List.mem_cons_of_mem _ hx))
    refine ⟨i1, ?_⟩
    rw [i2, write_file_touched, if_pos hq.1, e1]
    simp only [List.map_cons, List.flatten_cons, List.append_assoc, List.cons_append,
      List.nil_append]

/-- A queue loop of `reset_multiq` at a queue whose file cannot be opened or written in
full: its file accesses are the open of that file, and the write when it was opened. -/
theorem reset_irq_loop_touched_stop (c : conf_t) (hdry : c.dryrun = 0) (fs : fsys)
    (buf : List Char) (q : queue) (post : List queue) (t : List event)
    (hbad : fs.can_open (snprintf 256 (q.fn ++ "/smp_affinity".toList)) = false ∨
      fs.write_ret (snprintf 256 (q.fn ++ "/smp_affinity".toList)) buf ≠ (buf.length : Int)) :
    touched (reset_irq_loop c fs buf (q :: post) t).2 =
      touched t ++ event.fopen (snprintf 256 (q.fn ++ "/smp_affinity".toList)) ::
        (if fs.can_open (snprintf 256 (q.fn ++ "/smp_affinity".toList)) = true then
          [event.fwrite (snprintf 256 (q.fn ++ "/smp_affinity".toList)) buf] else []) := by
  obtain ⟨t1, e1, e2⟩ := reset_irq_loop_cons c hdry fs buf q post t
  have hw : ¬ (write_file c fs (snprintf 256 (q.fn ++ "/smp_affinity".toList)) buf t1).1 = true := by
    rw [write_file_ok_iff]
    rintro ⟨a, b⟩
    rcases hbad with h | h
    · rw [a] at h; exact Bool.noConfusion h
    · exact h b
  rw [e2, if_neg hw, write_file_touched, e1]

/-- A queue loop of `reset_multiq` over two lists in a row: the second is run when the
first returned 0. -/
theorem reset_irq_loop_append (c : conf_t) (fs : fsys) (buf : List Char) :
    ∀ (pre rest : List queue) (t : List event),
      reset_irq_loop c fs buf (pre ++ rest) t =
        if (reset_irq_loop c fs buf pre t).1 = 0 then
          reset_irq_loop c fs buf rest (reset_irq_loop c fs buf pre t).2
        else reset_irq_loop c fs buf pre t := by
  intro pre
  induction pre with
  | nil => intro rest t; simp [reset_irq_loop]
  | cons q pre ih =>
    intro rest t
    have key : ∀ t1 : List event,
        (if c.dryrun = 0 then
          match write_file c fs (snprintf 256 (q.fn ++ "/smp_affinity".toList)) buf t1 with
          | (true, t2) => reset_irq_loop c fs buf (pre ++ rest) t2
          | (false, t2) => (-1, t2)
        else reset_irq_loop c fs buf (pre ++ rest) t1) =
        if (if c.dryrun = 0 then
            match write_file c fs (snprintf 256 (q.fn ++ "/smp_affinity".toList)) buf t1 with
            | (true, t2) => reset_irq_loop c fs buf pre t2
            | (false, t2) => (-1, t2)
          else reset_irq_loop c fs buf pre t1).1 = 0 then
          reset_irq_loop c fs buf rest
            (if c.dryrun = 0 then
              match write_file c fs (snprintf 256 (q.fn ++ "/smp_affinity".toList)) buf t1 with
              | (true, t2) => reset_irq_loop c fs buf pre t2
              | (false, t2) => (-1, t2)
            else reset_irq_loop c fs buf pre t1).2
        else
          (if c.dryrun = 0 then
            match write_file c fs (snprintf 256 (q.fn ++ "/smp_affinity".toList)) buf t1 with
            | (true, t2) => reset_irq_loop c fs buf pre t2
            | (false, t2) => (-1, t2)
          else reset_irq_loop c fs buf pre t1) := by
      intro t1
      by_cases hd : c.dryrun = 0
      · simp only [if_pos hd]
        generalize write_file c fs (snprintf 256 (q.fn ++ "/smp_affinity".toList)) buf t1 = w
        obtain ⟨b, t2⟩ := w
        cases b
        · simp
        · exact ih rest t2
      · simp only [if_neg hd]
        exact ih rest t1
    simp only [List.cons_append, reset_irq_loop]
    exact key _

/-- When one of the three queue loops of `reset_multiq` does not return 0, the function
returns with what the loops over the receive, transmit and combined queues in a row
left. -/
theorem reset_multiq_stops (c : conf_t) (v : var_t) (fs : fsys) (d : dev) (t : List event)
    (cpu : Nat) (hmask : reset_bitmask v.nr_cpu = some cpu)
    (hrx : d.rx = (d.rxq.length : Int)) (htx : d.tx = (d.txq.length : Int))
    (htxrx : d.txrx = (d.txrxq.length : Int))
    (hrc : (reset_irq_loop c fs (snprintf 8 (fmt_llx cpu)) (d.rxq ++ d.txq ++ d.txrxq) t).1 ≠ 0) :
    reset_multiq c v fs d t =
      some (reset_irq_loop c fs (snprintf 8 (fmt_llx cpu)) (d.rxq ++ d.txq ++ d.txrxq) t) := by
  generalize hbuf : snprintf 8 (fmt_llx cpu) = buf at hrc ⊢
  rw [List.append_assoc, reset_irq_loop_append] at hrc ⊢
  unfold reset_multiq
  simp only [hmask, hrx, htx, htxrx, first_queues_all, Option.bind_eq_bind, Option.some_bind,
    Option.pure_def, hbuf]
  by_cases h1 : (reset_irq_loop c fs buf d.rxq t).1 = 0
  · rw [if_pos h1] at hrc ⊢
    rw [reset_irq_loop_append] at hrc ⊢
    rw [if_neg (not_not.mpr h1)]
    by_cases h2 : (reset_irq_loop c fs buf d.txq (reset_irq_loop c fs buf d.rxq t).2).1 = 0
    · rw [if_pos h2] at hrc ⊢
      rw [if_neg (not_not.mpr h2)]
      rw [if_pos hrc]
    · rw [if_neg h2]
      rw [if_pos h2]
  · rw [if_neg h1, if_pos h1]

/-- When the file of a single-queue device cannot be opened or written in full,
`reset_singleq` returns -1 after the open (and the write, when the file was opened):
no other file is touched, and a failed open is reported unless `silent` is set. -/
theorem reset_singleq_stops (c : conf_t) (hdry : c.dryrun = 0) (v : var_t) (fs : fsys)
    (d : dev) (t : List event) (cpu : Nat) (hmask : reset_bitmask v.nr_cpu = some cpu)
    (hbad : fs.can_open (snprintf 256 (d.fn ++ "/smp_affinity".toList)) = false ∨
      fs.write_ret (snprintf 256 (d.fn ++ "/smp_affinity".toList)) (snprintf 8 (fmt_llx cpu))
        ≠ ((snprintf 8 (fmt_llx cpu)).length : Int)) :
    ∃ tf, reset_singleq c v fs d t = some (-1, tf) ∧
      touched tf = touched t ++ event.fopen (snprintf 256 (d.fn ++ "/smp_affinity".toList)) ::
        (if fs.can_open (snprintf 256 (d.fn ++ "/smp_affinity".toList)) = true then
          [event.fwrite (snprintf 256 (d.fn ++ "/smp_affinity".toList))
            (snprintf 8 (fmt_llx cpu))] else []) ∧
      (fs.can_open (snprintf 256 (d.fn ++ "/smp_affinity".toList)) = false → c.silent = 0 →
        event.err ("Failed to open ".toList ++ quote ::
          snprintf 256 (d.fn ++ "/smp_affinity".toList) ++ [quote, nl]) ∈ tf) := by
  generalize hbuf : snprintf 8 (fmt_llx cpu) = buf at hbad ⊢
  generalize hfn : snprintf 256 (d.fn ++ "/smp_affinity".toList) = fnm at hbad ⊢
  have ht1 : ∃ t1, touched t1 = touched t ∧
      (if c.quiet = 0 then
        t ++ [event.out (if c.verbose ≠ 0 then line_irq_verbose (demask (some buf)) buf d.name fnm
                         else line_irq (demask (some buf)) d.name)]
      else t) = t1 := by
    by_cases hq : c.quiet = 0
    · rw [if_pos hq]
      exact ⟨_, by rw [touched_append, touched_out, List.append_nil], rfl⟩
    · rw [if_neg hq]
      exact ⟨t, rfl, rfl⟩
  obtain ⟨t1, e1, e2⟩ := ht1
  have hw : (write_file c fs fnm buf t1).1 = false := by
    have : ¬ (write_file c fs fnm buf t1).1 = true := by
      rw [write_file_ok_iff]
      rintro ⟨a, b⟩
      rcases hbad with h | h
      · rw [a] at h; exact Bool.noConfusion h
      · exact h b
    exact Bool.eq_false_iff.mpr this
  refine ⟨(write_file c fs fnm buf t1).2, ?_, ?_, ?_⟩
  · unfold reset_singleq
    simp only [hmask, Option.bind_eq_bind, Option.some_bind, Option.pure_def, hbuf, hfn, e2,
      if_pos hdry, hw, Bool.not_false, if_true]
  · rw [write_file_touched, e1]
  · intro ho hs
    unfold write_file
    rw [if_neg (by rw [ho]; exact Bool.false_ne_true), if_pos hs]
    exact List.mem_append_right _ (List.mem_cons_of_mem _ (List.mem_singleton.mpr rfl))

/-- When the file of a queue of a device with several queues cannot be opened or written
in full, the files of the queues before it being in order: `reset_multiq` returns -1, its
file accesses are the open and write of each queue before the failed one and the open of
the failed one (and the write, when the file was opened), and a failed open is reported
unless `silent` is set. -/
theorem reset_multiq_stops_at (c : conf_t) (hdry : c.dryrun = 0) (v : var_t) (fs : fsys)
    (d : dev) (t : List event) (cpu : Nat) (hmask : reset_bitmask v.nr_cpu = some cpu)
    (hrx : d.rx = (d.rxq.length : Int)) (htx : d.tx = (d.txq.length : Int))
    (htxrx : d.txrx = (d.txrxq.length : Int))
    (pre : List queue) (q : queue) (post : List queue)
    (hsplit : d.rxq ++ d.txq ++ d.txrxq = pre ++ q :: post)
    (hpre : ∀ p ∈ pre, fs.can_open (snprintf 256 (p.fn ++ "/smp_affinity".toList)) = true ∧
      fs.write_ret (snprintf 256 (p.fn ++ "/smp_affinity".toList)) (snprintf 8 (fmt_llx cpu))
        = ((snprintf 8 (fmt_llx cpu)).length : Int))
    (hbad : fs.can_open (snprintf 256 (q.fn ++ "/smp_affinity".toList)) = false ∨
      fs.write_ret (snprintf 256 (q.fn ++ "/smp_affinity".toList)) (snprintf 8 (fmt_llx cpu))
        ≠ ((snprintf 8 (fmt_llx cpu)).length : Int)) :
    ∃ tf, reset_multiq c v fs d t = some (-1, tf) ∧
      touched tf = touched t ++
        (pre.map fun p => [event.fopen (snprintf 256 (p.fn ++ "/smp_affinity".toList)),
          event.fwrite (snprintf 256 (p.fn ++ "/smp_affinity".toList))
            (snprintf 8 (fmt_llx cpu))]).flatten ++
        event.fopen (snprintf 256 (q.fn ++ "/smp_affinity".toList)) ::
          (if fs.can_open (snprintf 256 (q.fn ++ "/smp_affinity".toList)) = true then
            [event.fwrite (snprintf 256 (q.fn ++ "/smp_affinity".toList))
              (snprintf 8 (fmt_llx cpu))] else []) ∧
      (fs.can_open (snprintf 256 (q.fn ++ "/smp_affinity".toList)) = false → c.silent = 0 →
        event.err ("Failed to open ".toList ++ quote ::
          snprintf 256 (q.fn ++ "/smp_affinity".toList) ++ [quote, nl]) ∈ tf) := by
  have hall : reset_irq_loop c fs (snprintf 8 (fmt_llx cpu)) (d.rxq ++ d.txq ++ d.txrxq) t =
      reset_irq_loop c fs (snprintf 8 (fmt_llx cpu)) (q :: post)
        (reset_irq_loop c fs (snprintf 8 (fmt_llx cpu)) pre t).2 := by
    rw [hsplit, reset_irq_loop_append,
      if_pos (reset_irq_loop_touched c hdry fs _ pre t hpre).1]
  obtain ⟨s1, _, s3⟩ := reset_irq_loop_stops c hdry fs (snprintf 8 (fmt_llx cpu)) q post
    (reset_irq_loop c fs (snprintf 8 (fmt_llx cpu)) pre t).2 hbad
  have hrc : (reset_irq_loop c fs (snprintf 8 (fmt_llx cpu))
      (d.rxq ++ d.txq ++ d.txrxq) t).1 = -1 := by rw [hall]; exact s1
  have hm := reset_multiq_stops c v fs d t cpu hmask hrx htx htxrx (by rw [hrc]; decide)
  refine ⟨(reset_irq_loop c fs (snprintf 8 (fmt_llx cpu)) (d.rxq ++ d.txq ++ d.txrxq) t).2,
    ?_, ?_, ?_⟩
  · rw [hm, ← hrc]
  · rw [hall, reset_irq_loop_touched_stop c hdry fs _ q post _ hbad,
      (reset_irq_loop_touched c hdry fs _ pre t hpre).2]
  · intro ho hs
    rw [hall]
    exact s3 ho hs

/-- A list with an element that has a property splits at the first such element, which
is that one or stands before it. -/
theorem first_bad_split (P : queue → Prop) :
    ∀ (pre : List queue) (q : queue) (post : List queue), P q →
      ∃ pre1 q1 post1, pre ++ q :: post = pre1 ++ q1 :: post1 ∧ (∀ p ∈ pre1, ¬ P p) ∧ P q1 ∧
        ∀ p ∈ pre1 ++ [q1], p ∈ pre ++ [q] := by
  intro pre
  induction pre with
  | nil =>
    intro q post hq
    exact ⟨[], q, post, rfl, fun p hp => absurd hp (List.not_mem_nil p), hq, fun p hp => hp⟩
  | cons a pre ih =>
    intro q post hq
    by_cases ha : P a
    · refine ⟨[], a, pre ++ q :: post, rfl, fun p hp => absurd hp (List.not_mem_nil p), ha, ?_⟩
      intro p hp
      rw [List.nil_append, List.mem_singleton] at hp
      rw [hp]
      exact List.mem_cons_self _ _
    · obtain ⟨pre1, q1, post1, e, h1, h2, h3⟩ := ih q post hq
      refine ⟨a :: pre1, q1, post1, by rw [List.cons_append, e, List.cons_append], ?_, h2, ?_⟩
      · intro p hp
        rcases List.mem_cons.mp hp with rfl | hp
        · exact ha
        · exact h1 p hp
      · intro p hp
        rw [List.cons_append] at hp ⊢
        rcases List.mem_cons.mp hp with rfl | hp
        · exact List.mem_cons_self _ _
        · exact List.mem_cons_of_mem _ (h3 p hp)

/-- When the file of some queue of a device with several queues cannot be opened or
written in full, `reset_multiq` returns -1 and every file access of it is the open or
the write of the file of that queue or of a queue before it. -/
theorem reset_multiq_stops_before (c : conf_t) (hdry : c.dryrun = 0) (v : var_t) (fs : fsys)
    (d : dev) (t : List event) (cpu : Nat) (hmask : reset_bitmask v.nr_cpu = some cpu)
    (hrx : d.rx = (d.rxq.length : Int)) (htx : d.tx = (d.txq.length : Int))
    (htxrx : d.txrx = (d.txrxq.length : Int))
    (pre : List queue) (q : queue) (post : List queue)
    (hsplit : d.rxq ++ d.txq ++ d.txrxq = pre ++ q :: post)
    (hbad : fs.can_open (snprintf 256 (q.fn ++ "/smp_affinity".toList)) = false ∨
      fs.write_ret (snprintf 256 (q.fn ++ "/smp_affinity".toList)) (snprintf 8 (fmt_llx cpu))
        ≠ ((snprintf 8 (fmt_llx cpu)).length : Int)) :
    ∃ tf e, reset_multiq c v fs d t = some (-1, tf) ∧ touched tf = touched t ++ e ∧
      ∀ x ∈ e, ∃ p ∈ pre ++ [q],
        x = event.fopen (snprintf 256 (p.fn ++ "/smp_affinity".toList)) ∨
        x = event.fwrite (snprintf 256 (p.fn ++ "/smp_affinity".toList))
          (snprintf 8 (fmt_llx cpu)) := by
  obtain ⟨pre1, q1, post1, e, h1, h2, h3⟩ := first_bad_split
    (fun q => fs.can_open (snprintf 256 (q.fn ++ "/smp_affinity".toList)) = false ∨
      fs.write_ret (snprintf 256 (q.fn ++ "/smp_affinity".toList)) (snprintf 8 (fmt_llx cpu))
        ≠ ((snprintf 8 (fmt_llx cpu)).length : Int)) pre q post hbad
  have hpre : ∀ p ∈ pre1,
      fs.can_open (snprintf 256 (p.fn ++ "/smp_affinity".toList)) = true ∧
      fs.write_ret (snprintf 256 (p.fn ++ "/smp_affinity".toList)) (snprintf 8 (fmt_llx cpu))
        = ((snprintf 8 (fmt_llx cpu)).length : Int) := by
    intro p hp
    have hn := h1 p hp
    simp only [not_or, not_not] at hn
    exact ⟨Bool.eq_true_of_not_eq_false hn.1, hn.2⟩
  obtain ⟨tf, g1, g2, _⟩ := reset_multiq_stops_at c hdry v fs d t cpu hmask hrx htx htxrx
    pre1 q1 post1 (hsplit.trans e) hpre h2
  refine ⟨tf, _, g1, by rw [g2, List.append_assoc], ?_⟩
  intro x hx
  rcases List.mem_append.mp hx with hx | hx
  · obtain ⟨l, hl, hxl⟩ := List.mem_flatten.mp hx
    obtain ⟨p, hp, rfl⟩ := List.mem_map.mp hl
    refine ⟨p, h3 p (List.mem_append_left _ hp), ?_⟩
    rcases List.mem_cons.mp hxl with rfl | hxl
    · exact Or.inl rfl
    · exact Or.inr (List.mem_singleton.mp hxl)
  · refine ⟨q1, h3 q1 (List.mem_append_right _ (List.mem_singleton.mpr rfl)), ?_⟩
    rcases List.mem_cons.mp hx with rfl | hx
    · exact Or.inl rfl
    · by_cases ho : fs.can_open (snprintf 256 (q1.fn ++ "/smp_affinity".toList)) = true
      · rw [if_pos ho] at hx
        exact Or.inr (List.mem_singleton.mp hx)
      · rw [if_neg ho] at hx
        exact absurd hx (List.not_mem_nil x)

set_option maxRecDepth 100000 in
/-- C14, counterexample: the reset pass on an 8-CPU machine over `eth0` (receive queues on
the interrupts 40 and 41) and the single-queue `eth2` (interrupt 50), when the file of
interrupt 40 cannot be opened: `reset_multiq` returns -1 at once, the file of interrupt
41 is never written though it can be opened, and only the file of `eth2` is written. -/
theorem C14_reset_abandons_device_after_failed_open :
    (fs_without "/proc/irq/40/smp_affinity".toList).can_open
      "/proc/irq/41/smp_affinity".toList = true ∧
    (reset_multiq conf_default (var_of_cpus 8) (fs_without "/proc/irq/40/smp_affinity".toList)
        dev_two_rx []).map (fun r => (r.1, written r.2)) = some (-1, []) ∧
    (reset_pass conf_default (var_of_cpus 8) (fs_without "/proc/irq/40/smp_affinity".toList)
        [dev_two_rx, dev_eth2_plain] []).map written
      = some [("/proc/irq/50/smp_affinity".toList, "ff".toList)] := by
  decide

/-- C14, amended: the reset pass with the dry-run flag clear, `buf` being the mask of all
CPUs.  A queue loop returns -1 at the first queue whose file cannot be opened or written
in full, reports a failed open unless `silent` is set, and does not look at the queues
after it; `reset_multiq` then returns with what that loop left.  So when the file of a
queue of a device fails, in the receive, transmit or combined loop, the files of the
queues before it being in order, `reset_multiq` returns -1 and its file accesses are
exactly the open and write of each queue before the failed one and the open of the
failed one (with the write that came back short, when the file was opened): the files of
the later queues and the packet-steering files of the device are not touched.  Whatever
the queues before it, once the file of a queue fails `reset_multiq` returns -1 and every
file access of it concerns that queue or a queue before it.  In the same way
`reset_singleq` returns -1 when the file of the device fails, with that file as its only
access.  The loop of `main` goes on with the next device: of every device of the list
whose files can be opened and written, the interrupt file of each queue (of the device
when it is single) is written with the mask and each packet-steering file with `00`,
whatever happened to the devices before it.  The pass is defined when the counts of the
devices are the lengths of their queue lists. -/
theorem C14_reset_continues_with_next_device_amended (c : conf_t) (v : var_t) (fs : fsys)
    (cpu : Nat) (hdry : c.dryrun = 0) (hmask : reset_bitmask v.nr_cpu = some cpu) :
    (∀ (q : queue) (post : List queue) (t : List event),
      (fs.can_open (snprintf 256 (q.fn ++ "/smp_affinity".toList)) = false ∨
        fs.write_ret (snprintf 256 (q.fn ++ "/smp_affinity".toList)) (snprintf 8 (fmt_llx cpu))
          ≠ ((snprintf 8 (fmt_llx cpu)).length : Int)) →
      (reset_irq_loop c fs (snprintf 8 (fmt_llx cpu)) (q :: post) t).1 = -1 ∧
      reset_irq_loop c fs (snprintf 8 (fmt_llx cpu)) (q :: post) t
        = reset_irq_loop c fs (snprintf 8 (fmt_llx cpu)) [q] t ∧
      (fs.can_open (snprintf 256 (q.fn ++ "/smp_affinity".toList)) = false → c.silent = 0 →
        event.err ("Failed to open ".toList ++ quote ::
          snprintf 256 (q.fn ++ "/smp_affinity".toList) ++ [quote, nl]) ∈
          (reset_irq_loop c fs (snprintf 8 (fmt_llx cpu)) (q :: post) t).2)) ∧
    (∀ (d : dev) (t : List event), d.rx = (d.rxq.length : Int) →
      (reset_irq_loop c fs (snprintf 8 (fmt_llx cpu)) d.rxq t).1 ≠ 0 →
      reset_multiq c v fs d t = some (reset_irq_loop c fs (snprintf 8 (fmt_llx cpu)) d.rxq t)) ∧
    (∀ (d : dev) (t : List event) (pre : List queue) (q : queue) (post : List queue),
      d.rx = (d.rxq.length : Int) → d.tx = (d.txq.length : Int) →
      d.txrx = (d.txrxq.length : Int) →
      d.rxq ++ d.txq ++ d.txrxq = pre ++ q :: post →
      (∀ p ∈ pre, fs.can_open (snprintf 256 (p.fn ++ "/smp_affinity".toList)) = true ∧
        fs.write_ret (snprintf 256 (p.fn ++ "/smp_affinity".toList)) (snprintf 8 (fmt_llx cpu))
          = ((snprintf 8 (fmt_llx cpu)).length : Int)) →
      (fs.can_open (snprintf 256 (q.fn ++ "/smp_affinity".toList)) = false ∨
        fs.write_ret (snprintf 256 (q.fn ++ "/smp_affinity".toList)) (snprintf 8 (fmt_llx cpu))
          ≠ ((snprintf 8 (fmt_llx cpu)).length : Int)) →
      ∃ tf, reset_multiq c v fs d t = some (-1, tf) ∧
        touched tf = touched t ++
          (pre.map fun p => [event.fopen (snprintf 256 (p.fn ++ "/smp_affinity".toList)),
            event.fwrite (snprintf 256 (p.fn ++ "/smp_affinity".toList))
              (snprintf 8 (fmt_llx cpu))]).flatten ++
          event.fopen (snprintf 256 (q.fn ++ "/smp_affinity".toList)) ::
            (if fs.can_open (snprintf 256 (q.fn ++ "/smp_affinity".toList)) = true then
              [event.fwrite (snprintf 256 (q.fn ++ "/smp_affinity".toList))
                (snprintf 8 (fmt_llx cpu))] else []) ∧
        (fs.can_open (snprintf 256 (q.fn ++ "/smp_affinity".toList)) = false → c.silent = 0 →
          event.err ("Failed to open ".toList ++ quote ::
            snprintf 256 (q.fn ++ "/smp_affinity".toList) ++ [quote, nl]) ∈ tf)) ∧
    (∀ (d : dev) (t : List event) (pre : List queue) (q : queue) (post : List queue),
      d.rx = (d.rxq.length : Int) → d.tx = (d.txq.length : Int) →
      d.txrx = (d.txrxq.length : Int) →
      d.rxq ++ d.txq ++ d.txrxq = pre ++ q :: post →
      (fs.can_open (snprintf 256 (q.fn ++ "/smp_affinity".toList)) = false ∨
        fs.write_ret (snprintf 256 (q.fn ++ "/smp_affinity".toList)) (snprintf 8 (fmt_llx cpu))
          ≠ ((snprintf 8 (fmt_llx cpu)).length : Int)) →
      ∃ tf e, reset_multiq c v fs d t = some (-1, tf) ∧ touched tf = touched t ++ e ∧
        ∀ x ∈ e, ∃ p ∈ pre ++ [q],
          x = event.fopen (snprintf 256 (p.fn ++ "/smp_affinity".toList)) ∨
          x = event.fwrite (snprintf 256 (p.fn ++ "/smp_affinity".toList))
            (snprintf 8 (fmt_llx cpu))) ∧
    (∀ (d : dev) (t : List event),
      (fs.can_open (snprintf 256 (d.fn ++ "/smp_affinity".toList)) = false ∨
        fs.write_ret (snprintf 256 (d.fn ++ "/smp_affinity".toList)) (snprintf 8 (fmt_llx cpu))
          ≠ ((snprintf 8 (fmt_llx cpu)).length : Int)) →
      ∃ tf, reset_singleq c v fs d t = some (-1, tf) ∧
        touched tf = touched t ++
          event.fopen (snprintf 256 (d.fn ++ "/smp_affinity".toList)) ::
            (if fs.can_open (snprintf 256 (d.fn ++ "/smp_affinity".toList)) = true then
              [event.fwrite (snprintf 256 (d.fn ++ "/smp_affinity".toList))
                (snprintf 8 (fmt_llx cpu))] else []) ∧
        (fs.can_open (snprintf 256 (d.fn ++ "/smp_affinity".toList)) = false → c.silent = 0 →
          event.err ("Failed to open ".toList ++ quote ::
            snprintf 256 (d.fn ++ "/smp_affinity".toList) ++ [quote, nl]) ∈ tf)) ∧
    (∀ (ds1 : List dev) (d2 : dev) (ds3 : List dev) (t tf : List event),
      reset_pass c v fs (ds1 ++ d2 :: ds3) t = some tf → dev_counts_ok d2 →
      dev_files_ok fs (snprintf 8 (fmt_llx cpu)) d2 →
      (d2.single ≠ 0 →
        (snprintf 256 (d2.fn ++ "/smp_affinity".toList), snprintf 8 (fmt_llx cpu))
          ∈ written tf) ∧
      (d2.single = 0 → ∀ q ∈ d2.rxq ++ d2.txq ++ d2.txrxq,
        (snprintf 256 (q.fn ++ "/smp_affinity".toList), snprintf 8 (fmt_llx cpu))
          ∈ written tf) ∧
      (∀ q ∈ d2.rpsq, (q.fn, ['0', '0', nl]) ∈ written tf)) ∧
    (∀ (ds : List dev) (t : List event), (∀ d ∈ ds, dev_counts_ok d) →
      ∃ tf, reset_pass c v fs ds t = some tf) := by
  refine ⟨?_, ?_, ?_, ?_, ?_, ?_, ?_⟩
  · intro q post t hbad
    exact reset_irq_loop_stops c hdry fs _ q post t hbad
  · intro d t hrx hrc
    unfold reset_multiq
    simp only [hmask, hrx, first_queues_all, Option.bind_eq_bind, Option.some_bind,
      Option.pure_def, if_pos hrc]
  · intro d t pre q post hrx htx htxrx hsplit hpre hbad
    exact reset_multiq_stops_at c hdry v fs d t cpu hmask hrx htx htxrx pre q post hsplit
      hpre hbad
  · intro d t pre q post hrx htx htxrx hsplit hbad
    exact reset_multiq_stops_before c hdry v fs d t cpu hmask hrx htx htxrx pre q post hsplit
      hbad
  · intro d t hbad
    exact reset_singleq_stops c hdry v fs d t cpu hmask hbad
  · intro ds1 d2 ds3 t tf h hc hf
    rw [reset_pass_append] at h
    cases h1 : reset_pass c v fs ds1 t with
    | none => rw [h1] at h; simp at h
    | some t1 =>
      rw [h1] at h
      simp only [Option.some_bind, reset_pass] at h
      by_cases hs : d2.single ≠ 0
      · rw [if_pos hs] at h
        obtain ⟨t2, e2, w1, w2⟩ := reset_singleq_ok c hdry v fs d2 t1 cpu hmask hs hc hf
        rw [e2] at h
        simp only at h
        obtain ⟨e3, he3⟩ := reset_pass_grows c v fs ds3 t2 tf h
        rw [he3]
        exact ⟨fun _ => written_mem_append _ _ _ w1, fun h0 => absurd h0 hs,
          fun q hq => written_mem_append _ _ _ (w2 q hq)⟩
      · rw [if_neg hs] at h
        obtain ⟨t2, e2, w1, w2⟩ := reset_multiq_ok c hdry v fs d2 t1 cpu hmask (not_not.mp hs)
          hc hf
        rw [e2] at h
        simp only at h
        obtain ⟨e3, he3⟩ := reset_pass_grows c v fs ds3 t2 tf h
        rw [he3]
        exact ⟨fun h0 => absurd h0 hs, fun _ q hq => written_mem_append _ _ _ (w1 q hq),
          fun q hq => written_mem_append _ _ _ (w2 q hq)⟩
  · intro ds
    induction ds with
    | nil => intro t _; exact ⟨t, rfl⟩
    | cons d rest ih =>
      intro t hc
      obtain ⟨r, hr⟩ := reset_dev_defined c v fs d t cpu hmask (hc d (List.mem_cons_self _ _))
      obtain ⟨tf, htf⟩ := ih r.2 (fun x hx => hc x (List.mem_cons_of_mem _ hx))
      refine ⟨tf, ?_⟩
      simp only [reset_pass, hr, htf]

set_option maxRecDepth 100000 in
/-- C14, amended, on an 8-CPU machine.  At the counterexample the file of `eth2`, the
device after the one that failed, is written with the mask `ff` of the eight CPUs.  And
for `eth0` with two receive and four transmit queues (interrupts 40, 41 and 42 to 45) and
two packet-steering files, when the file of the second transmit queue (interrupt 43)
cannot be opened: `reset_multiq` returns -1, having written the files of the interrupts
40, 41 and 42 and opened that of 43 in vain; the files of the interrupts 44 and 45 and
the packet-steering files are not touched. -/
theorem C14_reset_continues_with_next_device_amended_witness :
    conf_default.dryrun = 0 ∧ reset_bitmask (var_of_cpus 8).nr_cpu = some 255 ∧
    (∃ tf, reset_pass conf_default (var_of_cpus 8)
        (fs_without "/proc/irq/40/smp_affinity".toList) [dev_two_rx, dev_eth2_plain] []
        = some tf ∧
      ("/proc/irq/50/smp_affinity".toList, "ff".toList) ∈ written tf) ∧
    (∃ tf, reset_multiq conf_default (var_of_cpus 8)
        (fs_without "/proc/irq/43/smp_affinity".toList) dev_rx2_tx4 [] = some (-1, tf) ∧
      touched tf =
        [event.fopen "/proc/irq/40/smp_affinity".toList,
         event.fwrite "/proc/irq/40/smp_affinity".toList "ff".toList,
         event.fopen "/proc/irq/41/smp_affinity".toList,
         event.fwrite "/proc/irq/41/smp_affinity".toList "ff".toList,
         event.fopen "/proc/irq/42/smp_affinity".toList,
         event.fwrite "/proc/irq/42/smp_affinity".toList "ff".toList,
         event.fopen "/proc/irq/43/smp_affinity".toList]) := by
  have h := C14_reset_continues_with_next_device_amended conf_default (var_of_cpus 8)
    (fs_without "/proc/irq/40/smp_affinity".toList) 255 (by decide) (by decide)
  have h43 := C14_reset_continues_with_next_device_amended conf_default (var_of_cpus 8)
    (fs_without "/proc/irq/43/smp_affinity".toList) 255 (by decide) (by decide)
  have hc : ∀ d ∈ [dev_two_rx, dev_eth2_plain], dev_counts_ok d := by
    intro d hd
    simp only [List.mem_cons, List.mem_singleton, List.not_mem_nil, or_false] at hd
    rcases hd with rfl | rfl
    · exact ⟨fun _ => by decide, by decide⟩
    · exact ⟨fun h0 => absurd h0 (by decide), by decide⟩
  obtain ⟨tf, htf⟩ := h.2.2.2.2.2.2 [dev_two_rx, dev_eth2_plain] [] hc
  have hf : dev_files_ok (fs_without "/proc/irq/40/smp_affinity".toList)
      (snprintf 8 (fmt_llx 255)) dev_eth2_plain :=
    ⟨fun _ => by decide, fun h0 => absurd h0 (by decide),
      fun q hq => absurd hq (List.not_mem_nil q)⟩
  have hw := (h.2.2.2.2.2.1 [dev_two_rx] dev_eth2_plain [] [] tf htf
    (hc dev_eth2_plain (by simp)) hf).1 (by decide)
  obtain ⟨tg, g1, g2, _⟩ := h43.2.2.1 dev_rx2_tx4 []
    [queue_new "eth0-rx-0".toList 0 "/proc/irq/40".toList,
     queue_new "eth0-rx-1".toList 1 "/proc/irq/41".toList,
     queue_new "eth0-tx-0".toList 0 "/proc/irq/42".toList]
    (queue_new "eth0-tx-1".toList 1 "/proc/irq/43".toList)
    [queue_new "eth0-tx-2".toList 2 "/proc/irq/44".toList,
     queue_new "eth0-tx-3".toList 3 "/proc/irq/45".toList]
    (by decide) (by decide) (by decide) (by decide) (by decide) (Or.inl (by decide))
  exact ⟨by decide, by decide, ⟨tf, htf, hw⟩, ⟨tg, g1, g2.trans (by decide)⟩⟩

/-- C21: from a clear `rr_single` and with the heuristics on, `set_heuristics` leaves
`rr_single` set exactly when some device has more than one receive, transmit or combined
queue, or `nr_use_cpu > 1` and the list has more than two devices; and with the flag
left clear every run of `aff_singleq` leaves the device with `cpu_offset` and `var` as it
was.  Such a run is defined when the window ends at CPU 30 or below, the cursor is not
negative and the topology marks no CPU from 31 on. -/
theorem C21_round_robin_single_decision (c : conf_t) (v : var_t) (l : List dev)
    (t : List event) (hclear : c.rr_single = 0) (hheur : c.heuristics ≠ 0) :
    ((set_heuristics c v l t).1.rr_single ≠ 0 ↔
      (∃ d ∈ l, d.rx > 1 ∨ d.tx > 1 ∨ d.txrx > 1) ∨ (v.nr_use_cpu > 1 ∧ 2 < l.length)) ∧
    ((set_heuristics c v l t).1.rr_single = 0 →
      ∀ (fs : fsys) (d : dev) (v1 : var_t) (t1 : List event) (r : Int × dev × var_t × List event),
        aff_singleq (set_heuristics c v l t).1 fs d v1 t1 = some r →
        r.2.1.assigned_cpu = v1.cpu_offset ∧ r.2.2.1 = v1) ∧
    (∀ (fs : fsys) (d : dev) (v1 : var_t) (t1 : List event),
      1 ≤ v1.nr_use_cpu → 0 ≤ v1.cpu_offset → v1.cpu_offset + v1.nr_use_cpu ≤ 31 →
      0 ≤ v1.cur_cpu →
      (∀ node ∈ (set_heuristics c v l t).1.cpunodes, ∀ i, 31 ≤ i → node.at i = 0) →
      ∃ r, aff_singleq (set_heuristics c v l t).1 fs d v1 t1 = some r) := by
  have h5 := (set_heuristics_conf c v l t).2.2.2.2
  refine ⟨?_, ?_, ?_⟩
  · rw [h5, hclear]
    have hlen : ((l.length : Int) > 2) ↔ 2 < l.length := by
      constructor <;> intro h <;> omega
    by_cases hc : (∃ d ∈ l, d.rx > 1 ∨ d.tx > 1 ∨ d.txrx > 1) ∨
        (v.nr_use_cpu > 1 ∧ (l.length : Int) > 2)
    · rw [if_pos ⟨hheur, hc⟩]
      refine ⟨fun _ => ?_, fun _ => by decide⟩
      rcases hc with hc | hc
      · exact Or.inl hc
      · exact Or.inr ⟨hc.1, hlen.mp hc.2⟩
    · rw [if_neg (fun h => hc h.2)]
      refine ⟨fun h => absurd rfl h, fun h => ?_⟩
      exfalso
      apply hc
      rcases h with h | h
      · exact Or.inl h
      · exact Or.inr ⟨h.1, hlen.mpr h.2⟩
  · intro h0 fs d v1 t1 r hr
    obtain ⟨e1, e2⟩ := aff_singleq_state _ fs d v1 t1 r hr
    have hn : ¬ (set_heuristics c v l t).1.rr_single ≠ 0 := fun h => h h0
    rw [if_neg hn] at e1 e2
    exact ⟨by rw [e1], e2⟩
  · intro fs d v1 t1 hnr hoff hwin hcur htopo
    exact aff_singleq_defined _ fs d v1 t1 hnr hoff hwin hcur htopo

set_option maxRecDepth 100000 in
/-- C21 at the two single-queue devices `eth1` and `eth2` on an 8-CPU machine: no device
with several queues and not more than two devices, so `rr_single` stays clear and
`aff_singleq` gives `eth1` the offset, CPU 0. -/
theorem C21_round_robin_single_decision_witness :
    conf_default.rr_single = 0 ∧ conf_default.heuristics ≠ 0 ∧
    (set_heuristics conf_default (var_of_cpus 8) [dev_plain, dev_eth2_plain] []).1.rr_single = 0 ∧
    ¬ ((∃ d ∈ [dev_plain, dev_eth2_plain], d.rx > 1 ∨ d.tx > 1 ∨ d.txrx > 1) ∨
      ((var_of_cpus 8).nr_use_cpu > 1 ∧ 2 < [dev_plain, dev_eth2_plain].length)) ∧
    (aff_singleq (set_heuristics conf_default (var_of_cpus 8) [dev_plain, dev_eth2_plain] []).1
        fs_ok dev_plain (var_of_cpus 8) []).map (fun r => r.2.1.assigned_cpu) = some 0 := by
  have h := C21_round_robin_single_decision conf_default (var_of_cpus 8)
    [dev_plain, dev_eth2_plain] [] (by decide) (by decide)
  have h0 : (set_heuristics conf_default (var_of_cpus 8)
      [dev_plain, dev_eth2_plain] []).1.rr_single = 0 := by decide
  refine ⟨by decide, by decide, h0, ?_, by decide⟩
  intro hc
  exact (h.1.mpr hc) h0

/-- The largest transmit and combined counts the first loop of `set_heuristics` leaves. -/
theorem heur_count_max_eq (l : List dev) : ∀ (c : conf_t) (e s : Int),
    (l.foldl heur_count (c, e, s)).1.max_tx =
      ((l.filter fun d => decide (many_queues d)).map dev.tx).foldl max c.max_tx ∧
    (l.foldl heur_count (c, e, s)).1.max_txrx =
      ((l.filter fun d => decide (many_queues d)).map dev.txrx).foldl max c.max_txrx := by
  induction l with
  | nil => intro c e s; exact ⟨rfl, rfl⟩
  | cons d rest ih =>
    intro c e s
    rw [List.foldl_cons, heur_count_eq]
    by_cases hd : d.rx > 1 ∨ d.tx > 1 ∨ d.txrx > 1
    · have hm : decide (many_queues d) = true := decide_eq_true hd
      obtain ⟨i1, i2⟩ := ih
        { c with
          num_mq := c.num_mq + 1
          max_rx := if d.rx > c.max_rx then d.rx else c.max_rx
          max_tx := if d.tx > c.max_tx then d.tx else c.max_tx
          max_txrx := if d.txrx > c.max_txrx then d.txrx else c.max_txrx } 1
        (if d.single ≠ 0 then 1 else s)
      simp only [if_pos hd, List.filter_cons, hm, if_true, List.map_cons, List.foldl_cons]
      rw [i1, i2]
      have a1 : (if d.tx > c.max_tx then d.tx else c.max_tx) = max c.max_tx d.tx := by
        split_ifs with h
        · exact (max_eq_right (le_of_lt h)).symm
        · exact (max_eq_left (not_lt.mp h)).symm
      have a2 : (if d.txrx > c.max_txrx then d.txrx else c.max_txrx) = max c.max_txrx d.txrx := by
        split_ifs with h
        · exact (max_eq_right (le_of_lt h)).symm
        · exact (max_eq_left (not_lt.mp h)).symm
      simp only [a1, a2]
      exact ⟨trivial, trivial⟩
    · have hm : decide (many_queues d) = false := decide_eq_false hd
      simp only [if_neg hd, List.filter_cons, hm, Bool.false_eq_true, if_false]
      exact ih c e (if d.single ≠ 0 then 1 else s)

/-- C22: from clear `rr_multi` flags and zeroed aggregates, with the heuristics on,
`set_heuristics` leaves `rr_multi` set on a device exactly when the device is not
single-queue, more than one device of the list has several queues of a kind, and either
`txrx <= 1`, `rx < nr_use_cpu` and `rx < max_transmit_queues`, or `txrx > 1`,
`txrx < nr_use_cpu` and `txrx < max_transmit_queues`, where `max_transmit_queues` is
the largest transmit count of the devices with several queues, raised to their largest
combined count. -/
theorem C22_round_robin_multi_decision (c : conf_t) (v : var_t) (l : List dev)
    (t : List event) (hheur : c.heuristics ≠ 0) (hclear : ∀ d ∈ l, d.rr_multi = 0)
    (hzero : c.num_mq = 0 ∧ c.max_rx = 0 ∧ c.max_tx = 0 ∧ c.max_txrx = 0) :
    List.Forall₂
      (fun d d' =>
        d' = { d with use_rps := d'.use_rps, rr_multi := d'.rr_multi } ∧
        (d'.rr_multi ≠ 0 ↔
          d.single = 0 ∧ 1 < (l.filter fun x => decide (many_queues x)).length ∧
          ((d.txrx ≤ 1 ∧ d.rx < v.nr_use_cpu ∧ d.rx < max_transmit_queues l) ∨
           (d.txrx > 1 ∧ d.txrx < v.nr_use_cpu ∧ d.txrx < max_transmit_queues l))))
      l (set_heuristics c v l t).2.1 := by
  obtain ⟨a1, a2, a3, _, _⟩ := set_heuristics_conf c v l t
  obtain ⟨m1, m2⟩ := heur_count_max_eq l c 0 0
  have hnum : (set_heuristics c v l t).1.num_mq
      = ((l.filter fun x => decide (many_queues x)).length : Int) := by
    rw [a2, hzero.1, zero_add, List.countP_eq_length_filter]
    rfl
  have hmax : (set_heuristics c v l t).1.max_tx = max_transmit_queues l := by
    rw [a3, m1, m2, hzero.2.2.1, hzero.2.2.2]
    rfl
  rw [set_heuristics_devs_eq, List.forall₂_map_right_iff, List.forall₂_same]
  intro d hd
  refine ⟨rfl, ?_⟩
  show flag_rr_multi (set_heuristics c v l t).1 v d ≠ 0 ↔ _
  unfold flag_rr_multi
  rw [hnum, hmax, a1, hclear d hd]
  have hcast : (((l.filter fun x => decide (many_queues x)).length : Int) > 1) ↔
      1 < (l.filter fun x => decide (many_queues x)).length := by
    constructor <;> intro h <;> omega
  by_cases hc : d.single = 0 ∧ 1 < (l.filter fun x => decide (many_queues x)).length ∧
      ((d.txrx ≤ 1 ∧ d.rx < v.nr_use_cpu ∧ d.rx < max_transmit_queues l) ∨
       (d.txrx > 1 ∧ d.txrx < v.nr_use_cpu ∧ d.txrx < max_transmit_queues l))
  · rw [if_pos ⟨hheur, hc.1, hcast.mpr hc.2.1, hc.2.2⟩]
    exact ⟨fun _ => hc, fun _ => by decide⟩
  · rw [if_neg (fun h => hc ⟨h.2.1, hcast.mp h.2.2.1, h.2.2.2⟩)]
    exact ⟨fun h => absurd rfl h, fun h => absurd h hc⟩

set_option maxRecDepth 100000 in
/-- C22 at `eth0` and `eth1` (two combined queues each) and `eth2` (four) on an 8-CPU
machine: three devices with several queues, `max_transmit_queues` is 4, and the flag is
set on `eth0` and `eth1` only. -/
theorem C22_round_robin_multi_decision_witness :
    conf_default.heuristics ≠ 0 ∧ (∀ d ∈ devs_combined, d.rr_multi = 0) ∧
    max_transmit_queues devs_combined = 4 ∧
    (set_heuristics conf_default (var_of_cpus 8) devs_combined []).2.1.map dev.rr_multi
      = [1, 1, 0] ∧
    List.Forall₂
      (fun d d' =>
        d' = { d with use_rps := d'.use_rps, rr_multi := d'.rr_multi } ∧
        (d'.rr_multi ≠ 0 ↔
          d.single = 0 ∧ 1 < (devs_combined.filter fun x => decide (many_queues x)).length ∧
          ((d.txrx ≤ 1 ∧ d.rx < (var_of_cpus 8).nr_use_cpu ∧
              d.rx < max_transmit_queues devs_combined) ∨
           (d.txrx > 1 ∧ d.txrx < (var_of_cpus 8).nr_use_cpu ∧
              d.txrx < max_transmit_queues devs_combined))))
      devs_combined (set_heuristics conf_default (var_of_cpus 8) devs_combined []).2.1 :=
  ⟨by decide, by decide, by decide, by decide,
   C22_round_robin_multi_decision conf_default (var_of_cpus 8) devs_combined []
     (by decide) (by decide) (by decide)⟩
/-- C23 (defect in the code): for the node with the CPUs 26 to 29, `cpu_offset = 27` and
the reference CPU 28, `node_cpu_mask` returns 0 with the bit mask of `{27, 28, 29}`,
`0x38000000`, but the mask string it leaves in the eight-byte buffer of its callers is
`3800000`, which denotes the set `{23, 24, 25}`.  For the node `{30, 31}` and the
reference CPU 30 the shift `1 << 31` on `int` is not defined at all. -/
theorem C23_steering_mask_truncated :
    node_cpu_mask [{ n := 0, cpu := cpu_vector [26, 27, 28, 29] }] 27 [] 8 28
      = some (0, 2 ^ 27 + 2 ^ 28 + 2 ^ 29, "3800000".toList) ∧
    set_bits (hex_value "3800000".toList) = [23, 24, 25] ∧
    set_bits (2 ^ 27 + 2 ^ 28 + 2 ^ 29) = [27, 28, 29] ∧
    node_cpu_mask [{ n := 0, cpu := cpu_vector [30, 31] }] 0 [] 8 30 = none := by
  refine ⟨by decide, by decide, by decide, by decide⟩

set_option maxRecDepth 100000 in
/-- C24 (defect in the code): on a topology whose only node holds the CPUs 4 to 7, a
device with packet steering on gets CPU 0, which belongs to no node; `node_cpu_mask`
returns -1 and leaves the buffer alone, its callers drop the return value, and the
interrupt mask `1` still in the buffer is reported and written to the packet-steering
file, by `aff_multiq` and by `aff_singleq` alike. -/
theorem C24_steering_written_without_owning_node :
    node_cpu_mask conf_upper_node.cpunodes 0 "1".toList 8 0 = some (-1, 0, "1".toList) ∧
    (aff_multiq conf_upper_node fs_ok dev_one_rx_rps (var_of_cpus 8) []).map
        (fun r => (r.1, r.2.1.rxq.map queue.assigned_cpu)) = some (0, [0]) ∧
    (aff_multiq conf_upper_node fs_ok dev_one_rx_rps (var_of_cpus 8) []).map
        (fun r => written r.2.2.2)
      = some [("/proc/irq/40/smp_affinity".toList, "1".toList),
          ("/sys/class/net/eth0/queues/rx-0/rps_cpus".toList, "1".toList)] ∧
    (aff_multiq conf_upper_node fs_ok dev_one_rx_rps (var_of_cpus 8) []).map
        (fun r => outs r.2.2.2)
      = some [line_irq "0".toList "eth0-rx-0".toList, line_rps "0".toList "eth0".toList] ∧
    (aff_singleq conf_upper_node fs_ok dev_plain_rps_on (var_of_cpus 8) []).map
        (fun r => (r.1, r.2.1.assigned_cpu)) = some (0, 0) ∧
    (aff_singleq conf_upper_node fs_ok dev_plain_rps_on (var_of_cpus 8) []).map
        (fun r => written r.2.2.2)
      = some [("/proc/irq/41/smp_affinity".toList, "1".toList),
          ("/sys/class/net/eth1/queues/rx-0/rps_cpus".toList, "1".toList)] ∧
    (aff_singleq conf_upper_node fs_ok dev_plain_rps_on (var_of_cpus 8) []).map
        (fun r => outs r.2.2.2)
      = some [line_irq "0".toList "eth1".toList, line_rps "0".toList "eth1".toList] := by
  refine ⟨by decide, by decide, by decide, by decide, by decide, by decide, by decide⟩

/-- C25 (defect in the code): when the NUMA root directory exists but holds no readable
node (it is empty, or its entries are not node directories, or the `cpulist` of a node
cannot be opened), `cpu_nodemap` leaves the node list empty and sets `multinode`: no
fallback node is built, so no CPU belongs to a node. -/
theorem C25_empty_numa_root_gives_no_node :
    cpu_nodemap (some []) [] (var_of_cpus 8)
      = some ([], { var_of_cpus 8 with multinode := 1 }) ∧
    cpu_nodemap (some [("possible".toList, none), ("node0".toList, none)]) [] (var_of_cpus 8)
      = some ([], { var_of_cpus 8 with multinode := 1 }) := by
  refine ⟨by decide, by decide⟩

set_option maxRecDepth 100000 in
/-- C26 (defect in the code): for CPU 28 the mask string of the assign step is `1000000`,
seven of the eight digits of `1 << 28`, which denotes `2^24`; `demask` reads it as CPU
24.  On a 29-CPU machine with `-r 28` (one usable CPU at the offset 28) `aff_singleq`
and `aff_multiq` report CPU 28 and write that string.  For CPU 31 the shift `1 << 31`
on `int` is not defined at all. -/
theorem C26_single_cpu_mask_truncated_at_cpu_28 :
    cpu_mask 28 = some "1000000".toList ∧
    hex_value "1000000".toList = 2 ^ 24 ∧
    demask (some "1000000".toList) = "24".toList ∧
    cpu_mask 31 = none ∧
    (main_window 0 28 (var_of_cpus 29)).nr_use_cpu = 1 ∧
    (main_window 0 28 (var_of_cpus 29)).cpu_offset = 28 ∧
    (aff_singleq conf_29_cpus fs_ok dev_plain (main_window 0 28 (var_of_cpus 29)) []).map
        (fun r => (r.2.1.assigned_cpu, written r.2.2.2))
      = some (28, [("/proc/irq/41/smp_affinity".toList, "1000000".toList)]) ∧
    (aff_singleq conf_29_cpus fs_ok dev_plain (main_window 0 28 (var_of_cpus 29)) []).map
        (fun r => outs r.2.2.2) = some [line_irq "28".toList "eth1".toList] ∧
    (aff_multiq conf_29_cpus fs_ok dev_one_rx (main_window 0 28 (var_of_cpus 29)) []).map
        (fun r => (r.2.1.rxq.map queue.assigned_cpu, written r.2.2.2))
      = some ([28], [("/proc/irq/40/smp_affinity".toList, "1000000".toList)]) ∧
    (aff_multiq conf_29_cpus fs_ok dev_one_rx (main_window 0 28 (var_of_cpus 29)) []).map
        (fun r => outs r.2.2.2) = some [line_irq "28".toList "eth0-rx-0".toList] := by
  refine ⟨by decide, by decide, by decide, by decide, by decide, by decide, by decide,
    by decide, by decide, by decide⟩

end EthAffinity
